import Mathlib

/-!
Verification of the graphgate federated GraphQL gateway (planner and executor)
against its natural-language specification.

The development is a shallow embedding of the relevant Rust code:

* `CV` models `value::ConstValue` (async-graphql values).  Objects are
  insertion-ordered association lists, mirroring `IndexMap<Name, ConstValue>`;
  the `Binary` and `Enum` scalar variants are omitted because every embedded
  function treats them exactly like the other non-container scalars.
* `merge_data`, `rewrite_errors`, `extract_keys`, `get_representations` and
  `flatten_values` are translated from `crates/handler/src/executor.rs`.
* The plan-node types, the selection-set serializer and
  `referenced_variables` are translated from `crates/planner/src/types.rs`,
  `crates/planner/src/plan.rs` and `crates/planner/src/builder.rs`.
* `ComposedSchema.combine` is translated from
  `crates/core/src/schema/composed_schema.rs`.
* The planner traversal (`build_field`, `add_fetch_entity`,
  `build_selection_set`, `build_abstract_selection_set`, the root pass and
  the entity-fetch loop) is translated from `crates/planner/src/builder.rs`;
  `&mut` state is passed explicitly.

Rust in-place mutation becomes explicit state threading; iterators that are
consumed become list arguments returned together with their unconsumed tail.
-/

/- ========================================================================
   Section 1.  Values (`value::ConstValue`) and IndexMap-style object ops.
   ======================================================================== -/

/-- Model of `value::ConstValue`.  Objects are insertion-ordered association
lists, as in `IndexMap<Name, ConstValue>`. -/
inductive CV where
  | null
  | num (n : Int)
  | str (s : String)
  | boolean (b : Bool)
  | list (xs : List CV)
  | object (fields : List (String × CV))

/-- Lookup in an `IndexMap`: the value of the first (unique) entry with the
given key, as in `IndexMap::get`. -/
def obj_get (obj : List (String × CV)) (k : String) : Option CV :=
  match obj with
  | [] => none
  | (k2, v) :: rest => if k2 = k then some v else obj_get rest k

/-- Replace the value of the first entry with the given key (models writing
through `IndexMap::get_mut`).  Leaves the map unchanged when the key is
absent. -/
def obj_set (obj : List (String × CV)) (k : String) (v : CV) : List (String × CV) :=
  match obj with
  | [] => []
  | (k2, v2) :: rest => if k2 = k then (k2, v) :: rest else (k2, v2) :: obj_set rest k v

/-- Key multiset of an object. -/
def obj_keys (obj : List (String × CV)) : List String :=
  obj.map Prod.fst

/-- Model of `IndexMap::swap_remove` (which `IndexMap::remove` aliases):
the removed slot is filled with the last entry. -/
def swap_remove (obj : List (String × CV)) (k : String) : List (String × CV) :=
  match obj.findIdx? (fun e => e.1 = k) with
  | none => obj
  | some i => (obj.set i (obj.getLastD ("", CV.null))).dropLast

/-- Whether a list of keys is duplicate-free; `IndexMap` keys always are. -/
def nodupb (l : List String) : Bool :=
  match l with
  | [] => true
  | x :: rest => (!(rest.contains x)) && nodupb rest

/- ========================================================================
   Section 2.  `merge_data` (crates/handler/src/executor.rs, lines 477-499).
   ======================================================================== -/

mutual
/-- Translation of `merge_data`:  a `Null` target is replaced by the incoming
fragment; objects merge per key; equal-length lists zip; everything else is a
no-op that keeps the target. -/
def merge_data (target : CV) (value : CV) : CV :=
  match target, value with
  | .null, fragment => fragment
  | .object obj, .object fobj => .object (merge_object obj fobj)
  | .list arr, .list farr =>
      if arr.length = farr.length then .list (merge_list arr farr) else .list arr
  | t, _ => t
termination_by (sizeOf value, 0, 0)

/-- The object arm of `merge_data`: iterate the fragment entries; an entry
whose key exists merges into that entry in place, a fresh key is appended
(`IndexMap::insert` on a missing key appends). -/
def merge_object (obj : List (String × CV)) (fobj : List (String × CV)) :
    List (String × CV) :=
  match fobj with
  | [] => obj
  | (k, v) :: rest =>
    if (obj_get obj k).isSome then
      merge_object (merge_into_entry obj k v) rest
    else
      merge_object (obj ++ [(k, v)]) rest
termination_by (sizeOf fobj, 1, 0)

/-- Merge `v` into the value of the first entry keyed `k` (the
`object.get_mut(&key)` + `merge_data(target, value)` step). -/
def merge_into_entry (obj : List (String × CV)) (k : String) (v : CV) :
    List (String × CV) :=
  match obj with
  | [] => []
  | (k2, t) :: rest =>
    if k2 = k then (k2, merge_data t v) :: rest else (k2, t) :: merge_into_entry rest k v
termination_by (sizeOf v, 2, sizeOf obj)

/-- The equal-length list arm of `merge_data`: element-wise merge. -/
def merge_list (arr : List CV) (farr : List CV) : List CV :=
  match arr, farr with
  | a :: as_, f :: fs => merge_data a f :: merge_list as_ fs
  | a, _ => a
termination_by (sizeOf farr, 1, 0)
end

mutual
/-- Well-formedness of a value as it arises from deserialized `IndexMap`s:
every object level has duplicate-free keys. -/
def wf_value (v : CV) : Bool :=
  match v with
  | .list xs => wf_vlist xs
  | .object fs => nodupb (obj_keys fs) && wf_olist fs
  | _ => true
termination_by (sizeOf v, 0)

/-- All elements of a list are well-formed. -/
def wf_vlist (xs : List CV) : Bool :=
  match xs with
  | [] => true
  | x :: rest => wf_value x && wf_vlist rest
termination_by (sizeOf xs, 1)

/-- All values of an object are well-formed. -/
def wf_olist (fs : List (String × CV)) : Bool :=
  match fs with
  | [] => true
  | (_, v) :: rest => wf_value v && wf_olist rest
termination_by (sizeOf fs, 1)
end

/-- In a duplicate-free object, membership determines lookup. -/
theorem obj_get_of_mem {fs : List (String × CV)} {k : String} {v : CV}
    (hmem : (k, v) ∈ fs) (hnd : nodupb (obj_keys fs) = true) :
    obj_get fs k = some v := by
  induction fs with
  | nil => cases hmem
  | cons hd tl ih =>
    obtain ⟨k2, v2⟩ := hd
    rw [obj_keys, List.map_cons] at hnd
    rw [nodupb, Bool.and_eq_true] at hnd
    rcases List.mem_cons.mp hmem with heq | htl
    · cases heq
      simp [obj_get]
    · have hk : k2 ≠ k := by
        intro h
        subst h
        have hmemk : k2 ∈ tl.map Prod.fst := List.mem_map.mpr ⟨(k2, v), htl, rfl⟩
        rw [Bool.not_eq_true'] at hnd
        rw [← List.elem_iff] at hmemk
        have h1 : List.elem k2 (List.map Prod.fst tl) = false := hnd.1
        rw [h1] at hmemk
        cases hmemk
      rw [obj_get, if_neg hk]
      exact ih htl (by rw [obj_keys]; exact hnd.2)

/-- Merging a value into an entry is the identity when the entry's current
value absorbs it. -/
theorem merge_into_entry_self {fs : List (String × CV)} {k : String} {t v : CV}
    (hget : obj_get fs k = some t) (habsorb : merge_data t v = t) :
    merge_into_entry fs k v = fs := by
  induction fs with
  | nil => simp [merge_into_entry]
  | cons hd tl ih =>
    obtain ⟨k2, v2⟩ := hd
    rw [obj_get] at hget
    by_cases hk : k2 = k
    · rw [if_pos hk] at hget
      have hv : v2 = t := by injection hget
      subst hv
      simp only [merge_into_entry, if_pos hk, habsorb]
    · rw [if_neg hk] at hget
      simp only [merge_into_entry, if_neg hk, ih hget]

/-- Merging a fragment whose every entry is already present with an absorbing
value is the identity. -/
theorem merge_object_self {fs frag : List (String × CV)}
    (h : ∀ p ∈ frag, obj_get fs p.1 = some p.2 ∧ merge_data p.2 p.2 = p.2) :
    merge_object fs frag = fs := by
  induction frag with
  | nil => simp [merge_object]
  | cons hd tl ih =>
    obtain ⟨k, v⟩ := hd
    have hh := h (k, v) (List.mem_cons_self _ _)
    have hget : obj_get fs k = some v := hh.1
    rw [merge_object, if_pos (by simp [hget]),
      merge_into_entry_self hget hh.2]
    exact ih (fun p hp => h p (List.mem_cons_of_mem _ hp))

/-- Equal-length self-merge on lists is the identity, given element-wise
absorption. -/
theorem merge_list_self {xs : List CV}
    (h : ∀ x ∈ xs, merge_data x x = x) : merge_list xs xs = xs := by
  induction xs with
  | nil => simp [merge_list]
  | cons x rest ih =>
    rw [merge_list, h x (List.mem_cons_self _ _),
      ih (fun y hy => h y (List.mem_cons_of_mem _ hy))]

/-- Every element of a well-formed value list is well-formed. -/
theorem wf_vlist_mem {xs : List CV} {x : CV} (hx : x ∈ xs)
    (h : wf_vlist xs = true) : wf_value x = true := by
  induction xs with
  | nil => cases hx
  | cons y rest ih =>
    rw [wf_vlist, Bool.and_eq_true] at h
    rcases List.mem_cons.mp hx with heq | htl
    · subst heq; exact h.1
    · exact ih htl h.2

/-- Every value of a well-formed object entry list is well-formed. -/
theorem wf_olist_mem {fs : List (String × CV)} {p : String × CV} (hp : p ∈ fs)
    (h : wf_olist fs = true) : wf_value p.2 = true := by
  induction fs with
  | nil => cases hp
  | cons q rest ih =>
    obtain ⟨k2, v2⟩ := q
    rw [wf_olist, Bool.and_eq_true] at h
    rcases List.mem_cons.mp hp with heq | htl
    · subst heq; exact h.1
    · exact ih htl h.2

/-- Merging `Null` into any target keeps the target (the only arm that could
fire is the `Null` target arm, which then installs `Null` again). -/
theorem merge_data_null (a : CV) : merge_data a CV.null = a := by
  cases a <;> simp [merge_data]

/-- Self-merge is the identity on well-formed values. -/
theorem merge_data_self (a : CV) (h : wf_value a = true) : merge_data a a = a := by
  suffices hstrong : ∀ n (a : CV), sizeOf a ≤ n → wf_value a = true →
      merge_data a a = a from hstrong (sizeOf a) a le_rfl h
  intro n
  induction n with
  | zero => intro a ha; cases a <;> simp at ha
  | succ n ih =>
    intro a ha hwf
    match a with
    | .null => simp [merge_data]
    | .num m => simp [merge_data]
    | .str s => simp [merge_data]
    | .boolean b => simp [merge_data]
    | .list xs =>
      rw [merge_data, if_pos rfl, merge_list_self]
      intro x hx
      have hsz : sizeOf x ≤ n := by
        have := List.sizeOf_lt_of_mem hx
        simp only [CV.list.sizeOf_spec] at ha
        omega
      have hwfx : wf_value x = true := by
        rw [wf_value] at hwf
        exact wf_vlist_mem hx hwf
      exact ih x hsz hwfx
    | .object fs =>
      rw [merge_data, merge_object_self]
      intro p hp
      rw [wf_value, Bool.and_eq_true] at hwf
      refine ⟨obj_get_of_mem hp hwf.1, ?_⟩
      have hsz : sizeOf p.2 ≤ n := by
        have h1 := List.sizeOf_lt_of_mem hp
        obtain ⟨k, v⟩ := p
        simp only [CV.object.sizeOf_spec] at ha
        simp only [Prod.mk.sizeOf_spec] at h1
        simp only
        omega
      have hwfp : wf_value p.2 = true := wf_olist_mem hp hwf.2
      exact ih p.2 hsz hwfp

/-- Shape mismatch as dispatched by `merge_data`'s final `_` arm (given a
non-null target): neither object-into-object nor equal-length
list-into-list. -/
def shape_mismatch (a b : CV) : Bool :=
  match a, b with
  | .object _, .object _ => false
  | .list xs, .list ys => xs.length ≠ ys.length
  | _, _ => true

/-- C7: `merge_data(a, null) = a` for every value; `merge_data(a, a) = a` for
every (finite, duplicate-free-keyed) value built from objects, lists and
scalars; and merging a list of different length, or any other mismatched
shape, into a non-null target leaves the target unchanged. -/
theorem C7_merge_data_laws :
    (∀ a : CV, merge_data a CV.null = a) ∧
    (∀ a : CV, wf_value a = true → merge_data a a = a) ∧
    (∀ a b : CV, a ≠ CV.null → shape_mismatch a b = true → merge_data a b = a) := by
  refine ⟨merge_data_null, merge_data_self, ?_⟩
  intro a b hnull hmm
  cases a <;> cases b <;>
    simp_all [merge_data, shape_mismatch]

/-- Witness for C7 at concrete inputs: a well-formed object self-merges to
itself, and a 1-element list merged into a 2-element list is a no-op. -/
theorem C7_witness :
    merge_data (CV.object [("a", CV.num 1)]) (CV.object [("a", CV.num 1)])
      = CV.object [("a", CV.num 1)] ∧
    merge_data (CV.list [CV.num 1, CV.num 2]) (CV.list [CV.num 3])
      = CV.list [CV.num 1, CV.num 2] := by
  constructor
  · exact C7_merge_data_laws.2.1 (CV.object [("a", CV.num 1)])
      (by simp [wf_value, wf_olist, nodupb, obj_keys])
  · exact C7_merge_data_laws.2.2 (CV.list [CV.num 1, CV.num 2]) (CV.list [CV.num 3])
      (by simp) (by simp [shape_mismatch])

/- ========================================================================
   Section 3.  Response paths, server errors and `rewrite_errors`
   (crates/handler/src/executor.rs, lines 501-536; crates/planner/src/plan.rs).
   ======================================================================== -/

/-- Translation of `PathSegment` (crates/planner/src/plan.rs): a response-path
step with a field name, a list flag, and an optional concrete-type filter. -/
structure PathSegment where
  name : String
  is_list : Bool
  possible_type : Option String
  deriving DecidableEq

/-- Translation of `ResponsePath` (a vector of segments). -/
abbrev ResponsePath := List PathSegment

/-- Translation of `ServerError` (crates/planner/src/response.rs); a source
position is a (line, column) pair. -/
structure ServerError where
  message : String
  path : List CV
  locations : List (Nat × Nat)
  extensions : List (String × CV)

/-- The prefix that `rewrite_errors` builds from a Flatten node's response
path: each segment contributes its name, and list segments additionally
inject a numeric `0` step. -/
def response_path_expand (pp : ResponsePath) : List CV :=
  match pp with
  | [] => []
  | seg :: rest =>
      (CV.str seg.name :: (if seg.is_list then [CV.num 0] else []))
        ++ response_path_expand rest

/-- Translation of the per-error body of `rewrite_errors`.  When the error
path starts with the string `_entities`, `err.path.drain(1..)` moves the tail
segments (numeric steps included) into the new path and leaves the drained
vector holding just its head; the final loop then copies the string segments
of whatever remains of `err.path`. -/
def rewrite_one_error (prefix_path : Option ResponsePath) (err : ServerError) :
    ServerError :=
  let path0 : List CV :=
    match prefix_path with
    | none => []
    | some pp => response_path_expand pp
  let drained : List CV × List CV :=
    match err.path with
    | CV.str s :: rest => if s = "_entities" then (rest, [CV.str s]) else ([], err.path)
    | _ => ([], err.path)
  let path2 :=
    (path0 ++ drained.1) ++
      drained.2.filterMap (fun c =>
        match c with
        | CV.str x => some (CV.str x)
        | _ => none)
  { message := err.message, path := path2,
    locations := err.locations, extensions := err.extensions }

/-- Translation of `rewrite_errors`: every sub-response error is rewritten and
pushed onto the accumulator's error list. -/
def rewrite_errors (prefix_path : Option ResponsePath)
    (target : List ServerError) (errors : List ServerError) : List ServerError :=
  target ++ errors.map (rewrite_one_error prefix_path)

/-- Whether a rewritten path still mentions the internal `_entities` segment. -/
def mentions_entities (path : List CV) : Bool :=
  path.any (fun c =>
    match c with
    | CV.str s => s = "_entities"
    | _ => false)

/-- C1 counterexample: for the Flatten path `[topProducts]` (a list segment)
and a sub-response error with path `["_entities", 0, "body"]`, the rewritten
path is `["topProducts", 0, 0, "body", "_entities"]` — the drained head
`_entities` is appended at the end by the final copy loop, so an `_entities`
segment does remain, contrary to the claim. -/
theorem C1_counterexample :
    (rewrite_errors (some [⟨"topProducts", true, none⟩]) []
        [⟨"m", [CV.str "_entities", CV.num 0, CV.str "body"], [], []⟩]).map
        ServerError.path
      = [[CV.str "topProducts", CV.num 0, CV.num 0, CV.str "body",
          CV.str "_entities"]] ∧
    mentions_entities
        [CV.str "topProducts", CV.num 0, CV.num 0, CV.str "body",
          CV.str "_entities"] = true := by
  constructor
  · rfl
  · rfl

/-- C1 (amended): for a Flatten node execution, an error whose path starts
with `_entities` is copied with that leading segment replaced by the node's
response path (a numeric `0` step injected after each list segment) followed
by the remaining original segments, and with the literal `_entities` segment
appended at the end of the rewritten path; message, locations and extensions
are unchanged. -/
theorem C1_rewrite_errors_entities (pp : ResponsePath)
    (tgt errs : List ServerError) (e : ServerError) (he : e ∈ errs)
    (rest : List CV) (hp : e.path = CV.str "_entities" :: rest) :
    ∃ e2 ∈ rewrite_errors (some pp) tgt errs,
      e2.message = e.message ∧ e2.locations = e.locations ∧
      e2.extensions = e.extensions ∧
      e2.path = response_path_expand pp ++ rest ++ [CV.str "_entities"] := by
  refine ⟨rewrite_one_error (some pp) e, ?_, ?_⟩
  · exact List.mem_append_right _ (List.mem_map.mpr ⟨e, he, rfl⟩)
  · simp [rewrite_one_error, hp]

/-- Witness for C1 at a concrete input. -/
theorem C1_witness :
    ∃ e2 ∈ rewrite_errors (some [⟨"topProducts", true, none⟩]) []
        [⟨"m", [CV.str "_entities", CV.str "body"], [], []⟩],
      e2.message = "m" ∧ e2.locations = [] ∧ e2.extensions = [] ∧
      e2.path = response_path_expand [⟨"topProducts", true, none⟩]
          ++ [CV.str "body"] ++ [CV.str "_entities"] :=
  C1_rewrite_errors_entities [⟨"topProducts", true, none⟩] []
    [⟨"m", [CV.str "_entities", CV.str "body"], [], []⟩]
    ⟨"m", [CV.str "_entities", CV.str "body"], [], []⟩ (by simp)
    [CV.str "body"] rfl

/- ========================================================================
   Section 4.  Flatten-node representation extraction and splicing
   (crates/handler/src/executor.rs, lines 242-474).
   ======================================================================== -/

/-- Translation of the local `Representation` enum of `execute_flatten_node`. -/
inductive EntityRep where
  | keys (v : CV)
  | skip

/-- The alias prefix `format!("__key{}_", prefix)`. -/
def key_pfx (pfx : Nat) : String := "__key" ++ toString pfx ++ "_"

/-- Insert into an `IndexMap`: an existing key's value is replaced in place,
a fresh key is appended. -/
def obj_insert (obj : List (String × CV)) (k : String) (v : CV) :
    List (String × CV) :=
  if (obj_get obj k).isSome then obj_set obj k v else obj ++ [(k, v)]

/-- The key-collection pass of `extract_keys`: all keys of the slot object
that start with the `__key{prefix}_` alias prefix, in map order. -/
def extract_keys_collect (m : List (String × CV)) (p : String) : List String :=
  (m.map Prod.fst).filter (fun k => p.isPrefixOf k)

/-- The removal pass of `extract_keys`: each collected key is removed from the
slot object (`IndexMap::remove`, i.e. swap-remove) and re-inserted into the
representation object without the prefix. -/
def extract_keys_remove (m : List (String × CV)) (p : String) (keys : List String)
    (res : List (String × CV)) : List (String × CV) × List (String × CV) :=
  match keys with
  | [] => (res, m)
  | k :: rest =>
    match obj_get m k with
    | some v =>
        extract_keys_remove (swap_remove m k) p rest (obj_insert res (k.drop p.length) v)
    | none => extract_keys_remove m p rest res

/-- Translation of `extract_keys`: when the path segment carries a
concrete-type filter, the slot is skipped unless its `__key{p}___typename`
entry is a string equal to the filter; otherwise the prefixed entries are
moved out into a `keys` representation. -/
def extract_keys (m : List (String × CV)) (pfx : Nat)
    (possible_type : Option String) : EntityRep × List (String × CV) :=
  let p := key_pfx pfx
  let go : EntityRep × List (String × CV) :=
    let r := extract_keys_remove m p (extract_keys_collect m p) []
    (.keys (CV.object r.1), r.2)
  match possible_type with
  | some pt =>
    match obj_get m (p ++ "__typename") with
    | some (CV.str typename) => if typename = pt then go else (.skip, m)
    | _ => (.skip, m)
  | none => go

mutual
/-- Translation of `get_representations`: walk the accumulator along the
response path collecting one representation per slot (per list element at a
list segment), mutating the slot objects by stripping the key aliases. -/
def get_representations (value : CV) (path : List PathSegment) (pfx : Nat) :
    List EntityRep × CV :=
  match path with
  | [] => ([], value)
  | [segment] =>
    match value with
    | CV.object obj =>
      if segment.is_list then
        match obj_get obj segment.name with
        | some (CV.list arr) =>
            let r := get_reps_elems arr pfx segment.possible_type
            (r.1, CV.object (obj_set obj segment.name (CV.list r.2)))
        | _ => ([], CV.object obj)
      else
        match obj_get obj segment.name with
        | some (CV.object key_object) =>
            let r := extract_keys key_object pfx segment.possible_type
            ([r.1], CV.object (obj_set obj segment.name (CV.object r.2)))
        | _ => ([.skip], CV.object obj)
    | v => ([], v)
  | segment :: rest =>
    match value with
    | CV.object obj =>
      if segment.is_list then
        match obj_get obj segment.name with
        | some (CV.list arr) =>
            let r := get_reps_list arr rest pfx
            (r.1, CV.object (obj_set obj segment.name (CV.list r.2)))
        | _ => ([.skip], CV.object obj)
      else
        match obj_get obj segment.name with
        | some next =>
            let r := get_representations next rest pfx
            (r.1, CV.object (obj_set obj segment.name r.2))
        | none => ([.skip], CV.object obj)
    | v => ([], v)
termination_by (sizeOf path, sizeOf value)

/-- The final-segment list case of `get_representations`: one representation
per element, non-object elements recorded as `Skip`. -/
def get_reps_elems (arr : List CV) (pfx : Nat) (possible_type : Option String) :
    List EntityRep × List CV :=
  match arr with
  | [] => ([], [])
  | (CV.object eobj) :: rest =>
      let r1 := extract_keys eobj pfx possible_type
      let r2 := get_reps_elems rest pfx possible_type
      (r1.1 :: r2.1, CV.object r1.2 :: r2.2)
  | e :: rest =>
      let r2 := get_reps_elems rest pfx possible_type
      (.skip :: r2.1, e :: r2.2)
termination_by (0, sizeOf arr)

/-- The intermediate-segment list case of `get_representations`: recurse into
every element. -/
def get_reps_list (arr : List CV) (path : List PathSegment) (pfx : Nat) :
    List EntityRep × List CV :=
  match arr with
  | [] => ([], [])
  | e :: rest =>
      let r1 := get_representations e path pfx
      let r2 := get_reps_list rest path pfx
      (r1.1 ++ r2.1, r1.2 :: r2.2)
termination_by (sizeOf path, sizeOf arr)
end

mutual
/-- Translation of `flatten_values`: walk the accumulator along the response
path again, consuming one flag per slot found and, when the flag is `true`,
one value from the `_entities` list, merged into the slot.  The consumed
iterators are modelled by returning the unconsumed tails. -/
def flatten_values (target : CV) (path : List PathSegment)
    (values : List CV) (flags : List Bool) : CV × List CV × List Bool :=
  match path with
  | [] => (target, values, flags)
  | [segment] =>
    match target with
    | CV.object obj =>
      if segment.is_list then
        match obj_get obj segment.name with
        | some (CV.list arr) =>
            let r := flatten_elems arr values flags
            (CV.object (obj_set obj segment.name (CV.list r.1)), r.2.1, r.2.2)
        | _ => (CV.object obj, values, flags)
      else
        match obj_get obj segment.name with
        | some tgt =>
          match flags with
          | true :: frest =>
            match values with
            | v :: vrest =>
                (CV.object (obj_set obj segment.name (merge_data tgt v)), vrest, frest)
            | [] => (CV.object obj, [], frest)
          | false :: frest => (CV.object obj, values, frest)
          | [] => (CV.object obj, values, [])
        | none => (CV.object obj, values, flags)
    | t => (t, values, flags)
  | segment :: rest =>
    match target with
    | CV.object obj =>
      if segment.is_list then
        match obj_get obj segment.name with
        | some (CV.list arr) =>
            let r := flatten_list arr rest values flags
            (CV.object (obj_set obj segment.name (CV.list r.1)), r.2.1, r.2.2)
        | _ => (CV.object obj, values, flags)
      else
        match obj_get obj segment.name with
        | some next =>
            let r := flatten_values next rest values flags
            (CV.object (obj_set obj segment.name r.1), r.2.1, r.2.2)
        | none => (CV.object obj, values, flags)
    | t => (t, values, flags)
termination_by (sizeOf path, sizeOf target)

/-- The final-segment list case of `flatten_values`: every element consumes a
flag (while flags remain), and a `true` flag additionally consumes a value
that is merged into the element. -/
def flatten_elems (arr : List CV) (values : List CV) (flags : List Bool) :
    List CV × List CV × List Bool :=
  match arr with
  | [] => ([], values, flags)
  | e :: rest =>
    match flags with
    | true :: frest =>
      match values with
      | v :: vrest =>
          let r := flatten_elems rest vrest frest
          (merge_data e v :: r.1, r.2.1, r.2.2)
      | [] =>
          let r := flatten_elems rest [] frest
          (e :: r.1, r.2.1, r.2.2)
    | false :: frest =>
        let r := flatten_elems rest values frest
        (e :: r.1, r.2.1, r.2.2)
    | [] =>
        let r := flatten_elems rest values []
        (e :: r.1, r.2.1, r.2.2)
termination_by (0, sizeOf arr)

/-- The intermediate-segment list case of `flatten_values`: recurse into every
element, threading the iterators. -/
def flatten_list (arr : List CV) (path : List PathSegment)
    (values : List CV) (flags : List Bool) : List CV × List CV × List Bool :=
  match arr with
  | [] => ([], values, flags)
  | e :: rest =>
      let r1 := flatten_values e path values flags
      let r2 := flatten_list rest path r1.2.1 r1.2.2
      (r1.1 :: r2.1, r2.2.1, r2.2.2)
termination_by (sizeOf path, sizeOf arr)
end

/-- C5 counterexample: with the accumulator `{}` and the path `[a(T)]` (final
segment, non-list, concrete-type filter `T`), extraction records one `Skip`
slot — so the executor proceeds with `flags = [false]` — but splicing finds no
entry named `a` and consumes no flag at all: the leftover flag list is still
`[false]`, falsifying "each slot consumes exactly one flag". -/
theorem C5_counterexample :
    (get_representations (CV.object []) [⟨"a", false, some "T"⟩] 1).1.length = 1 ∧
    (flatten_values (CV.object []) [⟨"a", false, some "T"⟩] [] [false]).2.2
      = [false] := by
  constructor
  · simp [get_representations, obj_get]
  · simp [flatten_values, obj_get]

/-- C5 (amended): for a final path segment with a concrete-type filter, a
slot's representation is `keys` iff the slot object's `__key{p}___typename`
entry is the string equal to that filter; during splicing, a (non-list) slot
whose entry still exists consumes exactly one flag, and consumes one value —
merged into the slot — exactly when that flag is `true`; a slot whose entry is
missing consumes neither a flag nor a value. -/
theorem C5_flatten_discrimination :
    (∀ (m : List (String × CV)) (pfx : Nat) (pt : String),
      (∃ v, (extract_keys m pfx (some pt)).1 = EntityRep.keys v) ↔
        obj_get m (key_pfx pfx ++ "__typename") = some (CV.str pt)) ∧
    (∀ (obj : List (String × CV)) (seg : PathSegment) (tgt v : CV)
        (vs : List CV) (fs : List Bool),
      seg.is_list = false → obj_get obj seg.name = some tgt →
      flatten_values (CV.object obj) [seg] (v :: vs) (true :: fs)
        = (CV.object (obj_set obj seg.name (merge_data tgt v)), vs, fs)) ∧
    (∀ (obj : List (String × CV)) (seg : PathSegment) (tgt : CV)
        (vals : List CV) (fs : List Bool),
      seg.is_list = false → obj_get obj seg.name = some tgt →
      flatten_values (CV.object obj) [seg] vals (false :: fs)
        = (CV.object obj, vals, fs)) ∧
    (∀ (obj : List (String × CV)) (seg : PathSegment)
        (vals : List CV) (fls : List Bool),
      seg.is_list = false → obj_get obj seg.name = none →
      flatten_values (CV.object obj) [seg] vals fls
        = (CV.object obj, vals, fls)) := by
  refine ⟨?_, ?_, ?_, ?_⟩
  · intro m pfx pt
    constructor
    · rintro ⟨v, hv⟩
      rw [extract_keys] at hv
      rcases hget : obj_get m (key_pfx pfx ++ "__typename") with _ | w
      · rw [hget] at hv
        cases hv
      · rw [hget] at hv
        cases w <;> simp_all
        split at hv <;> simp_all
    · intro hget
      simp [extract_keys, hget]
  · intro obj seg tgt v vs fs hlist hget
    rw [flatten_values, hget]
    simp [hlist]
  · intro obj seg tgt vals fs hlist hget
    rw [flatten_values, hget]
    simp [hlist]
  · intro obj seg vals fls hlist hget
    rw [flatten_values, hget]
    simp [hlist]

/-- Witness for C5 at concrete inputs: a slot whose `__key1___typename` is
`"T"` is tagged `keys`, and a present slot with a `true` flag consumes the
flag and the value. -/
theorem C5_witness :
    (∃ v, (extract_keys [("__key1___typename", CV.str "T")] 1 (some "T")).1
        = EntityRep.keys v) ∧
    flatten_values (CV.object [("a", CV.null)]) [⟨"a", false, none⟩]
        [CV.num 7] [true]
      = (CV.object (obj_set [("a", CV.null)] "a" (merge_data CV.null (CV.num 7))),
          [], []) := by
  constructor
  · exact (C5_flatten_discrimination.1 [("__key1___typename", CV.str "T")] 1 "T").mpr
      (by rfl)
  · exact C5_flatten_discrimination.2.1 [("a", CV.null)] ⟨"a", false, none⟩
      CV.null (CV.num 7) [] [] rfl (by simp [obj_get])

/- ========================================================================
   Section 5.  Planner selection-set types and their serializer
   (crates/planner/src/types.rs), and `referenced_variables`
   (crates/planner/src/builder.rs, lines 907-1000).
   ======================================================================== -/

/-- Model of the parser `Value` type: constants plus variable references. -/
inductive GValue where
  | variable (name : String)
  | vnull
  | vnum (n : Int)
  | vstr (s : String)
  | vbool (b : Bool)
  | venum (s : String)
  | vlist (xs : List GValue)
  | vobj (fields : List (String × GValue))

mutual
/-- Model of `Value::referenced_variables` from the external value crate: all
variable names occurring anywhere inside a value, in traversal order. -/
def gvalue_vars (v : GValue) : List String :=
  match v with
  | .variable n => [n]
  | .vlist xs => gvalue_vars_list xs
  | .vobj fs => gvalue_vars_obj fs
  | _ => []
termination_by (sizeOf v, 0)

/-- Variables of a list of values. -/
def gvalue_vars_list (xs : List GValue) : List String :=
  match xs with
  | [] => []
  | x :: rest => gvalue_vars x ++ gvalue_vars_list rest
termination_by (sizeOf xs, 1)

/-- Variables of the values of an object. -/
def gvalue_vars_obj (fs : List (String × GValue)) : List String :=
  match fs with
  | [] => []
  | (_, v) :: rest => gvalue_vars v ++ gvalue_vars_obj rest
termination_by (sizeOf fs, 1)
end

mutual
/-- Rendering of a parser `Value` (the external crate's `Display`): variables
as `$name`, strings quoted, lists and objects in GraphQL literal syntax. -/
def stringify_gvalue (v : GValue) : String :=
  match v with
  | .variable n => "$" ++ n
  | .vnull => "null"
  | .vnum n => toString n
  | .vstr s => "\"" ++ s ++ "\""
  | .vbool b => if b then "true" else "false"
  | .venum s => s
  | .vlist xs => "[" ++ stringify_gvalue_list xs ++ "]"
  | .vobj fs => "\x7b" ++ stringify_gvalue_obj fs ++ "\x7d"
termination_by (sizeOf v, 0)

/-- Comma-separated rendering of list elements. -/
def stringify_gvalue_list (xs : List GValue) : String :=
  match xs with
  | [] => ""
  | [x] => stringify_gvalue x
  | x :: rest => stringify_gvalue x ++ ", " ++ stringify_gvalue_list rest
termination_by (sizeOf xs, 1)

/-- Comma-separated rendering of object entries. -/
def stringify_gvalue_obj (fs : List (String × GValue)) : String :=
  match fs with
  | [] => ""
  | [(k, v)] => k ++ ": " ++ stringify_gvalue v
  | (k, v) :: rest => k ++ ": " ++ stringify_gvalue v ++ ", " ++ stringify_gvalue_obj rest
termination_by (sizeOf fs, 1)
end

/-- Model of a parser `Directive`: a name and named arguments. -/
structure GDirective where
  name : String
  arguments : List (String × GValue)

mutual
/-- Model of a parser `Selection` inside an executable document.  A fragment
spread carries the spread fragment's type condition and its resolved body:
the planner resolves every spread through `ctx.fragments` at its use site
(dropping spreads whose name is unknown), and the validator's
`NoFragmentCycles` and `KnownFragmentNames` rules make storing the resolved
body at the spread site a faithful finite representation. -/
inductive Sel where
  | field : GField → Sel
  | inline : Option String → List Sel → Sel
  | spread : String → List Sel → Sel

/-- Model of a parser `Field`: name, optional alias, arguments, directives and
sub-selections. -/
inductive GField where
  | mk : String → Option String → List (String × GValue) → List GDirective →
      List Sel → GField
end

/-- Field name accessor. -/
def GField.name : GField → String
  | .mk n _ _ _ _ => n

/-- Field alias accessor. -/
def GField.aliasName : GField → Option String
  | .mk _ a _ _ _ => a

/-- Field arguments accessor. -/
def GField.arguments : GField → List (String × GValue)
  | .mk _ _ args _ _ => args

/-- Field directives accessor. -/
def GField.directives : GField → List GDirective
  | .mk _ _ _ dirs _ => dirs

/-- Field sub-selection accessor. -/
def GField.sub : GField → List Sel
  | .mk _ _ _ _ s => s

/-- The response key of a field: its alias when present, else its name
(`Field::response_key`). -/
def GField.response_key (f : GField) : String :=
  match f.aliasName with
  | some a => a
  | none => f.name

/-- Model of `KeyFields`: a nested selection tree of field names
(`KeyFields(IndexMap<Name, KeyFields>)`). -/
inductive KeyFields where
  | mk (fields : List (String × KeyFields))

/-- Entry list of a key-fields tree. -/
def KeyFields.fields : KeyFields → List (String × KeyFields)
  | .mk fs => fs

/-- Translation of `SelectionRef` (crates/planner/src/types.rs): the planner's
selection-set node referencing document fields; `FieldRef` carries the source
field and the planner-built sub-selection set. -/
inductive SelectionRef where
  | fieldRef (field : GField) (selection_set : List SelectionRef)
  | introspectionTypename
  | requiredRef (pfx : Nat) (fields : KeyFields) (requires : Option KeyFields)
  | inlineFragment (type_condition : Option String) (selection_set : List SelectionRef)

/-- Translation of `SelectionRefSet`. -/
abbrev SelectionRefSet := List SelectionRef

/-- Translation of `stringify_argument`: `(name: value, ...)`. -/
def stringify_argument (arguments : List (String × GValue)) : String :=
  let rec go (args : List (String × GValue)) (idx : Nat) : String :=
    match args with
    | [] => ""
    | (n, v) :: rest =>
        (if idx > 0 then ", " else "") ++ n ++ ": " ++ stringify_gvalue v ++ go rest (idx + 1)
  "(" ++ go arguments 0 ++ ")"

/-- Translation of `stringify_directive`. -/
def stringify_directive (d : GDirective) : String :=
  "@" ++ d.name ++ (if d.arguments.isEmpty then "" else stringify_argument d.arguments)

/-- Translation of `stringify_directives` (space-separated). -/
def stringify_directives (ds : List GDirective) : String :=
  let rec go (ds : List GDirective) (idx : Nat) : String :=
    match ds with
    | [] => ""
    | d :: rest => (if idx > 0 then " " else "") ++ stringify_directive d ++ go rest (idx + 1)
  go ds 0

mutual
/-- Translation of the inner `stringify_key_fields_no_prefix`: note that the
entire loop body — separator, field name and recursion — sits under the
`idx > 0` guard, so the first entry of a non-empty child tree is emitted as
nothing at all. -/
def stringify_key_fields_no_prefix (fields : KeyFields) : String :=
  match fields with
  | .mk fs =>
    if fs.isEmpty then ""
    else "\x7b" ++ sknp_items fs 0 ++ "\x7d"
termination_by (sizeOf fields, 1)

/-- The enumerated loop of `stringify_key_fields_no_prefix`. -/
def sknp_items (items : List (String × KeyFields)) (idx : Nat) : String :=
  match items with
  | [] => ""
  | (n, children) :: rest =>
      (if idx > 0 then " " ++ n ++ stringify_key_fields_no_prefix children else "")
        ++ sknp_items rest (idx + 1)
termination_by (sizeOf items, 0)

end

/-- The loop of `stringify_key_fields`. -/
def skf_items (pfx : Nat) (items : List (String × KeyFields)) : String :=
  match items with
  | [] => ""
  | (n, children) :: rest =>
      " __key" ++ toString pfx ++ "_" ++ n ++ ":" ++ n
        ++ stringify_key_fields_no_prefix children ++ skf_items pfx rest

/-- Translation of `stringify_key_fields`: every top-level key field is
emitted as ` __key{prefix}_{name}:{name}` followed by its (no-prefix) child
tree. -/
def stringify_key_fields (pfx : Nat) (fields : KeyFields) : String :=
  match fields with
  | .mk fs => skf_items pfx fs

mutual
/-- Translation of `stringify_selection_ref_set_rec`: `{ item item ... }`. -/
def stringify_selection_ref_set (s : SelectionRefSet) : String :=
  "\x7b " ++ ssrs_items s 0 ++ " \x7d"
termination_by (sizeOf s, 1)

/-- The enumerated loop of `stringify_selection_ref_set_rec`. -/
def ssrs_items (s : SelectionRefSet) (idx : Nat) : String :=
  match s with
  | [] => ""
  | sel :: rest => (if idx > 0 then " " else "") ++ ssrs_one sel ++ ssrs_items rest (idx + 1)
termination_by (sizeOf s, 0)

/-- Rendering of one `SelectionRef`. -/
def ssrs_one (sel : SelectionRef) : String :=
  match sel with
  | .fieldRef f sub =>
      (match f.aliasName with
        | some a => a ++ ":"
        | none => "")
        ++ f.name
        ++ (if f.arguments.isEmpty then "" else stringify_argument f.arguments)
        ++ (if f.directives.isEmpty then "" else " " ++ stringify_directives f.directives)
        ++ (if sub.isEmpty then "" else " " ++ stringify_selection_ref_set sub)
  | .introspectionTypename => "__typename"
  | .requiredRef pfx fields requires =>
      "__key" ++ toString pfx ++ "___typename:__typename"
        ++ stringify_key_fields pfx fields
        ++ (match requires with
            | some r => stringify_key_fields pfx r
            | none => "")
  | .inlineFragment tc sub =>
      (match tc with
        | some t => "... on " ++ t ++ " "
        | none => "... ")
        ++ stringify_selection_ref_set sub
termination_by (sizeOf sel, 0)
end

/-- Operation types. -/
inductive OpType where
  | query
  | mutation
  | subscription
  deriving DecidableEq

/-- Rendering of an operation type. -/
def OpType.text : OpType → String
  | .query => "query"
  | .mutation => "mutation"
  | .subscription => "subscription"

/-- Model of a parser `VariableDefinition`; the type is kept as its rendered
text, which is all the serializer uses. -/
structure VarDef where
  name : String
  var_type : String
  default_value : Option GValue

/-- Translation of `Display for VariableDefinitionsRef` (crates/planner/
src/types.rs, lines 302-319): `$name: Type = default` entries joined by
commas. -/
def stringify_variable_definitions (vds : List VarDef) : String :=
  let rec go (vds : List VarDef) (idx : Nat) : String :=
    match vds with
    | [] => ""
    | d :: rest =>
        (if idx > 0 then ", " else "") ++ "$" ++ d.name ++ ": " ++ d.var_type
          ++ (match d.default_value with
              | some v => " = " ++ stringify_gvalue v
              | none => "")
          ++ go rest (idx + 1)
  go vds 0

/-- Translation of `FetchQuery` (crates/planner/src/types.rs). -/
structure FetchQuery where
  entity_type : Option String
  operation_type : OpType
  variable_definitions : List VarDef
  selection_set : SelectionRefSet

/-- Translation of `Display for FetchQuery`: entity fetches render an
`_entities(representations:$representations)` shell, plain fetches render the
operation type, the variable-definition list and the selection set. -/
def fetch_query_text (q : FetchQuery) : String :=
  match q.entity_type with
  | some entity_type =>
      "query($representations:[_Any!]!"
        ++ (if q.variable_definitions.isEmpty then "" else ", ")
        ++ stringify_variable_definitions q.variable_definitions
        ++ ") \x7b _entities(representations:$representations) \x7b ... on "
        ++ entity_type ++ " " ++ stringify_selection_ref_set q.selection_set
        ++ " \x7d \x7d"
  | none =>
      q.operation_type.text
        ++ (if q.variable_definitions.isEmpty then ""
            else "(" ++ stringify_variable_definitions q.variable_definitions ++ ")")
        ++ "\n" ++ stringify_selection_ref_set q.selection_set

/-- C9: evaluation of the serializer at a multi-level key.  For the required
ref with prefix 1 and key selection `a { b }`, the emitted text is
`__key1___typename:__typename __key1_a:a{}`: the `__typename` alias and the
aliased top-level key field are present, but the nested subfield `b` is
dropped entirely (no character `b` occurs in the output), because the loop
body of `stringify_key_fields_no_prefix` is guarded by `idx > 0`. -/
theorem C9_key_fields_eval :
    ssrs_one (SelectionRef.requiredRef 1
        (KeyFields.mk [("a", KeyFields.mk [("b", KeyFields.mk [])])]) none)
      = "__key1___typename:__typename __key1_a:a\x7b\x7d" ∧
    ("__key1___typename:__typename __key1_a:a\x7b\x7d".toList.contains 'b')
      = false := by
  constructor
  · simp only [ssrs_one, stringify_key_fields, skf_items, stringify_key_fields_no_prefix,
      sknp_items]
    rfl
  · decide

/- Referenced-variable computation (builder.rs `referenced_variables`). -/

/-- Insert into an `IndexMap` keyed by variable name (replace in place or
append), for the variable-definition map. -/
def insert_vd (m : List (String × VarDef)) (k : String) (d : VarDef) :
    List (String × VarDef) :=
  match m with
  | [] => [(k, d)]
  | (k2, d2) :: rest => if k2 = k then (k2, d) :: rest else (k2, d2) :: insert_vd rest k d

/-- One referenced name: a name with both a supplied value and a definition
goes into both maps; a name with a definition only goes into the definition
map; a name without a definition makes the builder panic (`unwrap`), modelled
as `none`. -/
def rv_process_name (vars : List (String × CV)) (vds : List VarDef)
    (st : List (String × CV) × List (String × VarDef)) (name : String) :
    Option (List (String × CV) × List (String × VarDef)) :=
  match obj_get vars name, vds.find? (fun d => d.name = name) with
  | some value, some d => some (obj_insert st.1 name value, insert_vd st.2 name d)
  | _, _ =>
      match vds.find? (fun d => d.name = name) with
      | some d => some (st.1, insert_vd st.2 name d)
      | none => none

/-- Process a list of referenced names in order. -/
def rv_process_names (vars : List (String × CV)) (vds : List VarDef)
    (st : List (String × CV) × List (String × VarDef)) (names : List String) :
    Option (List (String × CV) × List (String × VarDef)) :=
  match names with
  | [] => some st
  | n :: rest =>
    match rv_process_name vars vds st n with
    | none => none
    | some st2 => rv_process_names vars vds st2 rest

/-- Process the referenced variables of every argument value. -/
def rv_args (vars : List (String × CV)) (vds : List VarDef)
    (st : List (String × CV) × List (String × VarDef))
    (args : List (String × GValue)) :
    Option (List (String × CV) × List (String × VarDef)) :=
  match args with
  | [] => some st
  | (_, v) :: rest =>
    match rv_process_names vars vds st (gvalue_vars v) with
    | none => none
    | some st2 => rv_args vars vds st2 rest

/-- Process the arguments of every directive. -/
def rv_dirs (vars : List (String × CV)) (vds : List VarDef)
    (st : List (String × CV) × List (String × VarDef)) (dirs : List GDirective) :
    Option (List (String × CV) × List (String × VarDef)) :=
  match dirs with
  | [] => some st
  | d :: rest =>
    match rv_args vars vds st d.arguments with
    | none => none
    | some st2 => rv_dirs vars vds st2 rest

mutual
/-- Translation of the recursive body of `referenced_variables`: field
arguments, then directive arguments, then the nested selection set; inline
fragments recurse; `__typename` and required refs reference nothing. -/
def rv_selection_set (vars : List (String × CV)) (vds : List VarDef)
    (st : List (String × CV) × List (String × VarDef)) (s : SelectionRefSet) :
    Option (List (String × CV) × List (String × VarDef)) :=
  match s with
  | [] => some st
  | sel :: rest =>
    match rv_selection vars vds st sel with
    | none => none
    | some st2 => rv_selection_set vars vds st2 rest
termination_by (sizeOf s, 0)

/-- Referenced variables of a single selection. -/
def rv_selection (vars : List (String × CV)) (vds : List VarDef)
    (st : List (String × CV) × List (String × VarDef)) (sel : SelectionRef) :
    Option (List (String × CV) × List (String × VarDef)) :=
  match sel with
  | .fieldRef f sub =>
    match rv_args vars vds st f.arguments with
    | none => none
    | some st1 =>
      match rv_dirs vars vds st1 f.directives with
      | none => none
      | some st2 => rv_selection_set vars vds st2 sub
  | .inlineFragment _ sub => rv_selection_set vars vds st sub
  | .introspectionTypename => some st
  | .requiredRef _ _ _ => some st
termination_by (sizeOf sel, 1)
end

/-- Translation of `referenced_variables`: the pair of the `VariablesRef` map
and the `VariableDefinitionsRef` list (the definition map's values in
insertion order). -/
def referenced_variables (s : SelectionRefSet) (vars : List (String × CV))
    (vds : List VarDef) : Option (List (String × CV) × List VarDef) :=
  match rv_selection_set vars vds ([], []) s with
  | none => none
  | some st => some (st.1, st.2.map Prod.snd)

/-- Variable names referenced inside an argument list, in the order the
serializer renders them. -/
def args_vars (args : List (String × GValue)) : List String :=
  match args with
  | [] => []
  | (_, v) :: rest => gvalue_vars v ++ args_vars rest

/-- Variable names referenced inside a directive list. -/
def dirs_vars (dirs : List GDirective) : List String :=
  match dirs with
  | [] => []
  | d :: rest => args_vars d.arguments ++ dirs_vars rest

mutual
/-- Variable names occurring in the serialized text of a selection set: the
serializer renders every field argument value and directive argument value
verbatim (variables as `$name`) and recurses exactly here, so these are the
names whose `$name` occurrences appear in the rendered selection set. -/
def text_vars_selset (s : SelectionRefSet) : List String :=
  match s with
  | [] => []
  | sel :: rest => text_vars_sel sel ++ text_vars_selset rest
termination_by (sizeOf s, 0)

/-- Variable names in the serialized text of one selection. -/
def text_vars_sel (sel : SelectionRef) : List String :=
  match sel with
  | .fieldRef f sub => args_vars f.arguments ++ dirs_vars f.directives ++ text_vars_selset sub
  | .inlineFragment _ sub => text_vars_selset sub
  | .introspectionTypename => []
  | .requiredRef _ _ _ => []
termination_by (sizeOf sel, 1)
end

/-- Variable names referenced anywhere in a fetch query's serialized text:
the selection set's `$name` occurrences plus the emitted variable-definition
list. -/
def fetch_query_vars (q : FetchQuery) : List String :=
  text_vars_selset q.selection_set ++ q.variable_definitions.map VarDef.name

/-- Keys after an `IndexMap` insert: the old keys plus the inserted one. -/
theorem obj_insert_keys (l : List (String × CV)) (k : String) (v : CV) (m : String) :
    m ∈ (obj_insert l k v).map Prod.fst ↔ m ∈ l.map Prod.fst ∨ m = k := by
  rw [obj_insert]
  by_cases h : (obj_get l k).isSome
  · rw [if_pos h]
    have hset : ∀ l2 : List (String × CV), (obj_set l2 k v).map Prod.fst = l2.map Prod.fst := by
      intro l2
      induction l2 with
      | nil => simp [obj_set]
      | cons hd tl ih =>
        obtain ⟨k2, v2⟩ := hd
        by_cases hk : k2 = k <;> simp [obj_set, hk, ih]
    rw [hset]
    have hk : k ∈ l.map Prod.fst := by
      clear hset
      induction l with
      | nil => simp [obj_get] at h
      | cons hd tl ih =>
        obtain ⟨k2, v2⟩ := hd
        rw [obj_get] at h
        by_cases hk2 : k2 = k
        · simp [hk2]
        · rw [if_neg hk2] at h
          simp [ih h]
    constructor
    · exact fun hm => Or.inl hm
    · rintro (hm | hm)
      · exact hm
      · exact hm ▸ hk
  · rw [if_neg h]
    simp

/-- Keys after inserting into the definition map. -/
theorem insert_vd_keys (l : List (String × VarDef)) (k : String) (d : VarDef)
    (m : String) :
    m ∈ (insert_vd l k d).map Prod.fst ↔ m ∈ l.map Prod.fst ∨ m = k := by
  induction l with
  | nil => simp [insert_vd]
  | cons hd tl ih =>
    obtain ⟨k2, d2⟩ := hd
    rw [insert_vd]
    by_cases hk : k2 = k
    · rw [if_pos hk]
      subst hk
      simp only [List.map_cons, List.mem_cons]
      tauto
    · rw [if_neg hk]
      simp only [List.map_cons, List.mem_cons, ih]
      tauto

/-- Every entry of the definition map is keyed by its definition's name. -/
def entries_named (l : List (String × VarDef)) : Prop :=
  ∀ p ∈ l, (p.2 : VarDef).name = p.1

/-- Inserting a correctly-keyed entry preserves `entries_named`. -/
theorem insert_vd_named {l : List (String × VarDef)} {k : String} {d : VarDef}
    (hl : entries_named l) (hd : d.name = k) : entries_named (insert_vd l k d) := by
  induction l with
  | nil =>
    intro p hp
    simp only [insert_vd, List.mem_singleton] at hp
    subst hp; exact hd
  | cons hd2 tl ih =>
    obtain ⟨k2, d2⟩ := hd2
    by_cases hk : k2 = k
    · subst hk
      intro p hp
      rw [insert_vd, if_pos rfl] at hp
      rcases List.mem_cons.mp hp with heq | htl
      · subst heq; exact hd
      · exact hl p (List.mem_cons_of_mem _ htl)
    · intro p hp
      rw [insert_vd, if_neg hk] at hp
      rcases List.mem_cons.mp hp with heq | htl
      · subst heq; exact hl (k2, d2) (List.mem_cons_self _ _)
      · exact ih (fun q hq => hl q (List.mem_cons_of_mem _ hq)) p htl

/-- State relation of the referenced-variable computation: after processing a
fragment of the selection that references `names`, the definition-map keys
grow by exactly `names`, the variables-map keys grow by exactly the names of
`names` that have a supplied value, and name-keying of definition entries is
preserved. -/
def rv_keys_rel (vars : List (String × CV))
    (st st2 : List (String × CV) × List (String × VarDef))
    (names : List String) : Prop :=
  (∀ m, m ∈ st2.2.map Prod.fst ↔ m ∈ st.2.map Prod.fst ∨ m ∈ names) ∧
  (∀ m, m ∈ st2.1.map Prod.fst ↔
    m ∈ st.1.map Prod.fst ∨ (m ∈ names ∧ (obj_get vars m).isSome)) ∧
  (entries_named st.2 → entries_named st2.2)

/-- The relation composes along sequential processing. -/
theorem rv_keys_rel_comp {vars : List (String × CV)} {st st1 st2} {ns1 ns2 : List String}
    (h1 : rv_keys_rel vars st st1 ns1) (h2 : rv_keys_rel vars st1 st2 ns2) :
    rv_keys_rel vars st st2 (ns1 ++ ns2) := by
  obtain ⟨d1, v1, n1⟩ := h1
  obtain ⟨d2, v2, n2⟩ := h2
  refine ⟨?_, ?_, fun h => n2 (n1 h)⟩
  · intro m
    rw [d2, d1, List.mem_append]
    tauto
  · intro m
    rw [v2, v1, List.mem_append]
    tauto

/-- The empty step. -/
theorem rv_keys_rel_nil {vars : List (String × CV)} {st} :
    rv_keys_rel vars st st [] := by
  refine ⟨?_, ?_, fun h => h⟩ <;> intro m <;> simp

/-- Key-set effect of processing one referenced name. -/
theorem rv_process_name_rel {vars : List (String × CV)} {vds : List VarDef}
    {st st2} {n : String} (h : rv_process_name vars vds st n = some st2) :
    rv_keys_rel vars st st2 [n] := by
  rcases hv : obj_get vars n with _ | value <;>
    rcases hf : vds.find? (fun d => d.name = n) with _ | d <;>
    simp only [rv_process_name, hv, hf] at h
  · cases h
  · have hd : d.name = n := by
      have := List.find?_some hf
      simpa using this
    cases h
    refine ⟨?_, ?_, fun hn => insert_vd_named hn hd⟩
    · intro m
      rw [insert_vd_keys, List.mem_singleton]
    · intro m
      simp only [List.mem_singleton]
      constructor
      · exact fun hm => Or.inl hm
      · rintro (hm | ⟨rfl, hs⟩)
        · exact hm
        · rw [hv] at hs
          cases hs
  · cases h
  · have hd : d.name = n := by
      have := List.find?_some hf
      simpa using this
    cases h
    refine ⟨?_, ?_, fun hn => insert_vd_named hn hd⟩
    · intro m
      rw [insert_vd_keys, List.mem_singleton]
    · intro m
      rw [obj_insert_keys]
      simp only [List.mem_singleton]
      constructor
      · rintro (hm | rfl)
        · exact Or.inl hm
        · exact Or.inr ⟨rfl, by rw [hv]; rfl⟩
      · rintro (hm | ⟨rfl, _⟩)
        · exact Or.inl hm
        · exact Or.inr rfl

/-- Key-set effect of processing a name list. -/
theorem rv_process_names_rel {vars : List (String × CV)} {vds : List VarDef} :
    ∀ {names : List String} {st st2},
    rv_process_names vars vds st names = some st2 → rv_keys_rel vars st st2 names := by
  intro names
  induction names with
  | nil =>
    intro st st2 h
    rw [rv_process_names] at h
    cases h
    exact rv_keys_rel_nil
  | cons n rest ih =>
    intro st st2 h
    rw [rv_process_names] at h
    rcases hpn : rv_process_name vars vds st n with _ | stm <;> rw [hpn] at h
    · cases h
    · exact rv_keys_rel_comp (rv_process_name_rel hpn) (ih h)

/-- Key-set effect of processing an argument list. -/
theorem rv_args_rel {vars : List (String × CV)} {vds : List VarDef} :
    ∀ {args : List (String × GValue)} {st st2},
    rv_args vars vds st args = some st2 → rv_keys_rel vars st st2 (args_vars args) := by
  intro args
  induction args with
  | nil =>
    intro st st2 h
    rw [rv_args] at h
    cases h
    exact rv_keys_rel_nil
  | cons a rest ih =>
    intro st st2 h
    obtain ⟨an, av⟩ := a
    rw [rv_args] at h
    rcases hpn : rv_process_names vars vds st (gvalue_vars av) with _ | stm <;>
      rw [hpn] at h
    · cases h
    · exact rv_keys_rel_comp (rv_process_names_rel hpn) (ih h)

/-- Key-set effect of processing a directive list. -/
theorem rv_dirs_rel {vars : List (String × CV)} {vds : List VarDef} :
    ∀ {dirs : List GDirective} {st st2},
    rv_dirs vars vds st dirs = some st2 → rv_keys_rel vars st st2 (dirs_vars dirs) := by
  intro dirs
  induction dirs with
  | nil =>
    intro st st2 h
    rw [rv_dirs] at h
    cases h
    exact rv_keys_rel_nil
  | cons d rest ih =>
    intro st st2 h
    rw [rv_dirs] at h
    rcases ha : rv_args vars vds st d.arguments with _ | stm <;> rw [ha] at h
    · cases h
    · exact rv_keys_rel_comp (rv_args_rel ha) (ih h)

/-- Key-set effect of the recursive selection-set walk (joint strong
induction over the nested selection structure). -/
theorem rv_selection_set_rel {vars : List (String × CV)} {vds : List VarDef} :
    ∀ {s : SelectionRefSet} {st st2},
    rv_selection_set vars vds st s = some st2 →
    rv_keys_rel vars st st2 (text_vars_selset s) := by
  suffices haux : ∀ N : Nat,
      (∀ s : SelectionRefSet, sizeOf s ≤ N → ∀ st st2,
        rv_selection_set vars vds st s = some st2 →
        rv_keys_rel vars st st2 (text_vars_selset s)) ∧
      (∀ sel : SelectionRef, sizeOf sel ≤ N → ∀ st st2,
        rv_selection vars vds st sel = some st2 →
        rv_keys_rel vars st st2 (text_vars_sel sel)) by
    intro s st st2 h
    exact (haux (sizeOf s)).1 s le_rfl st st2 h
  intro N
  induction N using Nat.strong_induction_on with
  | _ N ih =>
    constructor
    · intro s hsz st st2 h
      match s with
      | [] =>
        rw [rv_selection_set] at h
        cases h
        rw [text_vars_selset]
        exact rv_keys_rel_nil
      | sel :: rest =>
        rw [rv_selection_set] at h
        rcases hps : rv_selection vars vds st sel with _ | stm <;> rw [hps] at h
        · cases h
        · rw [text_vars_selset]
          have hszsel : sizeOf sel < sizeOf (sel :: rest) := by
            simp only [List.cons.sizeOf_spec]
            omega
          have hszrest : sizeOf rest < sizeOf (sel :: rest) := by
            simp only [List.cons.sizeOf_spec]
            omega
          have h1 := (ih (sizeOf sel) (by omega)).2 sel le_rfl st stm hps
          have h2 := (ih (sizeOf rest) (by omega)).1 rest le_rfl stm st2 h
          exact rv_keys_rel_comp h1 h2
    · intro sel hsz st st2 h
      match sel with
      | .fieldRef f sub =>
        rw [rv_selection] at h
        rcases ha : rv_args vars vds st f.arguments with _ | st1
        · rw [ha] at h
          cases h
        · rw [ha] at h
          have h2 : (match rv_dirs vars vds st1 f.directives with
              | none => none
              | some st0 => rv_selection_set vars vds st0 sub) = some st2 := h
          rcases hd : rv_dirs vars vds st1 f.directives with _ | st0
          · rw [hd] at h2
            cases h2
          · rw [hd] at h2
            have h3call : rv_selection_set vars vds st0 sub = some st2 := h2
            have hszsub : sizeOf sub < sizeOf (SelectionRef.fieldRef f sub) := by
              simp only [SelectionRef.fieldRef.sizeOf_spec]
              omega
            have h3 := (ih (sizeOf sub) (by omega)).1 sub le_rfl st0 st2 h3call
            rw [text_vars_sel]
            exact rv_keys_rel_comp
              (rv_keys_rel_comp (rv_args_rel ha) (rv_dirs_rel hd)) h3
      | .introspectionTypename =>
        rw [rv_selection] at h
        cases h
        rw [text_vars_sel]
        exact rv_keys_rel_nil
      | .requiredRef p fs rq =>
        rw [rv_selection] at h
        cases h
        rw [text_vars_sel]
        exact rv_keys_rel_nil
      | .inlineFragment tc sub =>
        rw [rv_selection] at h
        have hszsub : sizeOf sub < sizeOf (SelectionRef.inlineFragment tc sub) := by
          simp only [SelectionRef.inlineFragment.sizeOf_spec]
          omega
        have h3 := (ih (sizeOf sub) (by omega)).1 sub le_rfl st st2 h
        rw [text_vars_sel]
        exact h3

/-- Name-keyed definition entries project to their keys. -/
theorem map_name_eq_keys {l : List (String × VarDef)} (h : entries_named l) :
    (l.map Prod.snd).map VarDef.name = l.map Prod.fst := by
  induction l with
  | nil => rfl
  | cons p rest ih =>
    simp only [List.map_cons, List.cons.injEq]
    exact ⟨h p (List.mem_cons_self _ _),
      ih (fun q hq => h q (List.mem_cons_of_mem _ hq))⟩

/-- C2 (amended): for every Fetch/Flatten selection set on which
`referenced_variables` succeeds, the set of variable names referenced inside
the node's serialized query text (field arguments, directive arguments, and
the emitted variable-definition list) is exactly the name set of the node's
emitted variable-definition list; the key set of the node's variables map is
that set restricted to the variables actually supplied in the request's
variables — so it equals the full referenced set only when every referenced
variable has a supplied value. -/
theorem C2_variable_closure (s : SelectionRefSet) (vars : List (String × CV))
    (vds : List VarDef) (vref : List (String × CV)) (vdefs : List VarDef)
    (h : referenced_variables s vars vds = some (vref, vdefs))
    (et : Option String) (ot : OpType) :
    (∀ m, m ∈ fetch_query_vars ⟨et, ot, vdefs, s⟩ ↔ m ∈ vdefs.map VarDef.name) ∧
    (∀ m, m ∈ vref.map Prod.fst ↔
      m ∈ fetch_query_vars ⟨et, ot, vdefs, s⟩ ∧ (obj_get vars m).isSome) := by
  rw [referenced_variables] at h
  rcases hrv : rv_selection_set vars vds ([], []) s with _ | st <;> rw [hrv] at h
  · cases h
  · have hinj := h
    rw [Option.some.injEq, Prod.mk.injEq] at hinj
    obtain ⟨hvref, hvdefs⟩ := hinj
    obtain ⟨hd, hv, hn⟩ := rv_selection_set_rel hrv
    have hnamed : entries_named st.2 := hn (fun p hp => absurd hp (List.not_mem_nil p))
    have hnames : vdefs.map VarDef.name = st.2.map Prod.fst := by
      rw [← hvdefs]
      exact map_name_eq_keys hnamed
    have htext : ∀ m, m ∈ text_vars_selset s ↔ m ∈ st.2.map Prod.fst := by
      intro m
      rw [hd m]
      simp
    constructor
    · intro m
      rw [fetch_query_vars]
      simp only [List.mem_append]
      rw [hnames, htext m]
      tauto
    · intro m
      rw [← hvref, hv m, fetch_query_vars]
      simp only [List.mem_append, List.map_nil, List.not_mem_nil, false_or]
      rw [hnames]
      constructor
      · rintro ⟨hm, hs⟩
        exact ⟨Or.inl hm, hs⟩
      · rintro ⟨hm | hm, hs⟩
        · exact ⟨hm, hs⟩
        · exact ⟨(htext m).mpr hm, hs⟩

/-- C2 counterexample: the selection `f(a: $x)` with declared variable
`$x: Int` and an empty request-variables map is accepted by the validator
(no rule requires a value for a nullable variable); `referenced_variables`
then returns an empty variables map, yet `$x` is referenced in the emitted
query text (both in the argument and in the variable-definition list), so
the text's variable set is not equal to the variables map's key set. -/
theorem C2_counterexample :
    referenced_variables
        [SelectionRef.fieldRef (GField.mk "f" none [("a", GValue.variable "x")] [] []) []]
        [] [⟨"x", "Int", none⟩]
      = some ([], [⟨"x", "Int", none⟩]) ∧
    "x" ∈ fetch_query_vars
        ⟨none, OpType.query, [⟨"x", "Int", none⟩],
          [SelectionRef.fieldRef (GField.mk "f" none [("a", GValue.variable "x")] [] []) []]⟩ := by
  constructor
  · simp [referenced_variables, rv_selection_set, rv_selection, rv_args,
      rv_process_names, rv_process_name, rv_dirs, gvalue_vars, obj_get,
      insert_vd, GField.arguments, GField.directives, GField.sub]
  · simp [fetch_query_vars, text_vars_selset, text_vars_sel, args_vars,
      dirs_vars, gvalue_vars, GField.arguments, GField.directives]

/-- Witness for C2 at a concrete input where the referenced variable does
have a supplied value. -/
theorem C2_witness :
    (∀ m, m ∈ fetch_query_vars
        ⟨none, OpType.query, [⟨"x", "Int", none⟩],
          [SelectionRef.fieldRef (GField.mk "f" none [("a", GValue.variable "x")] [] []) []]⟩
        ↔ m ∈ ([⟨"x", "Int", none⟩] : List VarDef).map VarDef.name) ∧
    (∀ m, m ∈ ([("x", CV.num 5)] : List (String × CV)).map Prod.fst ↔
      m ∈ fetch_query_vars
        ⟨none, OpType.query, [⟨"x", "Int", none⟩],
          [SelectionRef.fieldRef (GField.mk "f" none [("a", GValue.variable "x")] [] []) []]⟩
        ∧ (obj_get [("x", CV.num 5)] m).isSome) :=
  C2_variable_closure
    [SelectionRef.fieldRef (GField.mk "f" none [("a", GValue.variable "x")] [] []) []]
    [("x", CV.num 5)] [⟨"x", "Int", none⟩] [("x", CV.num 5)] [⟨"x", "Int", none⟩]
    (by simp [referenced_variables, rv_selection_set, rv_selection, rv_args,
      rv_process_names, rv_process_name, rv_dirs, gvalue_vars, obj_get,
      insert_vd, obj_insert, obj_set, GField.arguments, GField.directives, GField.sub])
    none OpType.query

/- ========================================================================
   Section 6.  The plan executor (crates/handler/src/executor.rs).
   ======================================================================== -/

/-- Translation of `Request` (crates/planner/src/request.rs); the source
field `variables` is called `vars` here (`variables` is reserved). -/
structure Request where
  query : String
  operation : Option String
  vars : List (String × CV)

/-- Translation of `Response` (crates/planner/src/response.rs). -/
structure Response where
  data : CV
  errors : List ServerError
  extensions : List (String × CV)
  headers : Option (List (String × String))

/-- The `Response::default()` the executor starts from. -/
def default_response : Response := ⟨CV.null, [], [], none⟩

/-- Executor-side plan tree (crates/planner/src/plan.rs).  A Fetch/Flatten
node carries the serialized query text and its variables map (the executor
uses the query only through `to_request`); an Introspection node is modelled
by the value the introspection resolver produces for its selection set
against the composed schema — the resolver is a separate subsystem that no
claim touches, and the executor merges its output value into `data`. -/
inductive PlanNode where
  | sequence (nodes : List PlanNode)
  | parallel (nodes : List PlanNode)
  | introspection (resolved : CV)
  | fetch (service : String) (query : String) (vars : List (String × CV))
  | flatten (path : ResponsePath) (pfx : Nat) (service : String) (query : String)
      (vars : List (String × CV))

/-- Translation of `SubscribeNode`: per-upstream subscribe fetches
(service, query, variables) plus an optional post-event plan tree. -/
structure SubscribeNode where
  subscribe_nodes : List (String × String × List (String × CV))
  flatten_node : Option PlanNode

/-- Translation of `RootNode`. -/
inductive RootNode where
  | query (node : PlanNode)
  | subscribe (node : SubscribeNode)

/-- A fetcher: the executor's only way to reach a subgraph
(`Fetcher::query`), modelled as a pure function. -/
def Fetcher : Type := String → Request → Except String Response

/-- Extend a variables map with another (`Request::extend_variables`):
entries of the extension overwrite in place or append. -/
def ext_vars (base add : List (String × CV)) : List (String × CV) :=
  match add with
  | [] => base
  | (k, v) :: rest => ext_vars (obj_insert base k v) rest

mutual
/-- Translation of `Executor::execute_node` and its per-variant bodies,
with the response accumulator and a log of issued sub-requests threaded
explicitly.  `Parallel` children share the mutex-guarded accumulator; their
merge effects are serialized by the mutex, modelled here in list order. -/
def execute_node (fetcher : Fetcher) (resp : Response)
    (log : List (String × Request)) (node : PlanNode) :
    Response × List (String × Request) :=
  match node with
  | .sequence nodes => execute_nodes fetcher resp log nodes
  | .parallel nodes => execute_nodes fetcher resp log nodes
  | .introspection value =>
      ({ resp with data := merge_data resp.data value }, log)
  | .fetch service query fvars =>
      let request : Request := ⟨query, none, fvars⟩
      match fetcher service request with
      | .ok r =>
          if r.errors.isEmpty then
            ({ resp with headers := r.headers, data := merge_data resp.data r.data },
              log ++ [(service, request)])
          else
            ({ resp with errors := rewrite_errors none resp.errors r.errors },
              log ++ [(service, request)])
      | .error e =>
          ({ resp with errors := resp.errors ++ [⟨e, [], [], []⟩] },
            log ++ [(service, request)])
  | .flatten path pfx service query nodevars =>
      let r0 := get_representations resp.data path pfx
      if r0.1.isEmpty then ({ resp with data := r0.2 }, log)
      else
        let flags := r0.1.map (fun rep =>
          match rep with
          | .keys _ => true
          | .skip => false)
        let values := r0.1.filterMap (fun rep =>
          match rep with
          | .keys v => some v
          | .skip => none)
        let request : Request :=
          ⟨query, none, ext_vars [("representations", CV.list values)] nodevars⟩
        let resp1 : Response := { resp with data := r0.2 }
        match fetcher service request with
        | .ok r =>
            if r.errors.isEmpty then
              match r.data with
              | CV.object data =>
                match obj_get data "_entities" with
                | some (CV.list entities) =>
                    let fl := flatten_values resp1.data path entities flags
                    ({ resp1 with data := fl.1 }, log ++ [(service, request)])
                | _ => (resp1, log ++ [(service, request)])
              | _ => (resp1, log ++ [(service, request)])
            else
              ({ resp1 with errors := rewrite_errors (some path) resp1.errors r.errors },
                log ++ [(service, request)])
        | .error e =>
            ({ resp1 with errors := resp1.errors ++ [⟨e, [], [], []⟩] },
              log ++ [(service, request)])
termination_by (sizeOf node, 0)

/-- Children of a Sequence/Parallel node, in order. -/
def execute_nodes (fetcher : Fetcher) (resp : Response)
    (log : List (String × Request)) (nodes : List PlanNode) :
    Response × List (String × Request) :=
  match nodes with
  | [] => (resp, log)
  | n :: rest =>
      let r := execute_node fetcher resp log n
      execute_nodes fetcher r.1 r.2 rest
termination_by (sizeOf nodes, 1)
end

/-- Translation of `Executor::execute_query`: a `Query` root runs the plan
tree on a default accumulator; a `Subscribe` root immediately returns the
`Not supported` response without consulting the fetcher. -/
def execute_query (fetcher : Fetcher) (root : RootNode) :
    Response × List (String × Request) :=
  match root with
  | .query node => execute_node fetcher default_response [] node
  | .subscribe _ =>
      (⟨CV.null, [⟨"Not supported", [], [], []⟩], [], none⟩, [])

/-- C10: executing a subscription plan through `execute_query` performs no
fetches and returns data `null` with exactly one error whose message is
`Not supported`. -/
theorem C10_subscribe_not_supported (fetcher : Fetcher) (sub : SubscribeNode) :
    execute_query fetcher (RootNode.subscribe sub)
      = (⟨CV.null, [⟨"Not supported", [], [], []⟩], [], none⟩, []) := rfl

/- ========================================================================
   Section 7.  Schema composition: `ComposedSchema::combine`
   (crates/core/src/schema/composed_schema.rs, lines 205-352).
   Descriptions, argument lists and deprecations are omitted from the model;
   they are carried along unchanged by `combine` and only widen the
   `DefinitionConflicted` equality, which the claims do not exercise.
   `@key` directives on non-object definitions are not modelled (the claims
   do not involve them).
   ======================================================================== -/

/-- Subgraph field definition: name, rendered result type, whether it is
marked `@external`, and an optional `@resolve(service:)` target. -/
structure FieldDef where
  name : String
  ty : String
  external : Bool
  resolve_service : Option String
  deriving DecidableEq

/-- Kinds of subgraph type definitions. -/
inductive TypeDefKind where
  | objectKind (implements : List String) (fields : List FieldDef)
  | scalarKind
  | interfaceKind (fields : List FieldDef)
  | unionKind (members : List String)
  | enumKind (values : List String)
  | inputObjectKind (fields : List FieldDef)
  deriving DecidableEq

/-- A subgraph type definition: name, `extend` flag, the parsed `@key(fields:)`
selections on it, and its kind. -/
structure TypeDef where
  name : String
  extend : Bool
  key_fields : List KeyFields
  kind : TypeDefKind

/-- A subgraph type-system definition (`TypeSystemDefinition`). -/
inductive TSDef where
  | schemaDef
  | typeDef (td : TypeDef)
  | directiveDef

/-- Composed type kinds (`TypeKind`). -/
inductive TypeKindM where
  | scalar
  | object
  | interface
  | union
  | enum
  | inputObject
  deriving DecidableEq

/-- Composed field (`MetaField`, restricted to the modelled parts). -/
structure MetaFieldM where
  name : String
  ty : String
  service : Option String
  deriving DecidableEq

/-- Composed type (`MetaType`, restricted to the modelled parts). -/
structure MetaTypeM where
  name : String
  kind : TypeKindM
  owner : Option String
  keys : List (String × List KeyFields)
  implements : List String
  fields : List (String × MetaFieldM)
  possible_types : List String
  enum_values : List String
  input_fields : List (String × MetaFieldM)
  is_introspection : Bool

/-- Translation of `CombineError` (the variants `combine` can produce). -/
inductive CombineError where
  | fieldConflicted (type_name field_name : String)
  | definitionConflicted (type_name : String)
  | schemaIsNotAllowed

mutual
/-- Structural equality of key trees (the derived `PartialEq`). -/
def keyfields_beq (a b : KeyFields) : Bool :=
  match a, b with
  | .mk fa, .mk fb => kflist_beq fa fb
termination_by (sizeOf a, 0)

/-- Structural equality of key-tree entry lists. -/
def kflist_beq (a b : List (String × KeyFields)) : Bool :=
  match a, b with
  | [], [] => true
  | (ka, va) :: ra, (kb, vb) :: rb => ka = kb && keyfields_beq va vb && kflist_beq ra rb
  | _, _ => false
termination_by (sizeOf a, 1)
end

/-- Equality of per-service key lists. -/
def keysmap_beq (a b : List (String × List KeyFields)) : Bool :=
  match a, b with
  | [], [] => true
  | (ka, va) :: ra, (kb, vb) :: rb =>
      ka = kb && va.length = vb.length && (va.zip vb).all (fun p => keyfields_beq p.1 p.2)
        && keysmap_beq ra rb
  | _, _ => false

/-- Structural equality of composed types (the derived `PartialEq` used by
the `DefinitionConflicted` check, restricted to the modelled parts). -/
def meta_type_beq (a b : MetaTypeM) : Bool :=
  a.name = b.name && a.kind = b.kind && a.owner = b.owner
    && keysmap_beq a.keys b.keys && a.implements = b.implements
    && a.fields = b.fields && a.possible_types = b.possible_types
    && a.enum_values = b.enum_values && a.input_fields = b.input_fields
    && a.is_introspection = b.is_introspection

/-- Lookup in the composed type map (`HashMap::get`). -/
def mt_get (types : List (String × MetaTypeM)) (k : String) : Option MetaTypeM :=
  match types with
  | [] => none
  | (k2, v) :: rest => if k2 = k then some v else mt_get rest k

/-- Insert into the composed type map (`HashMap::insert`). -/
def mt_insert (types : List (String × MetaTypeM)) (k : String) (v : MetaTypeM) :
    List (String × MetaTypeM) :=
  match types with
  | [] => [(k, v)]
  | (k2, v2) :: rest =>
      if k2 = k then (k2, v) :: rest else (k2, v2) :: mt_insert rest k v

/-- Remove from the composed type map (`HashMap::remove`). -/
def mt_remove (types : List (String × MetaTypeM)) (k : String) :
    List (String × MetaTypeM) :=
  match types with
  | [] => []
  | (k2, v2) :: rest => if k2 = k then rest else (k2, v2) :: mt_remove rest k

/-- A fresh (seeded or `or_insert_with`) object type. -/
def fresh_object (name : String) : MetaTypeM :=
  ⟨name, .object, none, [], [], [], [], [], [], false⟩

/-- Append into an `IndexSet` without duplicating (`IndexSet::extend`). -/
def set_extend (s : List String) (add : List String) : List String :=
  match add with
  | [] => s
  | x :: rest => set_extend (if s.contains x then s else s ++ [x]) rest

/-- Push this service's parsed `@key` selections onto the type's key map. -/
def keys_push (keys : List (String × List KeyFields)) (service : String)
    (ks : List KeyFields) : List (String × List KeyFields) :=
  match ks with
  | [] => keys
  | k :: rest =>
      let keys2 :=
        match keys.find? (fun p => p.1 = service) with
        | some _ => keys.map (fun p => if p.1 = service then (p.1, p.2 ++ [k]) else p)
        | none => keys ++ [(service, [k])]
      keys_push keys2 service rest

/-- The field loop of the object branch: `@external` fields of an `extend`
definition are skipped, a duplicate field name is a `FieldConflicted` error,
and fields of an `extend` definition are stamped with the contributing
service (otherwise the field's `@resolve` service, if any, is kept). -/
def add_fields (service : String) (type_name : String) (is_extend : Bool)
    (fields : List FieldDef) (acc : List (String × MetaFieldM)) :
    Except CombineError (List (String × MetaFieldM)) :=
  match fields with
  | [] => .ok acc
  | f :: rest =>
    if is_extend && f.external then add_fields service type_name is_extend rest acc
    else if (acc.find? (fun p => p.1 = f.name)).isSome then
      .error (.fieldConflicted type_name f.name)
    else
      add_fields service type_name is_extend rest
        (acc ++ [(f.name, ⟨f.name, f.ty,
          if is_extend then some service else f.resolve_service⟩)])

/-- Translation of `convert_type_definition` for the non-object branch of
`combine` (restricted to the modelled parts; `@key`/`@owner` directives on
such definitions are not modelled). -/
def convert_type_definition (td : TypeDef) : MetaTypeM :=
  match td.kind with
  | .objectKind implements fields =>
      ⟨td.name, .object, none, [], implements,
        fields.map (fun f => (f.name, ⟨f.name, f.ty, f.resolve_service⟩)), [], [], [], false⟩
  | .scalarKind => ⟨td.name, .scalar, none, [], [], [], [], [], [], false⟩
  | .interfaceKind fields =>
      ⟨td.name, .interface, none, [], [],
        fields.map (fun f => (f.name, ⟨f.name, f.ty, f.resolve_service⟩)), [], [], [], false⟩
  | .unionKind members => ⟨td.name, .union, none, [], [], [], members, [], [], false⟩
  | .enumKind values => ⟨td.name, .enum, none, [], [], [], [], values, [], false⟩
  | .inputObjectKind fields =>
      ⟨td.name, .inputObject, none, [], [], [], [], [],
        fields.map (fun f => (f.name, ⟨f.name, f.ty, f.resolve_service⟩)), false⟩

/-- The object branch of `combine`'s definition loop. -/
def combine_object_def (service : String) (types : List (String × MetaTypeM))
    (name : String) (ext : Bool) (keyfs : List KeyFields)
    (implements : List String) (fields : List FieldDef) :
    Except CombineError (List (String × MetaTypeM)) :=
  let mt0 := (mt_get types name).getD (fresh_object name)
  let mt1 := if !ext then { mt0 with owner := some service } else mt0
  let mt2 := { mt1 with keys := keys_push mt1.keys service keyfs }
  let mt3 := { mt2 with implements := set_extend mt2.implements implements }
  match add_fields service name ext fields mt3.fields with
  | .error e => .error e
  | .ok fs => .ok (mt_insert types name { mt3 with fields := fs })

/-- The non-object branch of `combine`'s definition loop. -/
def combine_other_def (types : List (String × MetaTypeM)) (td : TypeDef) :
    Except CombineError (List (String × MetaTypeM)) :=
  let mt := convert_type_definition td
  match mt_get types mt.name with
  | some mt2 =>
      if meta_type_beq mt2 mt then .ok (mt_insert types mt.name mt)
      else .error (.definitionConflicted mt.name)
  | none => .ok (mt_insert types mt.name mt)

/-- One type-system definition of one subgraph document. -/
def combine_def (service : String) (types : List (String × MetaTypeM))
    (d : TSDef) : Except CombineError (List (String × MetaTypeM)) :=
  match d with
  | .schemaDef => .error .schemaIsNotAllowed
  | .directiveDef => .ok types
  | .typeDef td =>
    match td.kind with
    | .objectKind implements fields =>
        combine_object_def service types td.name td.extend td.key_fields implements fields
    | _ => combine_other_def types td

/-- All definitions of one subgraph document. -/
def combine_doc (service : String) (types : List (String × MetaTypeM))
    (defs : List TSDef) : Except CombineError (List (String × MetaTypeM)) :=
  match defs with
  | [] => .ok types
  | d :: rest =>
    match combine_def service types d with
    | .error e => .error e
    | .ok types2 => combine_doc service types2 rest

/-- All subgraph documents. -/
def combine_docs (docs : List (String × List TSDef))
    (types : List (String × MetaTypeM)) :
    Except CombineError (List (String × MetaTypeM)) :=
  match docs with
  | [] => .ok types
  | (service, defs) :: rest =>
    match combine_doc service types defs with
    | .error e => .error e
    | .ok types2 => combine_docs rest types2

/-- The composed schema (the parts the claims touch). -/
structure ComposedSchemaM where
  query_type : Option String
  mutation_type : Option String
  subscription_type : Option String
  types : List (String × MetaTypeM)

/-- Names of the built-in introspection types.  Modelled from the spec: the
`builtin.graphql` file merged by `finish_schema` is not under `src/`; the
spec says composition merges the built-in introspection types and synthesizes
`__type`/`__schema` on the query root.  Only their names matter here. -/
def builtin_type_names : List String :=
  ["__Schema", "__Type", "__Field", "__InputValue", "__EnumValue", "__Directive"]

/-- Insert the built-in introspection types. -/
def insert_builtins (types : List (String × MetaTypeM)) : List (String × MetaTypeM) :=
  builtin_type_names.foldl
    (fun acc n => mt_insert acc n { fresh_object n with is_introspection := true }) types

/-- Object types implementing an interface, appended without duplicates. -/
def possible_of (types : List (String × MetaTypeM)) (iface : String)
    (init : List String) : List String :=
  types.foldl
    (fun acc q =>
      if q.2.kind == TypeKindM.object && q.2.implements.contains iface then
        (if acc.contains q.1 then acc else acc ++ [q.1])
      else acc)
    init

/-- Collect `possible_types` from `implements` declarations of object types. -/
def collect_possible (types : List (String × MetaTypeM))
    (all : List (String × MetaTypeM)) : List (String × MetaTypeM) :=
  all.map (fun p => (p.1, { p.2 with possible_types := possible_of types p.1 p.2.possible_types }))

/-- Translation of `finish_schema` (restricted to the modelled parts): merge
the built-in introspection types, synthesize `__type` and `__schema` on the
query root, and populate `possible_types` from `implements`. -/
def finish_schema (s : ComposedSchemaM) : ComposedSchemaM :=
  let types1 := insert_builtins s.types
  let qname := s.query_type.getD "Query"
  let types2 :=
    match mt_get types1 qname with
    | some q =>
        mt_insert types1 qname
          { q with fields := q.fields
              ++ [("__type", ⟨"__type", "__Type", none⟩),
                  ("__schema", ⟨"__schema", "__Schema!", none⟩)] }
    | none => types1
  { s with types := collect_possible types2 types2 }

/-- The `Mutation` pruning step of `combine`. -/
def prune_mutation (s : ComposedSchemaM) : ComposedSchemaM :=
  match mt_get s.types "Mutation" with
  | some m =>
      if m.fields.isEmpty then
        ⟨s.query_type, none, s.subscription_type, mt_remove s.types "Mutation"⟩
      else s
  | none => s

/-- The `Subscription` pruning step of `combine`. -/
def prune_subscription (s : ComposedSchemaM) : ComposedSchemaM :=
  match mt_get s.types "Subscription" with
  | some m =>
      if m.fields.isEmpty then
        ⟨s.query_type, s.mutation_type, none, mt_remove s.types "Subscription"⟩
      else s
  | none => s

/-- The seeded type map of `combine`. -/
def seed_types : List (String × MetaTypeM) :=
  mt_insert (mt_insert (mt_insert [] "Query" (fresh_object "Query"))
    "Mutation" (fresh_object "Mutation")) "Subscription" (fresh_object "Subscription")

/-- Translation of `ComposedSchema::combine`: seed the three root types
empty, process every subgraph document, prune `Mutation` and `Subscription`
when no field was added to them (note: `Query` is never pruned), then finish
the schema. -/
def combine (docs : List (String × List TSDef)) :
    Except CombineError ComposedSchemaM :=
  match combine_docs docs seed_types with
  | .error e => .error e
  | .ok types1 =>
      .ok (finish_schema (prune_subscription (prune_mutation
        ⟨some "Query", some "Mutation", some "Subscription", types1⟩)))

/-- Whether a subgraph type definition adds at least one field to the type
named `R` (`@external` fields of an `extend` definition are skipped). -/
def td_contributes (td : TypeDef) (R : String) : Bool :=
  td.name = R &&
    (match td.kind with
     | .objectKind _ fields => fields.any (fun f => !(td.extend && f.external))
     | _ => false)

/-- Whether one type-system definition contributes a field to `R`. -/
def def_contributes (d : TSDef) (R : String) : Bool :=
  match d with
  | .typeDef td => td_contributes td R
  | _ => false

/-- Whether a document contributes a field to `R`. -/
def doc_contributes (defs : List TSDef) (R : String) : Bool :=
  defs.any (fun d => def_contributes d R)

/-- Whether any subgraph document contributes a field to `R`. -/
def root_contrib (docs : List (String × List TSDef)) (R : String) : Bool :=
  docs.any (fun p => doc_contributes p.2 R)

/-- Map-lookup after insert at the same key. -/
theorem mt_insert_get_self (l : List (String × MetaTypeM)) (k : String) (v : MetaTypeM) :
    mt_get (mt_insert l k v) k = some v := by
  induction l with
  | nil => simp [mt_insert, mt_get]
  | cons hd tl ih =>
    obtain ⟨k2, v2⟩ := hd
    by_cases hk : k2 = k <;> simp [mt_insert, mt_get, hk, ih]

/-- Map-lookup after insert at another key. -/
theorem mt_insert_get_other (l : List (String × MetaTypeM)) (k k2 : String)
    (v : MetaTypeM) (h : k2 ≠ k) : mt_get (mt_insert l k v) k2 = mt_get l k2 := by
  have hne : ¬ k = k2 := fun he => h he.symm
  induction l with
  | nil => simp [mt_insert, mt_get, hne]
  | cons hd tl ih =>
    obtain ⟨k3, v3⟩ := hd
    by_cases hk : k3 = k
    · subst hk
      simp [mt_insert, mt_get, hne, h]
    · by_cases hk2 : k3 = k2 <;> simp [mt_insert, mt_get, hk, hk2, ih, hne, h]

/-- Removal after lookup: the removed key is gone, given duplicate-free keys. -/
theorem mt_remove_get_self (l : List (String × MetaTypeM)) (k : String)
    (hnd : nodupb (l.map Prod.fst) = true) : mt_get (mt_remove l k) k = none := by
  induction l with
  | nil => simp [mt_remove, mt_get]
  | cons hd tl ih =>
    obtain ⟨k2, v2⟩ := hd
    rw [List.map_cons, nodupb, Bool.and_eq_true] at hnd
    by_cases hk : k2 = k
    · subst hk
      rw [mt_remove, if_pos rfl]
      rcases hg : mt_get tl k2 with _ | w
      · rfl
      · exfalso
        have hmem : k2 ∈ tl.map Prod.fst := by
          clear ih hnd
          induction tl with
          | nil => simp [mt_get] at hg
          | cons hd2 tl2 ih2 =>
            obtain ⟨k3, v3⟩ := hd2
            rw [mt_get] at hg
            by_cases hk3 : k3 = k2
            · simp [hk3]
            · rw [if_neg hk3] at hg
              simp [ih2 hg]
        rw [Bool.not_eq_true'] at hnd
        rw [← List.elem_iff] at hmem
        have h1 : List.elem k2 (List.map Prod.fst tl) = false := hnd.1
        rw [h1] at hmem
        cases hmem
    · rw [mt_remove, if_neg hk, mt_get, if_neg hk]
      exact ih hnd.2

/-- Removal at another key preserves lookups. -/
theorem mt_remove_get_other (l : List (String × MetaTypeM)) (k k2 : String)
    (h : k2 ≠ k) : mt_get (mt_remove l k) k2 = mt_get l k2 := by
  have hne : ¬ k = k2 := fun he => h he.symm
  induction l with
  | nil => simp [mt_remove]
  | cons hd tl ih =>
    obtain ⟨k3, v3⟩ := hd
    by_cases hk : k3 = k
    · subst hk
      simp [mt_remove, mt_get, hne, h]
    · by_cases hk2 : k3 = k2 <;> simp [mt_remove, mt_get, hk, hk2, ih, hne, h]

/-- Insert preserves duplicate-freeness of map keys. -/
theorem mt_insert_nodup (l : List (String × MetaTypeM)) (k : String) (v : MetaTypeM)
    (h : nodupb (l.map Prod.fst) = true) :
    nodupb ((mt_insert l k v).map Prod.fst) = true := by
  induction l with
  | nil => simp [mt_insert, nodupb]
  | cons hd tl ih =>
    obtain ⟨k2, v2⟩ := hd
    rw [List.map_cons, nodupb, Bool.and_eq_true] at h
    by_cases hk : k2 = k
    · subst hk
      rw [mt_insert, if_pos rfl, List.map_cons, nodupb, Bool.and_eq_true]
      exact h
    · rw [mt_insert, if_neg hk, List.map_cons, nodupb, Bool.and_eq_true]
      refine ⟨?_, ih h.2⟩
      have hins : ∀ m, m ∈ (mt_insert tl k v).map Prod.fst ↔
          m ∈ tl.map Prod.fst ∨ m = k := by
        clear h ih
        intro m
        induction tl with
        | nil => simp [mt_insert]
        | cons hd2 tl2 ih2 =>
          obtain ⟨k3, v3⟩ := hd2
          by_cases hk3 : k3 = k
          · subst hk3
            simp [mt_insert]
            tauto
          · rw [mt_insert, if_neg hk3]
            simp only [List.map_cons, List.mem_cons, ih2]
            tauto
      rw [Bool.not_eq_true'] at h ⊢
      rw [List.contains_eq_any_beq, List.any_eq_false]
      intro x hx
      rw [hins x] at hx
      rcases hx with hx | hx
      · have := h.1
        rw [List.contains_eq_any_beq, List.any_eq_false] at this
        exact this x hx
      · subst hx
        simp [hk]
  
/-- The invariant `combine` maintains for each seeded root type `R`: the type
is present, is an object, and its field list is non-empty exactly when some
processed definition contributed a field. -/
def root_inv (R : String) (types : List (String × MetaTypeM)) (c : Bool) : Prop :=
  ∃ mt, mt_get types R = some mt ∧ mt.kind = TypeKindM.object ∧
    (mt.fields.isEmpty = !c)

/-- Emptiness of the field list produced by the object-branch field loop. -/
theorem add_fields_isEmpty {service type_name : String} {ext : Bool}
    {fields : List FieldDef} {acc out : List (String × MetaFieldM)}
    (h : add_fields service type_name ext fields acc = .ok out) :
    out.isEmpty = (acc.isEmpty && !fields.any (fun f => !(ext && f.external))) := by
  induction fields generalizing acc with
  | nil =>
    rw [add_fields] at h
    cases h
    simp
  | cons f rest ih =>
    rw [add_fields] at h
    by_cases hext : ext && f.external
    · rw [if_pos hext] at h
      have := ih h
      simp only [List.any_cons, hext]
      simpa using this
    · rw [if_neg hext] at h
      by_cases hfind : (acc.find? (fun p => p.1 = f.name)).isSome = true
      · rw [if_pos hfind] at h
        cases h
      · rw [if_neg hfind] at h
        have hrec := ih h
        rw [hrec]
        have hextf : (ext && f.external) = false := Bool.eq_false_iff.mpr hext
        simp [List.any_cons, hextf]

/-- Structurally equal composed types have the same kind. -/
theorem meta_type_beq_kind {a b : MetaTypeM} (h : meta_type_beq a b = true) :
    a.kind = b.kind := by
  rw [meta_type_beq] at h
  simp only [Bool.and_eq_true, decide_eq_true_eq] at h
  exact h.1.1.1.1.1.1.1.1.2

/-- The kind of a non-object conversion is never `object`. -/
theorem convert_kind_ne_object {td : TypeDef}
    (h : ∀ implements fields, td.kind ≠ .objectKind implements fields) :
    (convert_type_definition td).kind ≠ TypeKindM.object := by
  rcases td with ⟨name, ext, keyfs, kind⟩
  cases kind with
  | objectKind impl fields => exact absurd rfl (h impl fields)
  | scalarKind => simp [convert_type_definition]
  | interfaceKind fields => simp [convert_type_definition]
  | unionKind members => simp [convert_type_definition]
  | enumKind values => simp [convert_type_definition]
  | inputObjectKind fields => simp [convert_type_definition]

/-- The name of a conversion is the definition's name. -/
theorem convert_name {td : TypeDef} : (convert_type_definition td).name = td.name := by
  rcases td with ⟨name, ext, keyfs, kind⟩
  cases kind <;> simp [convert_type_definition]

/-- Invariant preservation through the object branch. -/
theorem combine_object_inv {R service name : String} {ext : Bool}
    {keyfs : List KeyFields} {impl : List String} {fields : List FieldDef}
    {types types2 : List (String × MetaTypeM)} {c : Bool}
    (hinv : root_inv R types c)
    (h : combine_object_def service types name ext keyfs impl fields = .ok types2) :
    root_inv R types2
      (c || (name = R && fields.any (fun f => !(ext && f.external)))) := by
  obtain ⟨mt, hget, hkind, hfields⟩ := hinv
  by_cases hname : name = R
  · subst hname
    simp only [combine_object_def, hget, Option.getD_some] at h
    split at h
    · cases h
    · rename_i fs heq
      rw [Except.ok.injEq] at h
      subst h
      refine ⟨_, mt_insert_get_self _ _ _, ?_, ?_⟩
      · by_cases hext : ext <;> simp [hext, hkind]
      · have hie := add_fields_isEmpty heq
        by_cases hext : ext <;> simp_all [Bool.not_or]
  · simp only [combine_object_def] at h
    split at h
    · cases h
    · rename_i fs heq
      rw [Except.ok.injEq] at h
      subst h
      refine ⟨mt, ?_, hkind, ?_⟩
      · rw [mt_insert_get_other _ _ _ _ (fun he => hname he.symm)]
        exact hget
      · have hnr : (decide (name = R)) = false := by simp [hname]
        simp [hnr, hfields]

/-- Invariant preservation through the non-object branch. -/
theorem combine_other_inv {R : String} {types types2 : List (String × MetaTypeM)}
    {c : Bool} {td : TypeDef} (hinv : root_inv R types c)
    (hno : ∀ impl fields, td.kind ≠ .objectKind impl fields)
    (h : combine_other_def types td = .ok types2) : root_inv R types2 c := by
  obtain ⟨mt, hget, hkind, hfields⟩ := hinv
  have hcn : (convert_type_definition td).name = td.name := convert_name
  by_cases hname : td.name = R
  · exfalso
    simp only [combine_other_def, hcn, hname, hget] at h
    split at h
    · rename_i hbeq
      have := meta_type_beq_kind hbeq
      rw [hkind] at this
      exact convert_kind_ne_object hno this.symm
    · cases h
  · simp only [combine_other_def, hcn] at h
    have hpres : mt_get (mt_insert types td.name (convert_type_definition td)) R
        = mt_get types R :=
      mt_insert_get_other _ _ _ _ (fun he => hname he.symm)
    split at h
    · split at h
      · rw [Except.ok.injEq] at h
        subst h
        exact ⟨mt, by rw [hpres]; exact hget, hkind, hfields⟩
      · cases h
    · rw [Except.ok.injEq] at h
      subst h
      exact ⟨mt, by rw [hpres]; exact hget, hkind, hfields⟩

/-- Invariant preservation through one definition. -/
theorem combine_def_inv {R service : String} {types types2 : List (String × MetaTypeM)}
    {c : Bool} {d : TSDef} (hinv : root_inv R types c)
    (h : combine_def service types d = .ok types2) :
    root_inv R types2 (c || def_contributes d R) := by
  cases d with
  | schemaDef => simp only [combine_def] at h; cases h
  | directiveDef =>
    simp only [combine_def] at h
    rw [Except.ok.injEq] at h
    subst h
    simpa [def_contributes] using hinv
  | typeDef td =>
    rcases td with ⟨name, ext, keyfs, kind⟩
    cases kind with
    | objectKind impl fields =>
      simp only [combine_def] at h
      have := combine_object_inv hinv h
      simpa [def_contributes, td_contributes] using this
    | scalarKind =>
      simp only [combine_def] at h
      have := combine_other_inv hinv (by intro i f hc; cases hc) h
      simpa [def_contributes, td_contributes] using this
    | interfaceKind fields =>
      simp only [combine_def] at h
      have := combine_other_inv hinv (by intro i f hc; cases hc) h
      simpa [def_contributes, td_contributes] using this
    | unionKind members =>
      simp only [combine_def] at h
      have := combine_other_inv hinv (by intro i f hc; cases hc) h
      simpa [def_contributes, td_contributes] using this
    | enumKind values =>
      simp only [combine_def] at h
      have := combine_other_inv hinv (by intro i f hc; cases hc) h
      simpa [def_contributes, td_contributes] using this
    | inputObjectKind fields =>
      simp only [combine_def] at h
      have := combine_other_inv hinv (by intro i f hc; cases hc) h
      simpa [def_contributes, td_contributes] using this

/-- Invariant preservation through one subgraph document. -/
theorem combine_doc_inv {R service : String} {c : Bool} :
    ∀ {defs : List TSDef} {types types2 : List (String × MetaTypeM)},
    root_inv R types c → combine_doc service types defs = .ok types2 →
    root_inv R types2 (c || doc_contributes defs R) := by
  intro defs
  induction defs generalizing c with
  | nil =>
    intro types types2 hinv h
    rw [combine_doc] at h
    rw [Except.ok.injEq] at h
    subst h
    simpa [doc_contributes] using hinv
  | cons d rest ih =>
    intro types types2 hinv h
    rw [combine_doc] at h
    rcases hd : combine_def service types d with e | typesm <;> rw [hd] at h
    · cases h
    · have h1 := combine_def_inv hinv hd
      have h2 := ih h1 h
      have : ((c || def_contributes d R) || doc_contributes rest R)
          = (c || doc_contributes (d :: rest) R) := by
        simp [doc_contributes, Bool.or_assoc]
      rwa [this] at h2

/-- Invariant preservation through all subgraph documents. -/
theorem combine_docs_inv {R : String} {c : Bool} :
    ∀ {docs : List (String × List TSDef)} {types types2 : List (String × MetaTypeM)},
    root_inv R types c → combine_docs docs types = .ok types2 →
    root_inv R types2 (c || root_contrib docs R) := by
  intro docs
  induction docs generalizing c with
  | nil =>
    intro types types2 hinv h
    rw [combine_docs] at h
    rw [Except.ok.injEq] at h
    subst h
    simpa [root_contrib] using hinv
  | cons doc rest ih =>
    intro types types2 hinv h
    obtain ⟨service, defs⟩ := doc
    rw [combine_docs] at h
    rcases hd : combine_doc service types defs with e | typesm <;> rw [hd] at h
    · cases h
    · have h1 := combine_doc_inv hinv hd
      have h2 := ih h1 h
      have : ((c || doc_contributes defs R) || root_contrib rest R)
          = (c || root_contrib ((service, defs) :: rest) R) := by
        simp [root_contrib, Bool.or_assoc]
      rwa [this] at h2

/-- Duplicate-freeness of the type-map keys is preserved by one definition. -/
theorem combine_def_nodup {service : String} {types types2 : List (String × MetaTypeM)}
    {d : TSDef} (hnd : nodupb (types.map Prod.fst) = true)
    (h : combine_def service types d = .ok types2) :
    nodupb (types2.map Prod.fst) = true := by
  cases d with
  | schemaDef => simp only [combine_def] at h; cases h
  | directiveDef =>
    simp only [combine_def] at h
    rw [Except.ok.injEq] at h
    subst h
    exact hnd
  | typeDef td =>
    rcases td with ⟨name, ext, keyfs, kind⟩
    cases kind with
    | objectKind impl fields =>
      simp only [combine_def, combine_object_def] at h
      split at h
      · cases h
      · rw [Except.ok.injEq] at h
        subst h
        exact mt_insert_nodup _ _ _ hnd
    | scalarKind | interfaceKind | unionKind | enumKind | inputObjectKind =>
      simp only [combine_def, combine_other_def] at h
      split at h
      · split at h
        · rw [Except.ok.injEq] at h
          subst h
          exact mt_insert_nodup _ _ _ hnd
        · cases h
      · rw [Except.ok.injEq] at h
        subst h
        exact mt_insert_nodup _ _ _ hnd

/-- Duplicate-freeness through one document. -/
theorem combine_doc_nodup {service : String} :
    ∀ {defs : List TSDef} {types types2 : List (String × MetaTypeM)},
    nodupb (types.map Prod.fst) = true → combine_doc service types defs = .ok types2 →
    nodupb (types2.map Prod.fst) = true := by
  intro defs
  induction defs with
  | nil =>
    intro types types2 hnd h
    rw [combine_doc] at h
    rw [Except.ok.injEq] at h
    subst h
    exact hnd
  | cons d rest ih =>
    intro types types2 hnd h
    rw [combine_doc] at h
    rcases hd : combine_def service types d with e | typesm <;> rw [hd] at h
    · cases h
    · exact ih (combine_def_nodup hnd hd) h

/-- Duplicate-freeness through all documents. -/
theorem combine_docs_nodup :
    ∀ {docs : List (String × List TSDef)} {types types2 : List (String × MetaTypeM)},
    nodupb (types.map Prod.fst) = true → combine_docs docs types = .ok types2 →
    nodupb (types2.map Prod.fst) = true := by
  intro docs
  induction docs with
  | nil =>
    intro types types2 hnd h
    rw [combine_docs] at h
    rw [Except.ok.injEq] at h
    subst h
    exact hnd
  | cons doc rest ih =>
    intro types types2 hnd h
    obtain ⟨service, defs⟩ := doc
    rw [combine_docs] at h
    rcases hd : combine_doc service types defs with e | typesm <;> rw [hd] at h
    · cases h
    · exact ih (combine_doc_nodup hnd hd) h

/-- The six built-in insertions do not affect lookups of the root types. -/
theorem insert_builtins_get (l : List (String × MetaTypeM)) (R : String)
    (h1 : R ≠ "__Schema") (h2 : R ≠ "__Type") (h3 : R ≠ "__Field")
    (h4 : R ≠ "__InputValue") (h5 : R ≠ "__EnumValue") (h6 : R ≠ "__Directive") :
    mt_get (insert_builtins l) R = mt_get l R := by
  simp only [insert_builtins, builtin_type_names, List.foldl]
  rw [mt_insert_get_other _ _ _ _ h6, mt_insert_get_other _ _ _ _ h5,
    mt_insert_get_other _ _ _ _ h4, mt_insert_get_other _ _ _ _ h3,
    mt_insert_get_other _ _ _ _ h2, mt_insert_get_other _ _ _ _ h1]

/-- `collect_possible` rewrites values but keeps exactly the same keys. -/
theorem collect_possible_get_isSome (t : List (String × MetaTypeM)) :
    ∀ (all : List (String × MetaTypeM)) (k : String),
    (mt_get (collect_possible t all) k).isSome = (mt_get all k).isSome := by
  intro all
  induction all with
  | nil => intro k; simp [collect_possible, mt_get]
  | cons p rest ih =>
    intro k
    obtain ⟨k2, v2⟩ := p
    by_cases hk : k2 = k <;>
      simp [collect_possible, mt_get, hk] <;>
      simpa [collect_possible] using ih k

/-- `finish_schema` preserves presence of the root operation types. -/
theorem finish_schema_get_isSome (s : ComposedSchemaM) (R : String)
    (hq : s.query_type = some "Query")
    (hR : R = "Query" ∨ R = "Mutation" ∨ R = "Subscription") :
    (mt_get (finish_schema s).types R).isSome = (mt_get s.types R).isSome := by
  have hb : mt_get (insert_builtins s.types) R = mt_get s.types R := by
    rcases hR with h | h | h <;> subst h <;>
      exact insert_builtins_get _ _ (by decide) (by decide) (by decide) (by decide)
        (by decide) (by decide)
  simp only [finish_schema, hq, Option.getD_some]
  rw [collect_possible_get_isSome]
  rcases hget : mt_get (insert_builtins s.types) "Query" with _ | q
  · simp only [hb]
  · rcases hR with h | h | h
    · subst h
      rw [mt_insert_get_self]
      rw [hb] at hget
      simp [hget]
    · subst h
      rw [mt_insert_get_other _ _ _ _ (by decide)]
      exact congrArg Option.isSome hb
    · subst h
      rw [mt_insert_get_other _ _ _ _ (by decide)]
      exact congrArg Option.isSome hb


/-- Keys of a map survive removal of another key. -/
theorem mt_remove_keys_subset {l : List (String × MetaTypeM)} {k x : String}
    (hx : x ∈ (mt_remove l k).map Prod.fst) : x ∈ l.map Prod.fst := by
  induction l with
  | nil => simp [mt_remove] at hx
  | cons hd tl ih =>
    obtain ⟨k2, v2⟩ := hd
    by_cases hk : k2 = k
    · rw [mt_remove, if_pos hk] at hx
      simp [hx]
    · rw [mt_remove, if_neg hk, List.map_cons] at hx
      rcases List.mem_cons.mp hx with he | ht
      · simp [he]
      · simp [ih ht]

/-- Removal preserves duplicate-freeness of map keys. -/
theorem mt_remove_nodup (l : List (String × MetaTypeM)) (k : String)
    (hl : nodupb (l.map Prod.fst) = true) :
    nodupb ((mt_remove l k).map Prod.fst) = true := by
  induction l with
  | nil => simpa [mt_remove] using hl
  | cons hd tl ih =>
    obtain ⟨k2, v2⟩ := hd
    rw [List.map_cons, nodupb, Bool.and_eq_true] at hl
    by_cases hk : k2 = k
    · rw [mt_remove, if_pos hk]
      exact hl.2
    · rw [mt_remove, if_neg hk, List.map_cons, nodupb, Bool.and_eq_true]
      refine ⟨?_, ih hl.2⟩
      rw [Bool.not_eq_true'] at hl ⊢
      rw [List.contains_eq_any_beq, List.any_eq_false]
      intro x hx
      have := hl.1
      rw [List.contains_eq_any_beq, List.any_eq_false] at this
      exact this x (mt_remove_keys_subset hx)

/-- Behaviour of the `Mutation` prune on lookups, `query_type` and key
duplicate-freeness. -/
theorem prune_mutation_spec (s : ComposedSchemaM) (mt : MetaTypeM)
    (hget : mt_get s.types "Mutation" = some mt)
    (hnd : nodupb (s.types.map Prod.fst) = true) :
    (mt_get (prune_mutation s).types "Mutation").isSome = !mt.fields.isEmpty ∧
    (∀ R, R ≠ "Mutation" → mt_get (prune_mutation s).types R = mt_get s.types R) ∧
    (prune_mutation s).query_type = s.query_type ∧
    nodupb ((prune_mutation s).types.map Prod.fst) = true := by
  rcases he : mt.fields.isEmpty with _ | _
  · have hni : ¬ (mt.fields.isEmpty = true) := by rw [he]; exact Bool.false_ne_true
    simp only [prune_mutation, hget, if_neg hni]
    refine ⟨?_, ?_, ?_, ?_⟩ <;> simp [hget, hnd, he]
  · simp only [prune_mutation, hget, if_pos he]
    refine ⟨?_, ?_, ?_, ?_⟩
    · simp [mt_remove_get_self _ _ hnd]
    · intro R hR
      exact mt_remove_get_other _ _ _ hR
    · trivial
    · exact mt_remove_nodup _ _ hnd

/-- Behaviour of the `Subscription` prune on lookups, `query_type` and key
duplicate-freeness. -/
theorem prune_subscription_spec (s : ComposedSchemaM) (mt : MetaTypeM)
    (hget : mt_get s.types "Subscription" = some mt)
    (hnd : nodupb (s.types.map Prod.fst) = true) :
    (mt_get (prune_subscription s).types "Subscription").isSome = !mt.fields.isEmpty ∧
    (∀ R, R ≠ "Subscription" →
      mt_get (prune_subscription s).types R = mt_get s.types R) ∧
    (prune_subscription s).query_type = s.query_type ∧
    nodupb ((prune_subscription s).types.map Prod.fst) = true := by
  rcases he : mt.fields.isEmpty with _ | _
  · have hni : ¬ (mt.fields.isEmpty = true) := by rw [he]; exact Bool.false_ne_true
    simp only [prune_subscription, hget, if_neg hni]
    refine ⟨?_, ?_, ?_, ?_⟩ <;> simp [hget, hnd, he]
  · simp only [prune_subscription, hget, if_pos he]
    refine ⟨?_, ?_, ?_, ?_⟩
    · simp [mt_remove_get_self _ _ hnd]
    · intro R hR
      exact mt_remove_get_other _ _ _ hR
    · trivial
    · exact mt_remove_nodup _ _ hnd

/-- C3 (amended): for every input accepted by `combine`, `Mutation` and
`Subscription` exist in the composed schema iff at least one subgraph
definition (extended or not) contributed a field to them (for an extended
definition, `@external` fields do not count); `Query` is seeded like the
others but is never pruned, so it is always present in the result, whether
or not any subgraph contributed a field to it. -/
theorem C3_combine_root_types (docs : List (String × List TSDef))
    (s : ComposedSchemaM) (h : combine docs = .ok s) :
    (mt_get s.types "Query").isSome = true ∧
    ((mt_get s.types "Mutation").isSome = true ↔ root_contrib docs "Mutation" = true) ∧
    ((mt_get s.types "Subscription").isSome = true ↔
      root_contrib docs "Subscription" = true) := by
  simp only [combine] at h
  split at h
  · cases h
  · rename_i types1 hdocs
    rw [Except.ok.injEq] at h
    subst h
    have hseedQ : root_inv "Query" seed_types false :=
      ⟨fresh_object "Query", rfl, rfl, rfl⟩
    have hseedM : root_inv "Mutation" seed_types false :=
      ⟨fresh_object "Mutation", rfl, rfl, rfl⟩
    have hseedS : root_inv "Subscription" seed_types false :=
      ⟨fresh_object "Subscription", rfl, rfl, rfl⟩
    have hseednd : nodupb (seed_types.map Prod.fst) = true := by decide
    obtain ⟨mtQ, hgetQ, hkindQ, hfieldsQ⟩ := combine_docs_inv hseedQ hdocs
    obtain ⟨mtM, hgetM, hkindM, hfieldsM⟩ := combine_docs_inv hseedM hdocs
    obtain ⟨mtS, hgetS, hkindS, hfieldsS⟩ := combine_docs_inv hseedS hdocs
    have hnd1 : nodupb (types1.map Prod.fst) = true := combine_docs_nodup hseednd hdocs
    rw [Bool.false_or] at hfieldsM hfieldsS
    set s0 : ComposedSchemaM :=
      ⟨some "Query", some "Mutation", some "Subscription", types1⟩ with hs0
    obtain ⟨hm1, hm2, hm3, hm4⟩ := prune_mutation_spec s0 mtM hgetM hnd1
    have hgetS1 : mt_get (prune_mutation s0).types "Subscription" = some mtS := by
      rw [hm2 "Subscription" (by decide)]
      exact hgetS
    obtain ⟨hp1, hp2, hp3, hp4⟩ :=
      prune_subscription_spec (prune_mutation s0) mtS hgetS1 hm4
    have hq2 : (prune_subscription (prune_mutation s0)).query_type = some "Query" := by
      rw [hp3, hm3]
    have hfin := fun R hR =>
      finish_schema_get_isSome (prune_subscription (prune_mutation s0)) R hq2 hR
    refine ⟨?_, ?_, ?_⟩
    · rw [hfin "Query" (Or.inl rfl), hp2 "Query" (by decide),
        hm2 "Query" (by decide), hgetQ]
      rfl
    · rw [hfin "Mutation" (Or.inr (Or.inl rfl)), hp2 "Mutation" (by decide), hm1,
        hfieldsM]
      cases hc : root_contrib docs "Mutation" <;> simp
    · rw [hfin "Subscription" (Or.inr (Or.inr rfl)), hp1, hfieldsS]
      cases hc : root_contrib docs "Subscription" <;> simp

/-- C3 counterexample: with no subgraph documents at all, `combine` succeeds
and the resulting schema still contains the type `Query`, although no
subgraph contributed a field to any root type. -/
theorem C3_counterexample :
    (combine []).toOption.map (fun s => (mt_get s.types "Query").isSome) = some true ∧
    root_contrib [] "Query" = false := by
  constructor
  · rfl
  · rfl

/-- A default composed schema, for `Option.get!`. -/
instance : Inhabited ComposedSchemaM := ⟨⟨none, none, none, []⟩⟩

/-- Witness for C3 at a concrete input: a single subgraph whose document
declares `type Mutation { m: String }` yields a schema in which `Query` is
present and `Mutation` is present iff (indeed) a field was contributed. -/
theorem C3_witness :
    (mt_get ((combine [("a", [TSDef.typeDef ⟨"Mutation", false, [],
        .objectKind [] [⟨"m", "String", false, none⟩]⟩])]).toOption.get!).types
      "Query").isSome = true ∧
    ((mt_get ((combine [("a", [TSDef.typeDef ⟨"Mutation", false, [],
        .objectKind [] [⟨"m", "String", false, none⟩]⟩])]).toOption.get!).types
      "Mutation").isSome = true ↔
      root_contrib [("a", [TSDef.typeDef ⟨"Mutation", false, [],
        .objectKind [] [⟨"m", "String", false, none⟩]⟩])] "Mutation" = true) ∧
    ((mt_get ((combine [("a", [TSDef.typeDef ⟨"Mutation", false, [],
        .objectKind [] [⟨"m", "String", false, none⟩]⟩])]).toOption.get!).types
      "Subscription").isSome = true ↔
      root_contrib [("a", [TSDef.typeDef ⟨"Mutation", false, [],
        .objectKind [] [⟨"m", "String", false, none⟩]⟩])] "Subscription" = true) :=
  C3_combine_root_types
    [("a", [TSDef.typeDef ⟨"Mutation", false, [],
      .objectKind [] [⟨"m", "String", false, none⟩]⟩])]
    ((combine [("a", [TSDef.typeDef ⟨"Mutation", false, [],
      .objectKind [] [⟨"m", "String", false, none⟩]⟩])]).toOption.get!)
    rfl

/- ### Section 8: the planner (crates/planner/src/builder.rs).

The planner walks a validator-accepted document against the composed schema,
splitting it into per-service root selections and a fetch-entity group that
the `while !fetch_entity_group.is_empty()` loop turns into layers of Flatten
nodes. -/

/-- Model of a parser `Type` (async-graphql parser): a named base or a list
base.  Nullability is dropped: the planner logic modelled here (`is_list` and
`ComposedSchema::get_type`) only inspects the base. -/
inductive GType where
  | named (name : String)
  | listOf (inner : GType)
  deriving DecidableEq

/-- Translation of `is_list` (builder.rs 881-884): the base is a list. -/
def GType.is_list : GType → Bool
  | .named _ => false
  | .listOf _ => true

/-- Translation of `MetaField` (composed_schema.rs), restricted to the parts
the planner reads: name, type, owning service and the `@requires`
selection. -/
structure MetaFieldP where
  name : String
  ty : GType
  service : Option String
  requires : Option KeyFields

/-- Translation of `MetaType` (composed_schema.rs), restricted to the parts
the planner reads.  `keys` maps a service name to its `@key` selections,
`fields` is the ordered field map. -/
structure MetaTypeP where
  name : String
  kind : TypeKindM
  owner : Option String
  keys : List (String × List KeyFields)
  fields : List (String × MetaFieldP)
  possible_types : List String

/-- Lookup in the ordered field map (`IndexMap<Name, MetaField>::get`). -/
def fields_get (fs : List (String × MetaFieldP)) (n : String) : Option MetaFieldP :=
  match fs with
  | [] => none
  | (k, v) :: rest => if k = n then some v else fields_get rest n

/-- Lookup in the `@key` map (`HashMap<String, Vec<KeyFields>>::get`). -/
def keys_get (ks : List (String × List KeyFields)) (n : String) :
    Option (List KeyFields) :=
  match ks with
  | [] => none
  | (k, v) :: rest => if k = n then some v else keys_get rest n

/-- Lookup in a key-fields tree (`KeyFields::get`). -/
def kf_get (fs : List (String × KeyFields)) (n : String) : Option KeyFields :=
  match fs with
  | [] => none
  | (k, v) :: rest => if k = n then some v else kf_get rest n

/-- The composed schema as the planner sees it: the ordered type map. -/
structure SchemaP where
  types : List (String × MetaTypeP)

/-- Lookup in the type map (`IndexMap<Name, MetaType>::get`). -/
def sp_get (ts : List (String × MetaTypeP)) (n : String) : Option MetaTypeP :=
  match ts with
  | [] => none
  | (k, v) :: rest => if k = n then some v else sp_get rest n

/-- Translation of `ComposedSchema::get_type` (composed_schema.rs 373-379):
resolve a parser type through list wrappers to its named base and look the
name up. -/
def SchemaP.get_type (s : SchemaP) : GType → Option MetaTypeP
  | .named n => sp_get s.types n
  | .listOf t => s.get_type t

/-- Translation of `FetchEntityKey` (types.rs 251-256): service, response
path and parent-type name. -/
structure FetchEntityKeyP where
  service : String
  path : ResponsePath
  ty : String
  deriving DecidableEq

/-- Translation of `FetchEntity` (types.rs 245-249). -/
structure FetchEntityP where
  parent_type : MetaTypeP
  pfx : Nat
  fields : List GField

/-- Translation of `FetchEntityGroup` (an ordered
`IndexMap<FetchEntityKey, FetchEntity>`). -/
abbrev FetchGroup := List (FetchEntityKeyP × FetchEntityP)

/-- `IndexMap::get_mut` on the fetch-entity group (key lookup). -/
def group_get (g : FetchGroup) (k : FetchEntityKeyP) : Option FetchEntityP :=
  match g with
  | [] => none
  | (k2, v) :: rest => if k2 = k then some v else group_get rest k

/-- `fetch_entity.fields.push(field)` on the entry for `k`. -/
def group_push_field (g : FetchGroup) (k : FetchEntityKeyP) (f : GField) :
    FetchGroup :=
  g.map (fun p => if p.1 = k then
    (p.1, ⟨p.2.parent_type, p.2.pfx, p.2.fields ++ [f]⟩) else p)

/-- The mutable planner state threaded through `Context::build_field`: the
`key_id` counter read by `take_key_prefix` (builder.rs 827-831) and the
fetch-entity group being accumulated. -/
structure PState where
  key_id : Nat
  group : FetchGroup

mutual
/-- Translation of `Context::field_in_keys` (builder.rs 833-878): the field
name must be a key entry and all its sub-selections must stay inside that
entry's children. -/
def field_in_keys (f : GField) (keys : KeyFields) : Bool :=
  match f with
  | .mk n _ _ _ sub =>
    match kf_get keys.fields n with
    | some children => selection_set_in_keys sub children
    | none => false
termination_by (sizeOf f, 0)

/-- Translation of `selection_set_in_keys` inside `field_in_keys`: every
selection must lie in the keys; fragment spreads recurse through their
resolved body. -/
def selection_set_in_keys (sels : List Sel) (keys : KeyFields) : Bool :=
  match sels with
  | [] => true
  | .field f :: rest =>
      field_in_keys f keys && selection_set_in_keys rest keys
  | .spread _ body :: rest =>
      selection_set_in_keys body keys && selection_set_in_keys rest keys
  | .inline _ body :: rest =>
      selection_set_in_keys body keys && selection_set_in_keys rest keys
termination_by (sizeOf sels, 1)
end

/-- The service that resolves a field: the field definition's `service`, else
the parent type's `owner`, else the current service (builder.rs 528-535). -/
def resolved_service (pt : MetaTypeP) (fd : MetaFieldP) (cur : String) : String :=
  ((fd.service).or pt.owner).getD cur

/-- The key selection used for a cross-service field: the first `@key` of the
target service, else the first `@key` of the owner (builder.rs 538-547). -/
def service_keys (pt : MetaTypeP) (service : String) : Option KeyFields :=
  match (keys_get pt.keys service).bind List.head? with
  | some k => some k
  | none => pt.owner.bind (fun o => (keys_get pt.keys o).bind List.head?)

/-- The routing decision of `build_field` (builder.rs 528-561) for a field
with a known definition and type: `drop` models the early `return` when no
key selection exists, `entity` the `add_fetch_entity` branch, `normal` the
local build (taken when the resolved service is the current one, or when the
field lies inside the keys). -/
inductive FieldRoute where
  | drop
  | entity (service : String) (keys : KeyFields)
  | normal

/-- Compute the `FieldRoute` of a field. -/
def field_route (pt : MetaTypeP) (cur : String) (f : GField) (fd : MetaFieldP) :
    FieldRoute :=
  let service := resolved_service pt fd cur
  if service = cur then .normal
  else
    match service_keys pt service with
    | none => .drop
    | some keys =>
        if field_in_keys f keys then .normal else .entity service keys

/-- Translation of `Context::add_fetch_entity` (builder.rs 598-638): push the
field onto an existing group entry, or take a fresh key prefix, emit a
`RequiredRef` selection and insert a new entry.  Returns the selections
appended to the caller's selection-ref set and the new state. -/
def add_fetch_entity (path : ResponsePath) (st : PState) (pt : MetaTypeP)
    (f : GField) (fd : MetaFieldP) (service : String) (keys : KeyFields) :
    SelectionRefSet × PState :=
  let k : FetchEntityKeyP := ⟨service, path, pt.name⟩
  match group_get st.group k with
  | some _ => ([], ⟨st.key_id, group_push_field st.group k f⟩)
  | none =>
      ([SelectionRef.requiredRef st.key_id keys fd.requires],
        ⟨st.key_id + 1, st.group ++ [(k, ⟨pt, st.key_id, [f]⟩)]⟩)

/-- `path.last_mut().unwrap().possible_type = pt`
(builder.rs 792-801; the source path is never empty at this point). -/
def set_last_possible (path : ResponsePath) (pt : Option String) : ResponsePath :=
  match path with
  | [] => []
  | [s] => [⟨s.name, s.is_list, pt⟩]
  | s :: rest => s :: set_last_possible rest pt

/-- `selection_ref_set_group.entry(ty).or_default()` followed by pushing the
given selections (builder.rs 703-710): extend the entry in place, creating it
(possibly empty) at the end on first touch. -/
def srg_append (g : List (String × SelectionRefSet)) (ty : String)
    (xs : SelectionRefSet) : List (String × SelectionRefSet) :=
  match g with
  | [] => [(ty, xs)]
  | (k, v) :: rest =>
      if k = ty then (k, v ++ xs) :: rest else (k, v) :: srg_append rest ty xs

mutual
/-- Translation of `Context::build_field` (builder.rs 502-596).  Returns the
selections pushed onto the caller's selection-ref set together with the
updated planner state; the response path is passed by value (the source's
push/pop discipline restores it around every call). -/
def build_field (schema : SchemaP) (path : ResponsePath) (st : PState)
    (cur : String) (pt : MetaTypeP) (f : GField) : SelectionRefSet × PState :=
  match f with
  | .mk n al args dirs sub =>
    if n = "__typename" then ([SelectionRef.introspectionTypename], st)
    else
      match fields_get pt.fields n with
      | none => ([], st)
      | some fd =>
        match schema.get_type fd.ty with
        | none => ([], st)
        | some ft =>
          match field_route pt cur (GField.mk n al args dirs sub) fd with
          | .drop => ([], st)
          | .entity service keys =>
              add_fetch_entity path st pt (GField.mk n al args dirs sub) fd
                service keys
          | .normal =>
              let path2 := path ++
                [⟨(GField.mk n al args dirs sub).response_key, fd.ty.is_list, none⟩]
              let r :=
                if ft.kind = TypeKindM.interface ∨ ft.kind = TypeKindM.union then
                  build_abstract_selection_set schema path2 st cur ft sub
                else
                  build_selection_set schema path2 st cur ft sub
              ([SelectionRef.fieldRef (GField.mk n al args dirs sub) r.1], r.2)
termination_by (sizeOf f, 0, 0)

/-- Translation of `Context::build_selection_set` (builder.rs 640-688):
fields build in order; fragment spreads and inline fragments recurse through
their bodies unconditionally. -/
def build_selection_set (schema : SchemaP) (path : ResponsePath) (st : PState)
    (cur : String) (pt : MetaTypeP) (sels : List Sel) : SelectionRefSet × PState :=
  match sels with
  | [] => ([], st)
  | Sel.field f :: rest =>
      let r1 := build_field schema path st cur pt f
      let r2 := build_selection_set schema path r1.2 cur pt rest
      (r1.1 ++ r2.1, r2.2)
  | Sel.spread _ body :: rest =>
      let r1 := build_selection_set schema path st cur pt body
      let r2 := build_selection_set schema path r1.2 cur pt rest
      (r1.1 ++ r2.1, r2.2)
  | Sel.inline _ body :: rest =>
      let r1 := build_selection_set schema path st cur pt body
      let r2 := build_selection_set schema path r1.2 cur pt rest
      (r1.1 ++ r2.1, r2.2)
termination_by (sizeOf sels, 1, 0)

/-- Translation of `build_fields` inside `build_abstract_selection_set`
(builder.rs 698-788): build each field against the current possible type into
the per-type selection group; a spread whose condition is the current type or
names an abstract type recurses, a spread with a condition unknown to the
schema aborts the remaining selections (the source's early `return`); an
inline fragment with a foreign condition is skipped. -/
def build_fields (schema : SchemaP) (path : ResponsePath)
    (g : List (String × SelectionRefSet)) (st : PState) (cur : String)
    (possible_type : MetaTypeP) (sels : List Sel) :
    List (String × SelectionRefSet) × PState :=
  match sels with
  | [] => (g, st)
  | Sel.field f :: rest =>
      let r1 := build_field schema path st cur possible_type f
      build_fields schema path (srg_append g possible_type.name r1.1) r1.2 cur
        possible_type rest
  | Sel.spread cond body :: rest =>
      if cond = possible_type.name then
        let r1 := build_fields schema path g st cur possible_type body
        build_fields schema path r1.1 r1.2 cur possible_type rest
      else
        (match sp_get schema.types cond with
         | none => (g, st)
         | some ft =>
             if ft.kind = TypeKindM.interface ∨ ft.kind = TypeKindM.union then
               let r1 := build_fields schema path g st cur possible_type body
               build_fields schema path r1.1 r1.2 cur possible_type rest
             else
               build_fields schema path g st cur possible_type rest)
  | Sel.inline cond body :: rest =>
      (match cond with
       | some c =>
           if c = possible_type.name then
             let r1 := build_fields schema path g st cur possible_type body
             build_fields schema path r1.1 r1.2 cur possible_type rest
           else
             build_fields schema path g st cur possible_type rest
       | none =>
           let r1 := build_fields schema path g st cur possible_type body
           build_fields schema path r1.1 r1.2 cur possible_type rest)
termination_by (sizeOf sels, 1, 0)

/-- The per-possible-type loop of `build_abstract_selection_set` (builder.rs
790-806): for each possible type found in the schema, mark the last path
segment with it and build the fields against it (the mark is reset
afterwards, which value passing models for free). -/
def build_abstract_loop (schema : SchemaP) (path : ResponsePath)
    (g : List (String × SelectionRefSet)) (st : PState) (cur : String)
    (tys : List String) (sels : List Sel) :
    List (String × SelectionRefSet) × PState :=
  match tys with
  | [] => (g, st)
  | t :: rest =>
      match sp_get schema.types t with
      | none => build_abstract_loop schema path g st cur rest sels
      | some ty =>
          let r1 := build_fields schema (set_last_possible path (some ty.name))
            g st cur ty sels
          build_abstract_loop schema path r1.1 r1.2 cur rest sels
termination_by (sizeOf sels, 2, sizeOf tys)

/-- Translation of `Context::build_abstract_selection_set` (builder.rs
690-825): run the possible-type loop and wrap each non-empty per-type
selection set in an inline fragment with that type condition. -/
def build_abstract_selection_set (schema : SchemaP) (path : ResponsePath)
    (st : PState) (cur : String) (pt : MetaTypeP) (sels : List Sel) :
    SelectionRefSet × PState :=
  let r := build_abstract_loop schema path [] st cur pt.possible_types sels
  ((r.1.filter (fun p => ¬ p.2.isEmpty)).map
      (fun p => SelectionRef.inlineFragment (some p.1) p.2), r.2)
termination_by (sizeOf sels, 3, 0)
end

/-- Translation of `is_introspection_field` (builder.rs 1003-1005). -/
def is_introspection_field (n : String) : Bool :=
  n = "__type" || n = "__schema"

/-- Translation of `MutationRootGroup::selection_set_mut` followed by pushing
the built selections (types.rs 223-243): fuse into the last entry when it
already targets the service, else push a new entry. -/
def mrg_append : List (String × SelectionRefSet) → String → SelectionRefSet →
    List (String × SelectionRefSet)
  | [], service, xs => [(service, xs)]
  | [(s, v)], service, xs =>
      if s = service then [(s, v ++ xs)] else [(s, v), (service, xs)]
  | p :: q :: rest, service, xs => p :: mrg_append (q :: rest) service xs

/-- The root-group update: `QueryRootGroup` (types.rs 209-220) keys by
service anywhere, `MutationRootGroup` fuses only with the last entry. -/
def root_append (isMut : Bool) (g : List (String × SelectionRefSet))
    (service : String) (xs : SelectionRefSet) : List (String × SelectionRefSet) :=
  if isMut then mrg_append g service xs else srg_append g service xs

/-- Translation of `build_root_selection_set_rec` (builder.rs 147-208):
unknown fields are skipped, `__type`/`__schema` go to the introspection set
(modelled as the list of recorded introspection field names, all the plan
shape depends on), a field with a service builds into the root group's entry
for that service with a fresh empty path, a service-less field is dropped;
spreads and inline fragments recurse through their bodies. -/
def build_root_sels (schema : SchemaP) (isMut : Bool)
    (rg : List (String × SelectionRefSet)) (st : PState) (intro : List String)
    (pt : MetaTypeP) (sels : List Sel) :
    List (String × SelectionRefSet) × PState × List String :=
  match sels with
  | [] => (rg, st, intro)
  | Sel.field f :: rest =>
      (match fields_get pt.fields f.name with
       | none => build_root_sels schema isMut rg st intro pt rest
       | some fd =>
         if is_introspection_field f.name then
           build_root_sels schema isMut rg st (intro ++ [f.name]) pt rest
         else
           match fd.service with
           | none => build_root_sels schema isMut rg st intro pt rest
           | some service =>
               let r := build_field schema [] st service pt f
               build_root_sels schema isMut (root_append isMut rg service r.1)
                 r.2 intro pt rest)
  | Sel.spread _ body :: rest =>
      let r := build_root_sels schema isMut rg st intro pt body
      build_root_sels schema isMut r.1 r.2.1 r.2.2 pt rest
  | Sel.inline _ body :: rest =>
      let r := build_root_sels schema isMut rg st intro pt body
      build_root_sels schema isMut r.1 r.2.1 r.2.2 pt rest
termination_by sizeOf sels

/-- Translation of `PlanNode` (plan.rs) with the fetch and flatten payloads:
fetch nodes carry the service, the result of the referenced-variable
computation and the fetch query; flatten nodes additionally the response path
and the key prefix. -/
inductive PlanNodeP where
  | sequence (nodes : List PlanNodeP)
  | parallel (nodes : List PlanNodeP)
  | introspection (fields : List String)
  | fetch (service : String) (vars : Option (List (String × CV)))
      (query : FetchQuery)
  | flatten (path : ResponsePath) (pfx : Nat) (service : String)
      (vars : Option (List (String × CV))) (query : FetchQuery)

/-- Translation of `PlanNode::flatten` (plan.rs 26-32): collapse a singleton
sequence or parallel node (named `plan_collapse` here because our flatten
nodes are a constructor). -/
def plan_collapse : PlanNodeP → PlanNodeP
  | .sequence [n] => n
  | .parallel [n] => n
  | n => n

/-- One root fetch node (builder.rs 229-243 / 341-356): compute the
referenced variables of the selection set and wrap it in a `FetchQuery`
without entity type. -/
def mk_root_fetch (vars : List (String × CV)) (vds : List VarDef) (op : OpType)
    (p : String × SelectionRefSet) : PlanNodeP :=
  let rv := referenced_variables p.2 vars vds
  PlanNodeP.fetch p.1 (rv.map Prod.fst)
    ⟨none, op, ((rv.map Prod.snd).getD []), p.2⟩

/-- Building the selection set of one fetch-entity entry: `for field in
fields { self.build_field(...) }` (builder.rs 265-274), with the entry's
path and service as current context. -/
def build_entity_fields (schema : SchemaP) (path : ResponsePath) (st : PState)
    (cur : String) (pt : MetaTypeP) (fields : List GField) :
    SelectionRefSet × PState :=
  match fields with
  | [] => ([], st)
  | f :: rest =>
      let r1 := build_field schema path st cur pt f
      let r2 := build_entity_fields schema path r1.2 cur pt rest
      (r1.1 ++ r2.1, r2.2)

/-- One pass over the fetch-entity group (builder.rs 255-295): each entry
yields a Flatten node carrying its path, prefix, service and entity type;
`next_group` and the key counter accumulate in the threaded state (whose
group starts empty for the layer). -/
def entity_layer (schema : SchemaP) (vars : List (String × CV))
    (vds : List VarDef) (op : OpType) (g : FetchGroup) (st : PState) :
    List PlanNodeP × PState :=
  match g with
  | [] => ([], st)
  | (k, e) :: rest =>
      let r := build_entity_fields schema k.path st k.service e.parent_type
        e.fields
      let rv := referenced_variables r.1 vars vds
      let node := PlanNodeP.flatten k.path e.pfx k.service (rv.map Prod.fst)
        ⟨some e.parent_type.name, op, (rv.map Prod.snd).getD [], r.1⟩
      let r2 := entity_layer schema vars vds op rest r.2
      (node :: r2.1, r2.2)

/-- Translation of the `while !fetch_entity_group.is_empty()` loop
(builder.rs 252-303), with explicit fuel: each iteration runs one layer over
the group (collapsing the parallel node) and continues on the produced
`next_group`.  The residual group and the final key counter are returned so
that fuel exhaustion is observable: the residual is empty exactly when the
source loop terminates within the given fuel. -/
def entity_loop (schema : SchemaP) (vars : List (String × CV))
    (vds : List VarDef) (op : OpType) (fuel : Nat) (g : FetchGroup)
    (kid : Nat) : List PlanNodeP × FetchGroup × Nat :=
  match fuel with
  | 0 => ([], g, kid)
  | fuel' + 1 =>
      if g.isEmpty then ([], [], kid)
      else
        let r := entity_layer schema vars vds op g ⟨kid, []⟩
        let layer := plan_collapse (PlanNodeP.parallel r.1)
        let rest := entity_loop schema vars vds op fuel' r.2.group r.2.key_id
        (layer :: rest.1, rest.2)

/-- Translation of `Context::build_root_selection_set` (builder.rs 139-304)
together with the root-group instantiation done in `PlanBuilder::plan`
(builder.rs 112-126: queries use a `QueryRootGroup`, mutations a
`MutationRootGroup`): the root pass, the optional introspection node, the
root fetch node (parallel for queries, sequence otherwise) and the entity
layers (whose flatten queries carry `OperationType::Subscription`, as in the
source), assembled into a collapsed sequence.  Returns the plan, the layer
list, the residual fetch-entity group and the final key counter (the last
three exposed for the loop statements; `kid0` is 1 in `Context::new`). -/
def build_root_selection_set (schema : SchemaP) (op : OpType)
    (vars : List (String × CV)) (vds : List VarDef) (pt : MetaTypeP)
    (sels : List Sel) (fuel : Nat) (kid0 : Nat) :
    PlanNodeP × List PlanNodeP × FetchGroup × Nat :=
  let r := build_root_sels schema (op = OpType.mutation) [] ⟨kid0, []⟩ [] pt sels
  let fetch_nodes := r.1.map (mk_root_fetch vars vds op)
  let fetch_node :=
    if op = OpType.query then plan_collapse (PlanNodeP.parallel fetch_nodes)
    else plan_collapse (PlanNodeP.sequence fetch_nodes)
  let lr := entity_loop schema vars vds OpType.subscription fuel r.2.1.group
    r.2.1.key_id
  let nodes := (if r.2.2.isEmpty then []
      else [PlanNodeP.introspection r.2.2]) ++ [fetch_node] ++ lr.1
  (plan_collapse (PlanNodeP.sequence nodes), lr.1, lr.2.1, lr.2.2)

/-- The root loop of `Context::build_subscribe` (builder.rs 317-338): only
plain fields are considered, unknown fields and service-less fields are
skipped, and each field builds into the query-root-group entry of its
service with a fresh path. -/
def build_subscribe_root (schema : SchemaP)
    (rg : List (String × SelectionRefSet)) (st : PState) (pt : MetaTypeP)
    (sels : List Sel) : List (String × SelectionRefSet) × PState :=
  match sels with
  | [] => (rg, st)
  | Sel.field f :: rest =>
      (match fields_get pt.fields f.name with
       | none => build_subscribe_root schema rg st pt rest
       | some fd =>
         match fd.service with
         | none => build_subscribe_root schema rg st pt rest
         | some service =>
             let r := build_field schema [] st service pt f
             build_subscribe_root schema (srg_append rg service r.1) r.2 pt rest)
  | Sel.spread _ _ :: rest => build_subscribe_root schema rg st pt rest
  | Sel.inline _ _ :: rest => build_subscribe_root schema rg st pt rest

/-- Translation of `Context::build_subscribe` (builder.rs 308-421): the
per-service subscribe fetch nodes and the optional flatten plan produced by
the entity loop (whose flatten queries carry `OperationType::Query`); the
residual group and final key counter are exposed as in
`build_root_selection_set`. -/
def build_subscribe (schema : SchemaP) (vars : List (String × CV))
    (vds : List VarDef) (pt : MetaTypeP) (sels : List Sel) (fuel : Nat)
    (kid0 : Nat) :
    List PlanNodeP × Option PlanNodeP × FetchGroup × Nat :=
  let r := build_subscribe_root schema [] ⟨kid0, []⟩ pt sels
  let fetch_nodes := r.1.map (mk_root_fetch vars vds OpType.subscription)
  let lr := entity_loop schema vars vds OpType.query fuel r.2.group r.2.key_id
  (fetch_nodes,
   (if lr.1.isEmpty then none
    else some (plan_collapse (PlanNodeP.sequence lr.1))),
   lr.2.1, lr.2.2)

mutual
/-- The services of the Fetch nodes of a plan, in traversal order. -/
def collect_fetch_services (n : PlanNodeP) : List String :=
  match n with
  | .sequence ns => cfs_list ns
  | .parallel ns => cfs_list ns
  | .introspection _ => []
  | .fetch service _ _ => [service]
  | .flatten _ _ _ _ _ => []
termination_by (sizeOf n, 0)

/-- Fetch services of a node list, concatenated in order. -/
def cfs_list (ns : List PlanNodeP) : List String :=
  match ns with
  | [] => []
  | n :: rest => collect_fetch_services n ++ cfs_list rest
termination_by (sizeOf ns, 1)
end

mutual
/-- The key prefixes of the Flatten nodes of a plan, in traversal order. -/
def collect_flatten_pfxs (n : PlanNodeP) : List Nat :=
  match n with
  | .sequence ns => cfp_list ns
  | .parallel ns => cfp_list ns
  | .introspection _ => []
  | .fetch _ _ _ => []
  | .flatten _ pfx _ _ _ => [pfx]
termination_by (sizeOf n, 0)

/-- Flatten prefixes of a node list, concatenated in order. -/
def cfp_list (ns : List PlanNodeP) : List Nat :=
  match ns with
  | [] => []
  | n :: rest => collect_flatten_pfxs n ++ cfp_list rest
termination_by (sizeOf ns, 1)
end

mutual
/-- The (service, response-path, entity-type) triples of the Flatten nodes of
a plan, in traversal order, reusing `FetchEntityKeyP` as the triple type. -/
def collect_flatten_keys (n : PlanNodeP) : List FetchEntityKeyP :=
  match n with
  | .sequence ns => cfk_list ns
  | .parallel ns => cfk_list ns
  | .introspection _ => []
  | .fetch _ _ _ => []
  | .flatten path _ service _ q => [⟨service, path, q.entity_type.getD ""⟩]
termination_by (sizeOf n, 0)

/-- Flatten triples of a node list, concatenated in order. -/
def cfk_list (ns : List PlanNodeP) : List FetchEntityKeyP :=
  match ns with
  | [] => []
  | n :: rest => collect_flatten_keys n ++ cfk_list rest
termination_by (sizeOf ns, 1)
end

/- C6: mutation root-fetch ordering and fusion. -/

/-- Spec side for C6: the client-declared list of root target services — for
each root selection in order, the service of its field definition when the
field exists, is not an introspection field and carries a service; spreads
and inline fragments contribute their bodies in place (mirroring
`build_root_selection_set_rec`). -/
def root_services (pt : MetaTypeP) (sels : List Sel) : List String :=
  match sels with
  | [] => []
  | Sel.field f :: rest =>
      (match fields_get pt.fields f.name with
       | none => root_services pt rest
       | some fd =>
         if is_introspection_field f.name then root_services pt rest
         else
           match fd.service with
           | none => root_services pt rest
           | some service => service :: root_services pt rest)
  | Sel.spread _ body :: rest => root_services pt body ++ root_services pt rest
  | Sel.inline _ body :: rest => root_services pt body ++ root_services pt rest
termination_by sizeOf sels

/-- Spec side for C6: coalesce a run of consecutive equal services into one
occurrence, keeping the client order, with `a` as the pending service. -/
def coalesce_from (a : String) (l : List String) : List String :=
  match l with
  | [] => [a]
  | s :: rest => if a = s then coalesce_from a rest else a :: coalesce_from s rest

/-- Spec side for C6: consecutive-duplicate coalescing of a service list. -/
def coalesce (l : List String) : List String :=
  match l with
  | [] => []
  | s :: rest => coalesce_from s rest

/-- The effect of one `MutationRootGroup::selection_set_mut` on the service
sequence of the group: append the service unless the last entry already is
it. -/
def push_service : List String → String → List String
  | [], s => [s]
  | [t], s => if t = s then [t] else [t, s]
  | t :: u :: rest, s => t :: push_service (u :: rest) s

theorem mrg_append_services (g : List (String × SelectionRefSet)) (s : String)
    (xs : SelectionRefSet) :
    (mrg_append g s xs).map Prod.fst = push_service (g.map Prod.fst) s := by
  induction g with
  | nil => rfl
  | cons p rest ih =>
    obtain ⟨p1, p2⟩ := p
    cases rest with
    | nil =>
      simp only [mrg_append, push_service, List.map]
      by_cases h : p1 = s <;> simp [h]
    | cons q rest2 =>
      simpa only [mrg_append, push_service, List.map] using congrArg (p1 :: ·) ih

theorem push_service_append (l m : List String) (s : String) (h : m ≠ []) :
    push_service (l ++ m) s = l ++ push_service m s := by
  induction l with
  | nil => rfl
  | cons t l' ih =>
    cases hm : l' ++ m with
    | nil => exact absurd (List.append_eq_nil.mp hm).2 h
    | cons u m' =>
      have h2 : (t :: l') ++ m = t :: u :: m' := by rw [List.cons_append, hm]
      rw [h2]
      show t :: push_service (u :: m') s = (t :: l') ++ push_service m s
      rw [← hm, ih, List.cons_append]

theorem foldl_push_append (ev : List String) :
    ∀ l m, m ≠ [] →
      List.foldl push_service (l ++ m) ev = l ++ List.foldl push_service m ev := by
  induction ev with
  | nil => intro l m _; rfl
  | cons s ev ih =>
    intro l m hm
    simp only [List.foldl_cons]
    rw [push_service_append l m s hm]
    apply ih
    cases m with
    | nil => exact absurd rfl hm
    | cons t m' =>
      cases m' with
      | nil => simp only [push_service]; split <;> simp
      | cons u m'' => simp [push_service]

theorem foldl_push_coalesce_from (ev : List String) :
    ∀ a, List.foldl push_service [a] ev = coalesce_from a ev := by
  induction ev with
  | nil => intro a; rfl
  | cons s ev ih =>
    intro a
    simp only [List.foldl_cons, push_service, coalesce_from]
    by_cases h : a = s
    · rw [if_pos h, if_pos h, h, ih]
    · rw [if_neg h, if_neg h]
      have : [a, s] = [a] ++ [s] := rfl
      rw [this, foldl_push_append ev [a] [s] (by simp), ih s]
      rfl

theorem foldl_push_coalesce (ev : List String) :
    List.foldl push_service [] ev = coalesce ev := by
  cases ev with
  | nil => rfl
  | cons s ev =>
    simp only [List.foldl_cons, push_service, coalesce]
    exact foldl_push_coalesce_from ev s

/-- The head of `coalesce_from a l` is always `a`. -/
theorem coalesce_from_head (a : String) (l : List String) :
    ∃ t, coalesce_from a l = a :: t := by
  induction l generalizing a with
  | nil => exact ⟨[], rfl⟩
  | cons s rest ih =>
    simp only [coalesce_from]
    by_cases h : a = s
    · rw [if_pos h]; exact ih a
    · rw [if_neg h]
      exact ⟨coalesce_from s rest, rfl⟩

theorem coalesce_from_chain (a : String) (l : List String) :
    List.Chain' (fun x y => x ≠ y) (coalesce_from a l) := by
  induction l generalizing a with
  | nil => simp [coalesce_from]
  | cons s rest ih =>
    simp only [coalesce_from]
    by_cases h : a = s
    · rw [if_pos h]; exact ih a
    · rw [if_neg h]
      obtain ⟨t, ht⟩ := coalesce_from_head s rest
      rw [ht]
      exact List.Chain'.cons h (ht ▸ ih s)

theorem coalesce_chain (l : List String) :
    List.Chain' (fun x y => x ≠ y) (coalesce l) := by
  cases l with
  | nil => simp [coalesce]
  | cons s rest => exact coalesce_from_chain s rest

/-- The mutation root pass turns the client-declared service events into the
group's service sequence by folding `push_service`. -/
theorem build_root_sels_services (schema : SchemaP) (pt : MetaTypeP) :
    ∀ sels rg st intro,
      ((build_root_sels schema true rg st intro pt sels).1).map Prod.fst =
        List.foldl push_service (rg.map Prod.fst) (root_services pt sels) := by
  suffices haux : ∀ N : Nat, ∀ sels : List Sel, sizeOf sels ≤ N →
      ∀ rg st intro,
        ((build_root_sels schema true rg st intro pt sels).1).map Prod.fst =
          List.foldl push_service (rg.map Prod.fst) (root_services pt sels) by
    intro sels rg st intro
    exact haux (sizeOf sels) sels le_rfl rg st intro
  intro N
  induction N using Nat.strong_induction_on with
  | _ N ih =>
    intro sels hsz rg st intro
    match sels with
    | [] =>
      rw [build_root_sels, root_services]
      rfl
    | Sel.field f :: rest =>
      have hszrest : sizeOf rest < sizeOf (Sel.field f :: rest) := by
        simp only [List.cons.sizeOf_spec]; omega
      cases hfd : fields_get pt.fields f.name with
      | none =>
        simp only [build_root_sels, root_services, hfd]
        exact ih (sizeOf rest) (by omega) rest le_rfl rg st intro
      | some fd =>
        simp only [build_root_sels, root_services, hfd]
        by_cases hin : is_introspection_field f.name = true
        · rw [if_pos hin, if_pos hin]
          exact ih (sizeOf rest) (by omega) rest le_rfl rg st (intro ++ [f.name])
        · rw [if_neg hin, if_neg hin]
          cases hs : fd.service with
          | none =>
            simp only [hs]
            exact ih (sizeOf rest) (by omega) rest le_rfl rg st intro
          | some service =>
            simp only [hs]
            rw [ih (sizeOf rest) (by omega) rest le_rfl]
            rw [root_append, if_pos rfl, mrg_append_services, List.foldl_cons]
    | Sel.spread c body :: rest =>
      have hszb : sizeOf body < sizeOf (Sel.spread c body :: rest) := by
        simp only [List.cons.sizeOf_spec, Sel.spread.sizeOf_spec]; omega
      have hszr : sizeOf rest < sizeOf (Sel.spread c body :: rest) := by
        simp only [List.cons.sizeOf_spec]; omega
      simp only [build_root_sels, root_services]
      rw [ih (sizeOf rest) (by omega) rest le_rfl,
        ih (sizeOf body) (by omega) body le_rfl, List.foldl_append]
    | Sel.inline c body :: rest =>
      have hszb : sizeOf body < sizeOf (Sel.inline c body :: rest) := by
        simp only [List.cons.sizeOf_spec, Sel.inline.sizeOf_spec]; omega
      have hszr : sizeOf rest < sizeOf (Sel.inline c body :: rest) := by
        simp only [List.cons.sizeOf_spec]; omega
      simp only [build_root_sels, root_services]
      rw [ih (sizeOf rest) (by omega) rest le_rfl,
        ih (sizeOf body) (by omega) body le_rfl, List.foldl_append]

theorem cfs_list_append (xs ys : List PlanNodeP) :
    cfs_list (xs ++ ys) = cfs_list xs ++ cfs_list ys := by
  induction xs with
  | nil => simp [cfs_list]
  | cons a xs ih => simp [cfs_list, ih]

theorem cfs_collapse (n : PlanNodeP) :
    collect_fetch_services (plan_collapse n) = collect_fetch_services n := by
  cases n with
  | sequence ns =>
    match ns with
    | [] => rfl
    | [a] =>
      have h1 : plan_collapse (PlanNodeP.sequence [a]) = a := rfl
      rw [h1]
      simp [collect_fetch_services, cfs_list]
    | a :: b :: rest => rfl
  | parallel ns =>
    match ns with
    | [] => rfl
    | [a] =>
      have h1 : plan_collapse (PlanNodeP.parallel [a]) = a := rfl
      rw [h1]
      simp [collect_fetch_services, cfs_list]
    | a :: b :: rest => rfl
  | introspection fs => rfl
  | fetch s v q => rfl
  | flatten p x s v q => rfl

theorem cfs_fetch_nodes (vars : List (String × CV)) (vds : List VarDef)
    (op : OpType) (rg : List (String × SelectionRefSet)) :
    cfs_list (rg.map (mk_root_fetch vars vds op)) = rg.map Prod.fst := by
  induction rg with
  | nil => simp [cfs_list]
  | cons p rest ih =>
    simp [cfs_list, mk_root_fetch, collect_fetch_services, ih]

theorem entity_layer_no_fetch (schema : SchemaP) (vars : List (String × CV))
    (vds : List VarDef) (op : OpType) :
    ∀ (g : FetchGroup) (st : PState),
      cfs_list (entity_layer schema vars vds op g st).1 = [] := by
  intro g
  induction g with
  | nil => intro st; simp [entity_layer, cfs_list]
  | cons p rest ih =>
    intro st
    obtain ⟨k, e⟩ := p
    simp [entity_layer, cfs_list, collect_fetch_services, ih]

theorem entity_loop_no_fetch (schema : SchemaP) (vars : List (String × CV))
    (vds : List VarDef) (op : OpType) :
    ∀ (fuel : Nat) (g : FetchGroup) (kid : Nat),
      cfs_list (entity_loop schema vars vds op fuel g kid).1 = [] := by
  intro fuel
  induction fuel with
  | zero => intro g kid; simp [entity_loop, cfs_list]
  | succ fuel ih =>
    intro g kid
    rw [entity_loop]
    by_cases hg : g.isEmpty
    · rw [if_pos hg]
      simp [cfs_list]
    · rw [if_neg hg]
      simp only [cfs_list]
      rw [cfs_collapse]
      simp only [collect_fetch_services]
      rw [entity_layer_no_fetch, ih]
      rfl

theorem cfs_list_shell (c : Prop) [Decidable c] (xs : List String)
    (fn : PlanNodeP) (layers : List PlanNodeP) :
    cfs_list ((if c then ([] : List PlanNodeP)
        else [PlanNodeP.introspection xs]) ++ [fn] ++ layers) =
      collect_fetch_services fn ++ cfs_list layers := by
  by_cases h : c
  · rw [if_pos h]
    simp [cfs_list_append, cfs_list]
  · rw [if_neg h]
    simp [cfs_list_append, cfs_list, collect_fetch_services]

/-- C6: for every mutation operation, the Fetch nodes of the built plan, read
in traversal order, target exactly the consecutive-duplicate coalescing of
the client-declared root-selection service sequence: client order between
selections targeting different services is preserved, consecutive
same-service selections fuse into a single Fetch node, and the resulting
sequence never repeats a service in two adjacent positions (so selections
separated by a different service are not fused). -/
theorem C6_mutation_root_order (schema : SchemaP) (vars : List (String × CV))
    (vds : List VarDef) (pt : MetaTypeP) (sels : List Sel) (fuel kid0 : Nat) :
    collect_fetch_services
        (build_root_selection_set schema OpType.mutation vars vds pt sels
          fuel kid0).1 =
      coalesce (root_services pt sels) ∧
    List.Chain' (fun a b => a ≠ b)
      (collect_fetch_services
        (build_root_selection_set schema OpType.mutation vars vds pt sels
          fuel kid0).1) := by
  have hmut : (decide (OpType.mutation = OpType.mutation)) = true := rfl
  have hmain : collect_fetch_services
      (build_root_selection_set schema OpType.mutation vars vds pt sels
        fuel kid0).1 = coalesce (root_services pt sels) := by
    simp only [build_root_selection_set]
    rw [cfs_collapse]
    simp only [collect_fetch_services]
    rw [cfs_list_shell]
    rw [entity_loop_no_fetch]
    rw [if_neg (by decide : ¬ (OpType.mutation = OpType.query))]
    rw [cfs_collapse]
    simp only [collect_fetch_services]
    rw [cfs_fetch_nodes]
    simp only [decide_True]
    rw [build_root_sels_services]
    simp only [List.map_nil]
    rw [foldl_push_coalesce]
    simp
  refine ⟨hmain, ?_⟩
  rw [hmain]
  exact coalesce_chain (root_services pt sels)

/- C8: Flatten prefix uniqueness. -/

/-- The key prefixes of a fetch-entity group, in order. -/
def pfxs (g : FetchGroup) : List Nat := g.map (fun p => p.2.pfx)

/-- Prefix sanity of a planner state: the group's prefixes are pairwise
distinct and below the key counter. -/
def pOK (st : PState) : Prop :=
  (pfxs st.group).Nodup ∧ ∀ q ∈ pfxs st.group, q < st.key_id

/-- What one build step guarantees about prefixes: the key counter is
monotone, every group prefix is an old one or a freshly allocated one, and
prefix sanity is preserved. -/
def apost (st st2 : PState) : Prop :=
  st.key_id ≤ st2.key_id ∧
  (∀ q ∈ pfxs st2.group, q ∈ pfxs st.group ∨ st.key_id ≤ q) ∧
  (pOK st → pOK st2)

theorem apost_refl (st : PState) : apost st st :=
  ⟨le_rfl, fun _ hq => Or.inl hq, id⟩

theorem apost_comp {st1 st2 st3 : PState} (h1 : apost st1 st2)
    (h2 : apost st2 st3) : apost st1 st3 := by
  refine ⟨le_trans h1.1 h2.1, ?_, fun h => h2.2.2 (h1.2.2 h)⟩
  intro q hq
  rcases h2.2.1 q hq with h | h
  · exact h1.2.1 q h
  · exact Or.inr (le_trans h1.1 h)

theorem pfxs_push_field (g : FetchGroup) (k : FetchEntityKeyP) (f : GField) :
    pfxs (group_push_field g k f) = pfxs g := by
  simp only [pfxs, group_push_field, List.map_map]
  apply List.map_congr_left
  intro p _
  by_cases h : p.1 = k <;> simp [h]

theorem add_fetch_entity_apost (path : ResponsePath) (st : PState)
    (pt : MetaTypeP) (f : GField) (fd : MetaFieldP) (service : String)
    (keys : KeyFields) :
    apost st (add_fetch_entity path st pt f fd service keys).2 := by
  cases hg : group_get st.group ⟨service, path, pt.name⟩ with
  | some e =>
    simp only [add_fetch_entity, hg]
    refine ⟨le_rfl, ?_, ?_⟩
    · intro q hq
      rw [pfxs_push_field] at hq
      exact Or.inl hq
    · intro h
      refine ⟨?_, ?_⟩
      · rw [pfxs_push_field]; exact h.1
      · intro q hq; rw [pfxs_push_field] at hq; exact h.2 q hq
  | none =>
    simp only [add_fetch_entity, hg]
    refine ⟨Nat.le_succ _, ?_, ?_⟩
    · intro q hq
      simp only [pfxs, List.map_append, List.map_cons, List.map_nil,
        List.mem_append, List.mem_cons, List.not_mem_nil, or_false] at hq
      rcases hq with h | h
      · exact Or.inl h
      · exact Or.inr (le_of_eq h.symm)
    · intro hOK
      refine ⟨?_, ?_⟩
      · simp only [pfxs, List.map_append, List.map_cons, List.map_nil]
        refine List.Nodup.append hOK.1 (List.nodup_singleton _) ?_
        intro q hq1 hq2
        have hlt := hOK.2 q hq1
        simp only [List.mem_cons, List.not_mem_nil, or_false] at hq2
        omega
      · intro q hq
        simp only [pfxs, List.map_append, List.map_cons, List.map_nil,
          List.mem_append, List.mem_cons, List.not_mem_nil, or_false] at hq
        show q < st.key_id + 1
        rcases hq with h | h
        · exact Nat.lt_succ_of_lt (hOK.2 q h)
        · omega

/-- The prefix guarantee for all five build functions, bundled for a joint
strong induction on the size of the processed document fragment. -/
theorem build_apost_all (schema : SchemaP) (N : Nat) :
    (∀ f : GField, sizeOf f ≤ N → ∀ path st cur pt,
      apost st (build_field schema path st cur pt f).2) ∧
    (∀ sels : List Sel, sizeOf sels ≤ N → ∀ path st cur pt,
      apost st (build_selection_set schema path st cur pt sels).2) ∧
    (∀ sels : List Sel, sizeOf sels ≤ N → ∀ path g st cur pt,
      apost st (build_fields schema path g st cur pt sels).2) ∧
    (∀ sels : List Sel, sizeOf sels ≤ N → ∀ tys path g st cur,
      apost st (build_abstract_loop schema path g st cur tys sels).2) ∧
    (∀ sels : List Sel, sizeOf sels ≤ N → ∀ path st cur pt,
      apost st (build_abstract_selection_set schema path st cur pt sels).2) := by
  induction N using Nat.strong_induction_on with
  | _ N ih =>
    have hP1 : ∀ f : GField, sizeOf f ≤ N → ∀ path st cur pt,
        apost st (build_field schema path st cur pt f).2 := by
      intro f hsz path st cur pt
      obtain ⟨n, al, args, dirs, sub⟩ := f
      have hszsub : sizeOf sub < sizeOf (GField.mk n al args dirs sub) := by
        simp only [GField.mk.sizeOf_spec]; omega
      by_cases hn : n = "__typename"
      · simp only [build_field, if_pos hn]; exact apost_refl st
      · cases hfd : fields_get pt.fields n with
        | none =>
          simp only [build_field, if_neg hn, hfd]; exact apost_refl st
        | some fd =>
          cases hft : SchemaP.get_type schema fd.ty with
          | none =>
            simp only [build_field, if_neg hn, hfd, hft]; exact apost_refl st
          | some ft =>
            cases hroute : field_route pt cur (GField.mk n al args dirs sub) fd with
            | drop =>
              simp only [build_field, if_neg hn, hfd, hft, hroute]
              exact apost_refl st
            | entity service keys =>
              simp only [build_field, if_neg hn, hfd, hft, hroute]
              exact add_fetch_entity_apost _ _ _ _ _ _ _
            | normal =>
              simp only [build_field, if_neg hn, hfd, hft, hroute]
              by_cases hk : ft.kind = TypeKindM.interface ∨ ft.kind = TypeKindM.union
              · rw [if_pos hk]
                exact (ih (sizeOf sub) (by omega)).2.2.2.2 sub le_rfl _ _ _ _
              · rw [if_neg hk]
                exact (ih (sizeOf sub) (by omega)).2.1 sub le_rfl _ _ _ _
    have hP2 : ∀ sels : List Sel, sizeOf sels ≤ N → ∀ path st cur pt,
        apost st (build_selection_set schema path st cur pt sels).2 := by
      intro sels hsz path st cur pt
      match sels with
      | [] => simp only [build_selection_set]; exact apost_refl st
      | Sel.field f :: rest =>
        have h1 : sizeOf f < sizeOf (Sel.field f :: rest) := by
          simp only [List.cons.sizeOf_spec, Sel.field.sizeOf_spec]; omega
        have h2 : sizeOf rest < sizeOf (Sel.field f :: rest) := by
          simp only [List.cons.sizeOf_spec]; omega
        simp only [build_selection_set]
        exact apost_comp ((ih (sizeOf f) (by omega)).1 f le_rfl _ _ _ _)
          ((ih (sizeOf rest) (by omega)).2.1 rest le_rfl _ _ _ _)
      | Sel.spread c body :: rest =>
        have h1 : sizeOf body < sizeOf (Sel.spread c body :: rest) := by
          simp only [List.cons.sizeOf_spec, Sel.spread.sizeOf_spec]; omega
        have h2 : sizeOf rest < sizeOf (Sel.spread c body :: rest) := by
          simp only [List.cons.sizeOf_spec]; omega
        simp only [build_selection_set]
        exact apost_comp ((ih (sizeOf body) (by omega)).2.1 body le_rfl _ _ _ _)
          ((ih (sizeOf rest) (by omega)).2.1 rest le_rfl _ _ _ _)
      | Sel.inline c body :: rest =>
        have h1 : sizeOf body < sizeOf (Sel.inline c body :: rest) := by
          simp only [List.cons.sizeOf_spec, Sel.inline.sizeOf_spec]; omega
        have h2 : sizeOf rest < sizeOf (Sel.inline c body :: rest) := by
          simp only [List.cons.sizeOf_spec]; omega
        simp only [build_selection_set]
        exact apost_comp ((ih (sizeOf body) (by omega)).2.1 body le_rfl _ _ _ _)
          ((ih (sizeOf rest) (by omega)).2.1 rest le_rfl _ _ _ _)
    have hP3 : ∀ sels : List Sel, sizeOf sels ≤ N → ∀ path g st cur pt,
        apost st (build_fields schema path g st cur pt sels).2 := by
      intro sels hsz path g st cur pt
      match sels with
      | [] => simp only [build_fields]; exact apost_refl st
      | Sel.field f :: rest =>
        have h1 : sizeOf f < sizeOf (Sel.field f :: rest) := by
          simp only [List.cons.sizeOf_spec, Sel.field.sizeOf_spec]; omega
        have h2 : sizeOf rest < sizeOf (Sel.field f :: rest) := by
          simp only [List.cons.sizeOf_spec]; omega
        simp only [build_fields]
        exact apost_comp ((ih (sizeOf f) (by omega)).1 f le_rfl _ _ _ _)
          ((ih (sizeOf rest) (by omega)).2.2.1 rest le_rfl _ _ _ _ _)
      | Sel.spread c body :: rest =>
        have h1 : sizeOf body < sizeOf (Sel.spread c body :: rest) := by
          simp only [List.cons.sizeOf_spec, Sel.spread.sizeOf_spec]; omega
        have h2 : sizeOf rest < sizeOf (Sel.spread c body :: rest) := by
          simp only [List.cons.sizeOf_spec]; omega
        by_cases hc : c = pt.name
        · simp only [build_fields, if_pos hc]
          exact apost_comp ((ih (sizeOf body) (by omega)).2.2.1 body le_rfl _ _ _ _ _)
            ((ih (sizeOf rest) (by omega)).2.2.1 rest le_rfl _ _ _ _ _)
        · cases hty : sp_get schema.types c with
          | none =>
            simp only [build_fields, if_neg hc, hty]; exact apost_refl st
          | some ft =>
            simp only [build_fields, if_neg hc, hty]
            by_cases hk : ft.kind = TypeKindM.interface ∨ ft.kind = TypeKindM.union
            · rw [if_pos hk]
              exact apost_comp
                ((ih (sizeOf body) (by omega)).2.2.1 body le_rfl _ _ _ _ _)
                ((ih (sizeOf rest) (by omega)).2.2.1 rest le_rfl _ _ _ _ _)
            · rw [if_neg hk]
              exact (ih (sizeOf rest) (by omega)).2.2.1 rest le_rfl _ _ _ _ _
      | Sel.inline c body :: rest =>
        have h1 : sizeOf body < sizeOf (Sel.inline c body :: rest) := by
          simp only [List.cons.sizeOf_spec, Sel.inline.sizeOf_spec]; omega
        have h2 : sizeOf rest < sizeOf (Sel.inline c body :: rest) := by
          simp only [List.cons.sizeOf_spec]; omega
        cases c with
        | some cname =>
          by_cases hc : cname = pt.name
          · simp only [build_fields, if_pos hc]
            exact apost_comp
              ((ih (sizeOf body) (by omega)).2.2.1 body le_rfl _ _ _ _ _)
              ((ih (sizeOf rest) (by omega)).2.2.1 rest le_rfl _ _ _ _ _)
          · simp only [build_fields, if_neg hc]
            exact (ih (sizeOf rest) (by omega)).2.2.1 rest le_rfl _ _ _ _ _
        | none =>
          simp only [build_fields]
          exact apost_comp
            ((ih (sizeOf body) (by omega)).2.2.1 body le_rfl _ _ _ _ _)
            ((ih (sizeOf rest) (by omega)).2.2.1 rest le_rfl _ _ _ _ _)
    have hP4 : ∀ sels : List Sel, sizeOf sels ≤ N → ∀ tys path g st cur,
        apost st (build_abstract_loop schema path g st cur tys sels).2 := by
      intro sels hsz tys
      induction tys with
      | nil =>
        intro path g st cur
        simp only [build_abstract_loop]; exact apost_refl st
      | cons t rest ihT =>
        intro path g st cur
        cases hty : sp_get schema.types t with
        | none =>
          simp only [build_abstract_loop, hty]
          exact ihT path g st cur
        | some ty =>
          simp only [build_abstract_loop, hty]
          exact apost_comp (hP3 sels hsz _ _ _ _ _) (ihT _ _ _ _)
    have hP5 : ∀ sels : List Sel, sizeOf sels ≤ N → ∀ path st cur pt,
        apost st (build_abstract_selection_set schema path st cur pt sels).2 := by
      intro sels hsz path st cur pt
      simp only [build_abstract_selection_set]
      exact hP4 sels hsz _ _ _ _ _
    exact ⟨hP1, hP2, hP3, hP4, hP5⟩

/-- Prefix guarantee of `build_field`. -/
theorem build_field_apost (schema : SchemaP) (path : ResponsePath)
    (st : PState) (cur : String) (pt : MetaTypeP) (f : GField) :
    apost st (build_field schema path st cur pt f).2 :=
  (build_apost_all schema (sizeOf f)).1 f le_rfl path st cur pt

theorem cfp_list_append (xs ys : List PlanNodeP) :
    cfp_list (xs ++ ys) = cfp_list xs ++ cfp_list ys := by
  induction xs with
  | nil => simp [cfp_list]
  | cons a xs ih => simp [cfp_list, ih]

theorem cfp_collapse (n : PlanNodeP) :
    collect_flatten_pfxs (plan_collapse n) = collect_flatten_pfxs n := by
  cases n with
  | sequence ns =>
    match ns with
    | [] => rfl
    | [a] =>
      have h1 : plan_collapse (PlanNodeP.sequence [a]) = a := rfl
      rw [h1]
      simp [collect_flatten_pfxs, cfp_list]
    | a :: b :: rest => rfl
  | parallel ns =>
    match ns with
    | [] => rfl
    | [a] =>
      have h1 : plan_collapse (PlanNodeP.parallel [a]) = a := rfl
      rw [h1]
      simp [collect_flatten_pfxs, cfp_list]
    | a :: b :: rest => rfl
  | introspection fs => rfl
  | fetch s v q => rfl
  | flatten p x s v q => rfl

theorem cfp_fetch_nodes (vars : List (String × CV)) (vds : List VarDef)
    (op : OpType) (rg : List (String × SelectionRefSet)) :
    cfp_list (rg.map (mk_root_fetch vars vds op)) = [] := by
  induction rg with
  | nil => simp [cfp_list]
  | cons p rest ih =>
    simp [cfp_list, mk_root_fetch, collect_flatten_pfxs, ih]

theorem cfp_list_shell (c : Prop) [Decidable c] (xs : List String)
    (fn : PlanNodeP) (layers : List PlanNodeP) :
    cfp_list ((if c then ([] : List PlanNodeP)
        else [PlanNodeP.introspection xs]) ++ [fn] ++ layers) =
      collect_flatten_pfxs fn ++ cfp_list layers := by
  by_cases h : c
  · rw [if_pos h]
    simp [cfp_list_append, cfp_list]
  · rw [if_neg h]
    simp [cfp_list_append, cfp_list, collect_flatten_pfxs]

/-- The prefix guarantee of the root pass (any root-group flavor). -/
theorem build_root_sels_apost (schema : SchemaP) (isMut : Bool) (pt : MetaTypeP) :
    ∀ sels rg st intro,
      apost st (build_root_sels schema isMut rg st intro pt sels).2.1 := by
  suffices haux : ∀ N : Nat, ∀ sels : List Sel, sizeOf sels ≤ N →
      ∀ rg st intro,
        apost st (build_root_sels schema isMut rg st intro pt sels).2.1 by
    intro sels rg st intro
    exact haux (sizeOf sels) sels le_rfl rg st intro
  intro N
  induction N using Nat.strong_induction_on with
  | _ N ih =>
    intro sels hsz rg st intro
    match sels with
    | [] =>
      rw [build_root_sels]
      exact apost_refl st
    | Sel.field f :: rest =>
      have hszrest : sizeOf rest < sizeOf (Sel.field f :: rest) := by
        simp only [List.cons.sizeOf_spec]; omega
      cases hfd : fields_get pt.fields f.name with
      | none =>
        simp only [build_root_sels, hfd]
        exact ih (sizeOf rest) (by omega) rest le_rfl rg st intro
      | some fd =>
        simp only [build_root_sels, hfd]
        by_cases hin : is_introspection_field f.name = true
        · rw [if_pos hin]
          exact ih (sizeOf rest) (by omega) rest le_rfl rg st (intro ++ [f.name])
        · rw [if_neg hin]
          cases hs : fd.service with
          | none =>
            simp only [hs]
            exact ih (sizeOf rest) (by omega) rest le_rfl rg st intro
          | some service =>
            simp only [hs]
            exact apost_comp (build_field_apost schema [] st service pt f)
              (ih (sizeOf rest) (by omega) rest le_rfl _ _ intro)
    | Sel.spread c body :: rest =>
      have hszb : sizeOf body < sizeOf (Sel.spread c body :: rest) := by
        simp only [List.cons.sizeOf_spec, Sel.spread.sizeOf_spec]; omega
      have hszr : sizeOf rest < sizeOf (Sel.spread c body :: rest) := by
        simp only [List.cons.sizeOf_spec]; omega
      simp only [build_root_sels]
      exact apost_comp (ih (sizeOf body) (by omega) body le_rfl rg st intro)
        (ih (sizeOf rest) (by omega) rest le_rfl _ _ _)
    | Sel.inline c body :: rest =>
      have hszb : sizeOf body < sizeOf (Sel.inline c body :: rest) := by
        simp only [List.cons.sizeOf_spec, Sel.inline.sizeOf_spec]; omega
      have hszr : sizeOf rest < sizeOf (Sel.inline c body :: rest) := by
        simp only [List.cons.sizeOf_spec]; omega
      simp only [build_root_sels]
      exact apost_comp (ih (sizeOf body) (by omega) body le_rfl rg st intro)
        (ih (sizeOf rest) (by omega) rest le_rfl _ _ _)

/-- The prefix guarantee of the subscribe root pass. -/
theorem build_subscribe_root_apost (schema : SchemaP) (pt : MetaTypeP) :
    ∀ sels rg st, apost st (build_subscribe_root schema rg st pt sels).2 := by
  intro sels
  induction sels with
  | nil => intro rg st; rw [build_subscribe_root]; exact apost_refl st
  | cons sel rest ih =>
    intro rg st
    cases sel with
    | field f =>
      cases hfd : fields_get pt.fields f.name with
      | none =>
        simp only [build_subscribe_root, hfd]
        exact ih rg st
      | some fd =>
        cases hs : fd.service with
        | none =>
          simp only [build_subscribe_root, hfd, hs]
          exact ih rg st
        | some service =>
          simp only [build_subscribe_root, hfd, hs]
          exact apost_comp (build_field_apost schema [] st service pt f) (ih _ _)
    | spread c body =>
      simp only [build_subscribe_root]
      exact ih rg st
    | inline c body =>
      simp only [build_subscribe_root]
      exact ih rg st

/-- The prefix guarantee of building one entity entry's fields. -/
theorem build_entity_fields_apost (schema : SchemaP) (path : ResponsePath)
    (cur : String) (pt : MetaTypeP) :
    ∀ (fields : List GField) (st : PState),
      apost st (build_entity_fields schema path st cur pt fields).2 := by
  intro fields
  induction fields with
  | nil => intro st; rw [build_entity_fields]; exact apost_refl st
  | cons f rest ih =>
    intro st
    simp only [build_entity_fields]
    exact apost_comp (build_field_apost schema path st cur pt f) (ih _)

/-- The prefix guarantee of one entity layer. -/
theorem entity_layer_apost (schema : SchemaP) (vars : List (String × CV))
    (vds : List VarDef) (op : OpType) :
    ∀ (g : FetchGroup) (st : PState),
      apost st (entity_layer schema vars vds op g st).2 := by
  intro g
  induction g with
  | nil => intro st; rw [entity_layer]; exact apost_refl st
  | cons p rest ih =>
    intro st
    obtain ⟨k, e⟩ := p
    simp only [entity_layer]
    exact apost_comp
      (build_entity_fields_apost schema k.path k.service e.parent_type e.fields st)
      (ih _)

/-- One entity layer emits exactly the group's prefixes, in order. -/
theorem entity_layer_pfxs (schema : SchemaP) (vars : List (String × CV))
    (vds : List VarDef) (op : OpType) :
    ∀ (g : FetchGroup) (st : PState),
      cfp_list (entity_layer schema vars vds op g st).1 = pfxs g := by
  intro g
  induction g with
  | nil => intro st; simp [entity_layer, cfp_list, pfxs]
  | cons p rest ih =>
    intro st
    obtain ⟨k, e⟩ := p
    simp [entity_layer, cfp_list, collect_flatten_pfxs, pfxs] at *
    exact ih _

/-- The emitted Flatten prefixes of the entity loop are pairwise distinct
whenever the starting group's prefixes are distinct and below the counter;
moreover every emitted prefix is a starting one or at least the starting
counter, all emitted prefixes are below the final counter, and the counter is
monotone. -/
theorem entity_loop_pfx (schema : SchemaP) (vars : List (String × CV))
    (vds : List VarDef) (op : OpType) :
    ∀ (fuel : Nat) (g : FetchGroup) (kid : Nat),
      (pfxs g).Nodup → (∀ q ∈ pfxs g, q < kid) →
      (cfp_list (entity_loop schema vars vds op fuel g kid).1).Nodup ∧
      (∀ q ∈ cfp_list (entity_loop schema vars vds op fuel g kid).1,
        q ∈ pfxs g ∨ kid ≤ q) ∧
      (∀ q ∈ cfp_list (entity_loop schema vars vds op fuel g kid).1,
        q < (entity_loop schema vars vds op fuel g kid).2.2) ∧
      kid ≤ (entity_loop schema vars vds op fuel g kid).2.2 := by
  intro fuel
  induction fuel with
  | zero =>
    intro g kid hnd hlt
    simp [entity_loop, cfp_list]
  | succ fuel ih =>
    intro g kid hnd hlt
    simp only [entity_loop]
    by_cases hg : g.isEmpty
    · rw [if_pos hg]
      simp [cfp_list]
    · rw [if_neg hg]
      have hla := entity_layer_apost schema vars vds op g ⟨kid, []⟩
      have hpf := entity_layer_pfxs schema vars vds op g ⟨kid, []⟩
      have hOK : pOK (entity_layer schema vars vds op g ⟨kid, []⟩).2 := by
        apply hla.2.2
        exact ⟨by simp [pfxs], by simp [pfxs]⟩
      have hfresh : ∀ q ∈ pfxs (entity_layer schema vars vds op g ⟨kid, []⟩).2.group,
          kid ≤ q := by
        intro q hq
        rcases hla.2.1 q hq with h | h
        · simp [pfxs] at h
        · exact h
      have hmono : kid ≤ (entity_layer schema vars vds op g ⟨kid, []⟩).2.key_id :=
        hla.1
      have ihr := ih (entity_layer schema vars vds op g ⟨kid, []⟩).2.group
        (entity_layer schema vars vds op g ⟨kid, []⟩).2.key_id hOK.1 hOK.2
      have hall : ∀ q ∈ cfp_list (entity_loop schema vars vds op fuel
          (entity_layer schema vars vds op g ⟨kid, []⟩).2.group
          (entity_layer schema vars vds op g ⟨kid, []⟩).2.key_id).1, kid ≤ q := by
        intro q hq
        rcases ihr.2.1 q hq with h | h
        · exact hfresh q h
        · exact le_trans hmono h
      simp only [cfp_list, cfp_collapse, collect_flatten_pfxs, hpf]
      refine ⟨?_, ?_, ?_, ?_⟩
      · refine List.Nodup.append hnd ihr.1 ?_
        intro q hq1 hq2
        have h1 := hlt q hq1
        have h2 := hall q hq2
        omega
      · intro q hq
        rcases List.mem_append.mp hq with h | h
        · exact Or.inl h
        · exact Or.inr (hall q h)
      · intro q hq
        rcases List.mem_append.mp hq with h | h
        · have h1 := hlt q h
          have h2 := le_trans hmono ihr.2.2.2
          omega
        · exact ihr.2.2.1 q h
      · exact le_trans hmono ihr.2.2.2

/-- Flatten prefixes of an optional plan node (absence contributes nothing). -/
def collect_flatten_pfxs_opt (o : Option PlanNodeP) : List Nat :=
  match o with
  | none => []
  | some p => collect_flatten_pfxs p

/-- C8: for every plan produced by the plan builder — the root plan of any
query or mutation, and the flatten plan of any subscribe node — the prefix
integers of all Flatten nodes within that plan are pairwise distinct (for any
starting key counter, in particular the source's 1). -/
theorem C8_prefix_uniqueness (schema : SchemaP) (vars : List (String × CV))
    (vds : List VarDef) (pt : MetaTypeP) (sels : List Sel) (op : OpType)
    (fuel kid0 : Nat) :
    (collect_flatten_pfxs
      (build_root_selection_set schema op vars vds pt sels fuel kid0).1).Nodup ∧
    (collect_flatten_pfxs_opt
      (build_subscribe schema vars vds pt sels fuel kid0).2.1).Nodup := by
  constructor
  · have hap := build_root_sels_apost schema (decide (op = OpType.mutation)) pt
      sels [] ⟨kid0, []⟩ []
    have hOK : pOK (build_root_sels schema (decide (op = OpType.mutation)) []
        ⟨kid0, []⟩ [] pt sels).2.1 :=
      hap.2.2 ⟨by simp [pfxs], by simp [pfxs]⟩
    have hloop := entity_loop_pfx schema vars vds OpType.subscription fuel _ _
      hOK.1 hOK.2
    simp only [build_root_selection_set]
    rw [cfp_collapse]
    simp only [collect_flatten_pfxs]
    rw [cfp_list_shell]
    by_cases hq2 : op = OpType.query
    · rw [if_pos hq2, cfp_collapse]
      simp only [collect_flatten_pfxs]
      rw [cfp_fetch_nodes]
      simpa using hloop.1
    · rw [if_neg hq2, cfp_collapse]
      simp only [collect_flatten_pfxs]
      rw [cfp_fetch_nodes]
      simpa using hloop.1
  · have hap := build_subscribe_root_apost schema pt sels [] ⟨kid0, []⟩
    have hOK : pOK (build_subscribe_root schema [] ⟨kid0, []⟩ pt sels).2 :=
      hap.2.2 ⟨by simp [pfxs], by simp [pfxs]⟩
    have hloop := entity_loop_pfx schema vars vds OpType.query fuel _ _
      hOK.1 hOK.2
    simp only [build_subscribe]
    split
    · simp [collect_flatten_pfxs_opt]
    · simp only [collect_flatten_pfxs_opt]
      rw [cfp_collapse]
      simp only [collect_flatten_pfxs]
      exact hloop.1

/- C4: termination and layer bound of the entity-fetch loop. -/

mutual
/-- Depth of a field: one more than the depth of its sub-selection. -/
def depth_f (f : GField) : Nat :=
  match f with
  | .mk _ _ _ _ sub => depth_sels sub + 1
termination_by (sizeOf f, 0)

/-- Depth of a selection set: the maximum depth of its fields, looking
through fragments. -/
def depth_sels (sels : List Sel) : Nat :=
  match sels with
  | [] => 0
  | Sel.field f :: rest => max (depth_f f) (depth_sels rest)
  | Sel.spread _ body :: rest => max (depth_sels body) (depth_sels rest)
  | Sel.inline _ body :: rest => max (depth_sels body) (depth_sels rest)
termination_by (sizeOf sels, 1)
end

/-- A type value that the schema's type map yields under its own name. -/
def in_schema (schema : SchemaP) (pt : MetaTypeP) : Prop :=
  sp_get schema.types pt.name = some pt

/-- Name coherence of the type map: every entry's stored type carries the
entry's key as name (`ComposedSchema` construction guarantees this). -/
def schema_named (schema : SchemaP) : Prop :=
  ∀ p ∈ schema.types, (p.2).name = p.1

/-- A field stored in a fetch-entity entry resolves to the entry's own
service, so the layer that processes it takes the normal branch. -/
def route_ok (pt : MetaTypeP) (svc : String) (f : GField) : Prop :=
  ∀ fd, fields_get pt.fields f.name = some fd → resolved_service pt fd svc = svc

/-- Well-formedness of a fetch-entity group relative to the schema: every
entry's parent type is the schema type of the key's type name, the field
list is non-empty, and every stored field routes normally under the entry's
service. -/
def gOK (schema : SchemaP) (g : FetchGroup) : Prop :=
  ∀ p ∈ g, in_schema schema p.2.parent_type ∧ p.2.parent_type.name = p.1.ty ∧
    p.2.fields ≠ [] ∧ ∀ f ∈ p.2.fields, route_ok p.2.parent_type p.1.service f

/-- A (key, field) unit already present in a group. -/
def unit_mem (g : FetchGroup) (k : FetchEntityKeyP) (f : GField) : Prop :=
  ∃ e, (k, e) ∈ g ∧ f ∈ e.fields

/-- What one build step guarantees about the fetch-entity group: given the
starting group is well formed, the resulting group is well formed, and every
unit of it is an old unit or sits at least as deep as the current path with
a field of depth at most `D`. -/
def bpost (schema : SchemaP) (plen D : Nat) (st st2 : PState) : Prop :=
  gOK schema st.group →
    gOK schema st2.group ∧
    ∀ p ∈ st2.group, ∀ f ∈ p.2.fields,
      unit_mem st.group p.1 f ∨ (plen ≤ p.1.path.length ∧ depth_f f ≤ D)

theorem bpost_refl (schema : SchemaP) (plen D : Nat) (st : PState) :
    bpost schema plen D st st :=
  fun hg => ⟨hg, fun p hp _ hf => Or.inl ⟨p.2, hp, hf⟩⟩

theorem bpost_comp {schema : SchemaP} {plen D : Nat} {st1 st2 st3 : PState}
    (h1 : bpost schema plen D st1 st2) (h2 : bpost schema plen D st2 st3) :
    bpost schema plen D st1 st3 := by
  intro hg
  obtain ⟨hg2, hu2⟩ := h1 hg
  obtain ⟨hg3, hu3⟩ := h2 hg2
  refine ⟨hg3, ?_⟩
  intro p hp f hf
  rcases hu3 p hp f hf with hin | hnew
  · obtain ⟨e, he, hfe⟩ := hin
    rcases hu2 (p.1, e) he f hfe with hin2 | hnew2
    · exact Or.inl hin2
    · exact Or.inr hnew2
  · exact Or.inr hnew

theorem bpost_mono {schema : SchemaP} {plen D plen2 D2 : Nat}
    {st1 st2 : PState} (hp : plen2 ≤ plen) (hD : D ≤ D2)
    (h : bpost schema plen D st1 st2) : bpost schema plen2 D2 st1 st2 := by
  intro hg
  obtain ⟨hg2, hu⟩ := h hg
  refine ⟨hg2, ?_⟩
  intro p hp2 f hf
  rcases hu p hp2 f hf with hin | hnew
  · exact Or.inl hin
  · exact Or.inr ⟨le_trans hp hnew.1, le_trans hnew.2 hD⟩

theorem resolved_eq_of_ne {pt : MetaTypeP} {fd : MetaFieldP} {cur : String}
    (h : resolved_service pt fd cur ≠ cur) :
    (fd.service).or pt.owner = some (resolved_service pt fd cur) := by
  simp only [resolved_service] at h ⊢
  cases ho : (fd.service).or pt.owner with
  | none => rw [ho] at h; exact absurd rfl h
  | some s => rfl

/-- A freshly created fetch-entity unit routes normally under its own
service. -/
theorem route_ok_new {pt : MetaTypeP} {fd : MetaFieldP} {cur : String}
    {f : GField} (hfd : fields_get pt.fields f.name = some fd)
    (hne : resolved_service pt fd cur ≠ cur) :
    route_ok pt (resolved_service pt fd cur) f := by
  intro fd2 hfd2
  rw [hfd] at hfd2
  cases hfd2
  have ho := resolved_eq_of_ne hne
  generalize hs : resolved_service pt fd cur = s at ho ⊢
  simp only [resolved_service, ho, Option.getD_some]

theorem in_schema_unique {schema : SchemaP} {a b : MetaTypeP}
    (ha : in_schema schema a) (hb : in_schema schema b) (h : a.name = b.name) :
    a = b := by
  unfold in_schema at ha hb
  rw [h] at ha
  rw [ha] at hb
  exact Option.some.inj hb

theorem sp_get_name_aux (n : String) (t : MetaTypeP) :
    ∀ (l : List (String × MetaTypeP)), (∀ p ∈ l, (p.2).name = p.1) →
      sp_get l n = some t → t.name = n := by
  intro l
  induction l with
  | nil => intro _ h; simp [sp_get] at h
  | cons p rest ih =>
    intro hl h
    rw [sp_get] at h
    by_cases hk : p.1 = n
    · rw [if_pos hk] at h
      cases h
      rw [hl p (List.mem_cons_self p rest), hk]
    · rw [if_neg hk] at h
      exact ih (fun q hq => hl q (List.mem_cons_of_mem p hq)) h

theorem sp_get_in_schema {schema : SchemaP} (hn : schema_named schema)
    {n : String} {t : MetaTypeP} (h : sp_get schema.types n = some t) :
    in_schema schema t := by
  unfold in_schema
  rw [sp_get_name_aux n t schema.types hn h]
  exact h

theorem get_type_in_schema {schema : SchemaP} (hn : schema_named schema) :
    ∀ (ty : GType) {t : MetaTypeP},
      SchemaP.get_type schema ty = some t → in_schema schema t := by
  intro ty
  induction ty with
  | named nm =>
    intro t h
    rw [SchemaP.get_type] at h
    exact sp_get_in_schema hn h
  | listOf inner ih =>
    intro t h
    rw [SchemaP.get_type] at h
    exact ih h

theorem group_get_mem : ∀ (g : FetchGroup) (k : FetchEntityKeyP)
    (e : FetchEntityP), group_get g k = some e → (k, e) ∈ g := by
  intro g k e
  induction g with
  | nil => intro h; simp [group_get] at h
  | cons p rest ih =>
    intro h
    rw [group_get] at h
    by_cases hk : p.1 = k
    · rw [if_pos hk] at h
      cases h
      exact (by rw [← hk] : (k, p.2) = p) ▸ List.mem_cons_self p rest
    · rw [if_neg hk] at h
      exact List.mem_cons_of_mem p (ih h)

theorem mem_push_field {g : FetchGroup} {k : FetchEntityKeyP} {f : GField}
    {p : FetchEntityKeyP × FetchEntityP} (hp : p ∈ group_push_field g k f) :
    ∃ q, q ∈ g ∧ p.1 = q.1 ∧ p.2.parent_type = q.2.parent_type ∧
      (p.2.fields = q.2.fields ∨ (p.1 = k ∧ p.2.fields = q.2.fields ++ [f])) := by
  obtain ⟨q, hq, he⟩ := List.mem_map.mp hp
  by_cases hk : q.1 = k
  · rw [if_pos hk] at he
    subst he
    exact ⟨q, hq, rfl, rfl, Or.inr ⟨hk, rfl⟩⟩
  · rw [if_neg hk] at he
    subst he
    exact ⟨q, hq, rfl, rfl, Or.inl rfl⟩

/-- The group guarantee of `add_fetch_entity`: given the parent type is the
schema type of its name and the field routes normally under the target
service, the group stays well formed and the only new unit sits at the
current path with the given field. -/
theorem add_fetch_entity_bpost {schema : SchemaP} (path : ResponsePath)
    (st : PState) (pt : MetaTypeP) (f : GField) (fd : MetaFieldP)
    (service : String) (keys : KeyFields) (D : Nat)
    (hpt : in_schema schema pt) (hroute : route_ok pt service f)
    (hD : depth_f f ≤ D) :
    bpost schema path.length D st
      (add_fetch_entity path st pt f fd service keys).2 := by
  intro hg
  cases hgget : group_get st.group ⟨service, path, pt.name⟩ with
  | none =>
    simp only [add_fetch_entity, hgget]
    constructor
    · intro p hp
      rcases List.mem_append.mp hp with h | h
      · exact hg p h
      · simp only [List.mem_cons, List.not_mem_nil, or_false] at h
        subst h
        refine ⟨hpt, rfl, by simp, ?_⟩
        intro f2 hf2
        simp only [List.mem_cons, List.not_mem_nil, or_false] at hf2
        subst hf2
        exact hroute
    · intro p hp f2 hf2
      rcases List.mem_append.mp hp with h | h
      · exact Or.inl ⟨p.2, h, hf2⟩
      · simp only [List.mem_cons, List.not_mem_nil, or_false] at h
        subst h
        simp only [List.mem_cons, List.not_mem_nil, or_false] at hf2
        subst hf2
        exact Or.inr ⟨le_rfl, hD⟩
  | some e =>
    simp only [add_fetch_entity, hgget]
    constructor
    · intro p hp
      obtain ⟨q, hq, h1, h2, h3⟩ := mem_push_field hp
      have hqok := hg q hq
      refine ⟨h2 ▸ hqok.1, by rw [h2, h1]; exact hqok.2.1, ?_, ?_⟩
      · rcases h3 with h3 | h3
        · rw [h3]; exact hqok.2.2.1
        · rw [h3.2]; simp
      · intro f2 hf2
        rcases h3 with h3 | h3
        · rw [h3] at hf2
          rw [h2, h1]
          exact hqok.2.2.2 f2 hf2
        · rw [h3.2] at hf2
          rcases List.mem_append.mp hf2 with hf | hf
          · rw [h2, h1]
            exact hqok.2.2.2 f2 hf
          · simp only [List.mem_cons, List.not_mem_nil, or_false] at hf
            subst hf
            have hqe : q.2.parent_type = pt :=
              in_schema_unique hqok.1 hpt (by rw [hqok.2.1, ← h1, h3.1])
            rw [h2, hqe, h3.1]
            exact hroute
    · intro p hp f2 hf2
      obtain ⟨q, hq, h1, h2, h3⟩ := mem_push_field hp
      rcases h3 with h3 | h3
      · rw [h3] at hf2
        exact Or.inl ⟨q.2, by rw [h1]; exact hq, hf2⟩
      · rw [h3.2] at hf2
        rcases List.mem_append.mp hf2 with hf | hf
        · exact Or.inl ⟨q.2, by rw [h1]; exact hq, hf⟩
        · simp only [List.mem_cons, List.not_mem_nil, or_false] at hf
          subst hf
          refine Or.inr ⟨?_, hD⟩
          rw [h3.1]

theorem set_last_possible_length (path : ResponsePath) (o : Option String) :
    (set_last_possible path o).length = path.length := by
  induction path with
  | nil => rfl
  | cons s rest ih =>
    cases rest with
    | nil => rfl
    | cons s2 rest2 =>
      simp only [set_last_possible, List.length_cons] at *
      omega

/-- The group guarantee for all five build functions, bundled for a joint
strong induction on the size of the processed document fragment. -/
theorem build_bpost_all (schema : SchemaP) (hn : schema_named schema) (N : Nat) :
    (∀ f : GField, sizeOf f ≤ N → ∀ path st cur pt, in_schema schema pt →
      bpost schema path.length (depth_f f) st
        (build_field schema path st cur pt f).2) ∧
    (∀ sels : List Sel, sizeOf sels ≤ N → ∀ path st cur pt,
      in_schema schema pt →
      bpost schema path.length (depth_sels sels) st
        (build_selection_set schema path st cur pt sels).2) ∧
    (∀ sels : List Sel, sizeOf sels ≤ N → ∀ path g st cur pt,
      in_schema schema pt →
      bpost schema path.length (depth_sels sels) st
        (build_fields schema path g st cur pt sels).2) ∧
    (∀ sels : List Sel, sizeOf sels ≤ N → ∀ tys path g st cur,
      bpost schema path.length (depth_sels sels) st
        (build_abstract_loop schema path g st cur tys sels).2) ∧
    (∀ sels : List Sel, sizeOf sels ≤ N → ∀ path st cur pt,
      bpost schema path.length (depth_sels sels) st
        (build_abstract_selection_set schema path st cur pt sels).2) := by
  induction N using Nat.strong_induction_on with
  | _ N ih =>
    have hP1 : ∀ f : GField, sizeOf f ≤ N → ∀ path st cur pt,
        in_schema schema pt →
        bpost schema path.length (depth_f f) st
          (build_field schema path st cur pt f).2 := by
      intro f hsz path st cur pt hpt
      obtain ⟨n, al, args, dirs, sub⟩ := f
      have hszsub : sizeOf sub < sizeOf (GField.mk n al args dirs sub) := by
        simp only [GField.mk.sizeOf_spec]; omega
      have hd : depth_f (GField.mk n al args dirs sub) = depth_sels sub + 1 := by
        rw [depth_f]
      by_cases hn2 : n = "__typename"
      · simp only [build_field, if_pos hn2]; exact bpost_refl schema _ _ st
      · cases hfd : fields_get pt.fields n with
        | none =>
          simp only [build_field, if_neg hn2, hfd]; exact bpost_refl schema _ _ st
        | some fd =>
          cases hft : SchemaP.get_type schema fd.ty with
          | none =>
            simp only [build_field, if_neg hn2, hfd, hft]
            exact bpost_refl schema _ _ st
          | some ft =>
            cases hroute : field_route pt cur (GField.mk n al args dirs sub) fd with
            | drop =>
              simp only [build_field, if_neg hn2, hfd, hft, hroute]
              exact bpost_refl schema _ _ st
            | entity service keys =>
              simp only [build_field, if_neg hn2, hfd, hft, hroute]
              have hent : resolved_service pt fd cur = service ∧ service ≠ cur := by
                simp only [field_route] at hroute
                by_cases hc : resolved_service pt fd cur = cur
                · rw [if_pos hc] at hroute
                  exact FieldRoute.noConfusion hroute
                · rw [if_neg hc] at hroute
                  cases hk : service_keys pt (resolved_service pt fd cur) with
                  | none =>
                    rw [hk] at hroute
                    have hroute2 : FieldRoute.drop =
                        FieldRoute.entity service keys := hroute
                    exact FieldRoute.noConfusion hroute2
                  | some keys0 =>
                    rw [hk] at hroute
                    have hroute2 : (if field_in_keys (GField.mk n al args dirs sub)
                          keys0 = true then FieldRoute.normal
                        else FieldRoute.entity (resolved_service pt fd cur) keys0) =
                        FieldRoute.entity service keys := hroute
                    by_cases hfk : field_in_keys (GField.mk n al args dirs sub)
                        keys0 = true
                    · rw [if_pos hfk] at hroute2
                      exact FieldRoute.noConfusion hroute2
                    · rw [if_neg hfk] at hroute2
                      injection hroute2 with hs1 hs2
                      exact ⟨hs1, hs1 ▸ hc⟩
              have hro : route_ok pt service (GField.mk n al args dirs sub) := by
                have hr2 := route_ok_new (f := GField.mk n al args dirs sub) hfd
                  (by rw [hent.1]; exact hent.2)
                rw [hent.1] at hr2
                exact hr2
              exact add_fetch_entity_bpost path st pt _ fd service keys _ hpt
                hro le_rfl
            | normal =>
              simp only [build_field, if_neg hn2, hfd, hft, hroute]
              have hft2 : in_schema schema ft := get_type_in_schema hn fd.ty hft
              have hlen : (path ++ [(⟨(GField.mk n al args dirs sub).response_key,
                  fd.ty.is_list, none⟩ : PathSegment)]).length = path.length + 1 := by
                simp
              by_cases hk : ft.kind = TypeKindM.interface ∨ ft.kind = TypeKindM.union
              · rw [if_pos hk]
                have hb := (ih (sizeOf sub) (by omega)).2.2.2.2 sub le_rfl
                  (path ++ [⟨(GField.mk n al args dirs sub).response_key,
                    fd.ty.is_list, none⟩]) st cur ft
                refine bpost_mono ?_ ?_ hb
                · rw [hlen]; omega
                · omega
              · rw [if_neg hk]
                have hb := (ih (sizeOf sub) (by omega)).2.1 sub le_rfl
                  (path ++ [⟨(GField.mk n al args dirs sub).response_key,
                    fd.ty.is_list, none⟩]) st cur ft hft2
                refine bpost_mono ?_ ?_ hb
                · rw [hlen]; omega
                · omega
    have hP2 : ∀ sels : List Sel, sizeOf sels ≤ N → ∀ path st cur pt,
        in_schema schema pt →
        bpost schema path.length (depth_sels sels) st
          (build_selection_set schema path st cur pt sels).2 := by
      intro sels hsz path st cur pt hpt
      match sels with
      | [] => simp only [build_selection_set]; exact bpost_refl schema _ _ st
      | Sel.field f :: rest =>
        have h1 : sizeOf f < sizeOf (Sel.field f :: rest) := by
          simp only [List.cons.sizeOf_spec, Sel.field.sizeOf_spec]; omega
        have h2 : sizeOf rest < sizeOf (Sel.field f :: rest) := by
          simp only [List.cons.sizeOf_spec]; omega
        have hdeq : depth_sels (Sel.field f :: rest) =
            max (depth_f f) (depth_sels rest) := by rw [depth_sels]
        simp only [build_selection_set]
        exact bpost_comp
          (bpost_mono le_rfl (by rw [hdeq]; exact le_max_left _ _)
            ((ih (sizeOf f) (by omega)).1 f le_rfl path st cur pt hpt))
          (bpost_mono le_rfl (by rw [hdeq]; exact le_max_right _ _)
            ((ih (sizeOf rest) (by omega)).2.1 rest le_rfl path _ cur pt hpt))
      | Sel.spread c body :: rest =>
        have h1 : sizeOf body < sizeOf (Sel.spread c body :: rest) := by
          simp only [List.cons.sizeOf_spec, Sel.spread.sizeOf_spec]; omega
        have h2 : sizeOf rest < sizeOf (Sel.spread c body :: rest) := by
          simp only [List.cons.sizeOf_spec]; omega
        have hdeq : depth_sels (Sel.spread c body :: rest) =
            max (depth_sels body) (depth_sels rest) := by rw [depth_sels]
        simp only [build_selection_set]
        exact bpost_comp
          (bpost_mono le_rfl (by rw [hdeq]; exact le_max_left _ _)
            ((ih (sizeOf body) (by omega)).2.1 body le_rfl path st cur pt hpt))
          (bpost_mono le_rfl (by rw [hdeq]; exact le_max_right _ _)
            ((ih (sizeOf rest) (by omega)).2.1 rest le_rfl path _ cur pt hpt))
      | Sel.inline c body :: rest =>
        have h1 : sizeOf body < sizeOf (Sel.inline c body :: rest) := by
          simp only [List.cons.sizeOf_spec, Sel.inline.sizeOf_spec]; omega
        have h2 : sizeOf rest < sizeOf (Sel.inline c body :: rest) := by
          simp only [List.cons.sizeOf_spec]; omega
        have hdeq : depth_sels (Sel.inline c body :: rest) =
            max (depth_sels body) (depth_sels rest) := by rw [depth_sels]
        simp only [build_selection_set]
        exact bpost_comp
          (bpost_mono le_rfl (by rw [hdeq]; exact le_max_left _ _)
            ((ih (sizeOf body) (by omega)).2.1 body le_rfl path st cur pt hpt))
          (bpost_mono le_rfl (by rw [hdeq]; exact le_max_right _ _)
            ((ih (sizeOf rest) (by omega)).2.1 rest le_rfl path _ cur pt hpt))
    have hP3 : ∀ sels : List Sel, sizeOf sels ≤ N → ∀ path g st cur pt,
        in_schema schema pt →
        bpost schema path.length (depth_sels sels) st
          (build_fields schema path g st cur pt sels).2 := by
      intro sels hsz path g st cur pt hpt
      match sels with
      | [] => simp only [build_fields]; exact bpost_refl schema _ _ st
      | Sel.field f :: rest =>
        have h1 : sizeOf f < sizeOf (Sel.field f :: rest) := by
          simp only [List.cons.sizeOf_spec, Sel.field.sizeOf_spec]; omega
        have h2 : sizeOf rest < sizeOf (Sel.field f :: rest) := by
          simp only [List.cons.sizeOf_spec]; omega
        have hdeq : depth_sels (Sel.field f :: rest) =
            max (depth_f f) (depth_sels rest) := by rw [depth_sels]
        simp only [build_fields]
        exact bpost_comp
          (bpost_mono le_rfl (by rw [hdeq]; exact le_max_left _ _)
            ((ih (sizeOf f) (by omega)).1 f le_rfl path st cur pt hpt))
          (bpost_mono le_rfl (by rw [hdeq]; exact le_max_right _ _)
            ((ih (sizeOf rest) (by omega)).2.2.1 rest le_rfl path _ _ cur pt hpt))
      | Sel.spread c body :: rest =>
        have h1 : sizeOf body < sizeOf (Sel.spread c body :: rest) := by
          simp only [List.cons.sizeOf_spec, Sel.spread.sizeOf_spec]; omega
        have h2 : sizeOf rest < sizeOf (Sel.spread c body :: rest) := by
          simp only [List.cons.sizeOf_spec]; omega
        have hdeq : depth_sels (Sel.spread c body :: rest) =
            max (depth_sels body) (depth_sels rest) := by rw [depth_sels]
        by_cases hc : c = pt.name
        · simp only [build_fields, if_pos hc]
          exact bpost_comp
            (bpost_mono le_rfl (by rw [hdeq]; exact le_max_left _ _)
              ((ih (sizeOf body) (by omega)).2.2.1 body le_rfl path g st cur pt hpt))
            (bpost_mono le_rfl (by rw [hdeq]; exact le_max_right _ _)
              ((ih (sizeOf rest) (by omega)).2.2.1 rest le_rfl path _ _ cur pt hpt))
        · cases hty : sp_get schema.types c with
          | none =>
            simp only [build_fields, if_neg hc, hty]
            exact bpost_refl schema _ _ st
          | some ft =>
            simp only [build_fields, if_neg hc, hty]
            by_cases hk : ft.kind = TypeKindM.interface ∨ ft.kind = TypeKindM.union
            · rw [if_pos hk]
              exact bpost_comp
                (bpost_mono le_rfl (by rw [hdeq]; exact le_max_left _ _)
                  ((ih (sizeOf body) (by omega)).2.2.1 body le_rfl path g st cur
                    pt hpt))
                (bpost_mono le_rfl (by rw [hdeq]; exact le_max_right _ _)
                  ((ih (sizeOf rest) (by omega)).2.2.1 rest le_rfl path _ _ cur
                    pt hpt))
            · rw [if_neg hk]
              exact bpost_mono le_rfl (by rw [hdeq]; exact le_max_right _ _)
                ((ih (sizeOf rest) (by omega)).2.2.1 rest le_rfl path g st cur
                  pt hpt)
      | Sel.inline c body :: rest =>
        have h1 : sizeOf body < sizeOf (Sel.inline c body :: rest) := by
          simp only [List.cons.sizeOf_spec, Sel.inline.sizeOf_spec]; omega
        have h2 : sizeOf rest < sizeOf (Sel.inline c body :: rest) := by
          simp only [List.cons.sizeOf_spec]; omega
        have hdeq : depth_sels (Sel.inline c body :: rest) =
            max (depth_sels body) (depth_sels rest) := by rw [depth_sels]
        cases c with
        | some cname =>
          by_cases hc : cname = pt.name
          · simp only [build_fields, if_pos hc]
            exact bpost_comp
              (bpost_mono le_rfl (by rw [hdeq]; exact le_max_left _ _)
                ((ih (sizeOf body) (by omega)).2.2.1 body le_rfl path g st cur
                  pt hpt))
              (bpost_mono le_rfl (by rw [hdeq]; exact le_max_right _ _)
                ((ih (sizeOf rest) (by omega)).2.2.1 rest le_rfl path _ _ cur
                  pt hpt))
          · simp only [build_fields, if_neg hc]
            exact bpost_mono le_rfl (by rw [hdeq]; exact le_max_right _ _)
              ((ih (sizeOf rest) (by omega)).2.2.1 rest le_rfl path g st cur
                pt hpt)
        | none =>
          simp only [build_fields]
          exact bpost_comp
            (bpost_mono le_rfl (by rw [hdeq]; exact le_max_left _ _)
              ((ih (sizeOf body) (by omega)).2.2.1 body le_rfl path g st cur
                pt hpt))
            (bpost_mono le_rfl (by rw [hdeq]; exact le_max_right _ _)
              ((ih (sizeOf rest) (by omega)).2.2.1 rest le_rfl path _ _ cur
                pt hpt))
    have hP4 : ∀ sels : List Sel, sizeOf sels ≤ N → ∀ tys path g st cur,
        bpost schema path.length (depth_sels sels) st
          (build_abstract_loop schema path g st cur tys sels).2 := by
      intro sels hsz tys
      induction tys with
      | nil =>
        intro path g st cur
        simp only [build_abstract_loop]; exact bpost_refl schema _ _ st
      | cons t rest ihT =>
        intro path g st cur
        cases hty : sp_get schema.types t with
        | none =>
          simp only [build_abstract_loop, hty]
          exact ihT path g st cur
        | some ty =>
          simp only [build_abstract_loop, hty]
          have hb := hP3 sels hsz (set_last_possible path (some ty.name)) g st
            cur ty (sp_get_in_schema hn hty)
          exact bpost_comp
            (bpost_mono (le_of_eq (set_last_possible_length path _).symm) le_rfl hb)
            (ihT path _ _ cur)
    have hP5 : ∀ sels : List Sel, sizeOf sels ≤ N → ∀ path st cur pt,
        bpost schema path.length (depth_sels sels) st
          (build_abstract_selection_set schema path st cur pt sels).2 := by
      intro sels hsz path st cur pt
      simp only [build_abstract_selection_set]
      exact hP4 sels hsz _ _ _ _ _
    exact ⟨hP1, hP2, hP3, hP4, hP5⟩

/-- Group guarantee of a single `build_field` call. -/
theorem build_field_bpost {schema : SchemaP} (hn : schema_named schema)
    {pt : MetaTypeP} (hpt : in_schema schema pt) (path : ResponsePath)
    (st : PState) (cur : String) (f : GField) :
    bpost schema path.length (depth_f f) st
      (build_field schema path st cur pt f).2 :=
  (build_bpost_all schema hn (sizeOf f)).1 f le_rfl path st cur pt hpt

/-- A field that routes normally only creates strictly deeper units with
strictly smaller fields. -/
theorem build_field_strict {schema : SchemaP} (hn : schema_named schema)
    {pt : MetaTypeP} (_hpt : in_schema schema pt) {cur : String} {f : GField}
    (hroute : route_ok pt cur f) (path : ResponsePath) (st : PState) :
    bpost schema (path.length + 1) (depth_f f - 1) st
      (build_field schema path st cur pt f).2 := by
  obtain ⟨n, al, args, dirs, sub⟩ := f
  have hd : depth_f (GField.mk n al args dirs sub) = depth_sels sub + 1 := by
    rw [depth_f]
  by_cases hn2 : n = "__typename"
  · simp only [build_field, if_pos hn2]; exact bpost_refl schema _ _ st
  · cases hfd : fields_get pt.fields n with
    | none =>
      simp only [build_field, if_neg hn2, hfd]; exact bpost_refl schema _ _ st
    | some fd =>
      cases hft : SchemaP.get_type schema fd.ty with
      | none =>
        simp only [build_field, if_neg hn2, hfd, hft]
        exact bpost_refl schema _ _ st
      | some ft =>
        have hres : resolved_service pt fd cur = cur := hroute fd hfd
        have hroute2 : field_route pt cur (GField.mk n al args dirs sub) fd =
            FieldRoute.normal := by
          simp only [field_route]
          rw [if_pos hres]
        simp only [build_field, if_neg hn2, hfd, hft, hroute2]
        have hlen : (path ++ [(⟨(GField.mk n al args dirs sub).response_key,
            fd.ty.is_list, none⟩ : PathSegment)]).length = path.length + 1 := by
          simp
        by_cases hk : ft.kind = TypeKindM.interface ∨ ft.kind = TypeKindM.union
        · rw [if_pos hk]
          have hb := (build_bpost_all schema hn (sizeOf sub)).2.2.2.2 sub le_rfl
            (path ++ [⟨(GField.mk n al args dirs sub).response_key,
              fd.ty.is_list, none⟩]) st cur ft
          refine bpost_mono ?_ ?_ hb
          · rw [hlen]
          · omega
        · rw [if_neg hk]
          have hft2 : in_schema schema ft := get_type_in_schema hn fd.ty hft
          have hb := (build_bpost_all schema hn (sizeOf sub)).2.1 sub le_rfl
            (path ++ [⟨(GField.mk n al args dirs sub).response_key,
              fd.ty.is_list, none⟩]) st cur ft hft2
          refine bpost_mono ?_ ?_ hb
          · rw [hlen]
          · omega

/-- Building an entity entry's field list only creates strictly deeper units
with fields of strictly smaller depth. -/
theorem build_entity_fields_strict {schema : SchemaP} (hn : schema_named schema)
    {pt : MetaTypeP} (hpt : in_schema schema pt) {cur : String} (d : Nat) :
    ∀ (fields : List GField), (∀ f ∈ fields, route_ok pt cur f) →
      (∀ f ∈ fields, depth_f f ≤ d) → ∀ (path : ResponsePath) (st : PState),
      bpost schema (path.length + 1) (d - 1) st
        (build_entity_fields schema path st cur pt fields).2 := by
  intro fields
  induction fields with
  | nil =>
    intro _ _ path st
    rw [build_entity_fields]
    exact bpost_refl schema _ _ st
  | cons f rest ih =>
    intro hr hd path st
    simp only [build_entity_fields]
    refine bpost_comp ?_
      (ih (fun f2 h2 => hr f2 (List.mem_cons_of_mem f h2))
        (fun f2 h2 => hd f2 (List.mem_cons_of_mem f h2)) path _)
    have hb := build_field_strict hn hpt (hr f (List.mem_cons_self f rest)) path st
    refine bpost_mono le_rfl ?_ hb
    have := hd f (List.mem_cons_self f rest)
    omega

/-- One entity layer preserves group well-formedness and only creates
strictly deeper units with fields of strictly smaller depth. -/
theorem entity_layer_bpost {schema : SchemaP} (hn : schema_named schema)
    (vars : List (String × CV)) (vds : List VarDef) (op : OpType) (d : Nat) :
    ∀ (g : FetchGroup) (st : PState), gOK schema g →
      (∀ p ∈ g, ∀ f ∈ p.2.fields, depth_f f ≤ d) →
      gOK schema st.group →
      gOK schema (entity_layer schema vars vds op g st).2.group ∧
      ∀ p ∈ (entity_layer schema vars vds op g st).2.group, ∀ f ∈ p.2.fields,
        unit_mem st.group p.1 f ∨
          ((∃ q ∈ g, q.1.path.length < p.1.path.length) ∧ depth_f f ≤ d - 1) := by
  intro g
  induction g with
  | nil =>
    intro st _ _ hst
    rw [entity_layer]
    exact ⟨hst, fun p hp f hf => Or.inl ⟨p.2, hp, hf⟩⟩
  | cons pe rest ih =>
    intro st hg hd hst
    obtain ⟨k, e⟩ := pe
    simp only [entity_layer]
    have hke := hg (k, e) (List.mem_cons_self _ rest)
    have h1 := build_entity_fields_strict hn hke.1 d e.fields hke.2.2.2
      (fun f hf => hd (k, e) (List.mem_cons_self _ rest) f hf) k.path st hst
    have h2 := ih (build_entity_fields schema k.path st k.service e.parent_type
        e.fields).2
      (fun p hp => hg p (List.mem_cons_of_mem _ hp))
      (fun p hp => hd p (List.mem_cons_of_mem _ hp)) h1.1
    refine ⟨h2.1, ?_⟩
    intro p hp f hf
    rcases h2.2 p hp f hf with hin | hnew
    · obtain ⟨e2, he2, hfe2⟩ := hin
      rcases h1.2 (p.1, e2) he2 f hfe2 with hin2 | hnew2
      · exact Or.inl hin2
      · refine Or.inr ⟨⟨(k, e), List.mem_cons_self _ rest, ?_⟩, hnew2.2⟩
        have h3 : k.path.length + 1 ≤ p.1.path.length := hnew2.1
        show k.path.length < p.1.path.length
        omega
    · obtain ⟨q, hq, hlt⟩ := hnew.1
      exact Or.inr ⟨⟨q, List.mem_cons_of_mem _ hq, hlt⟩, hnew.2⟩

/-- Every field has depth at least one. -/
theorem depth_f_pos (f : GField) : 1 ≤ depth_f f := by
  obtain ⟨n, al, args, dirs, sub⟩ := f
  rw [depth_f]
  omega

/-- With fuel at least the depth bound of the group's fields, the entity loop
drains the group completely and emits at most that many layers. -/
theorem entity_loop_empty {schema : SchemaP} (hn : schema_named schema)
    (vars : List (String × CV)) (vds : List VarDef) (op : OpType) :
    ∀ (fuel d : Nat) (g : FetchGroup) (kid : Nat), gOK schema g →
      (∀ p ∈ g, ∀ f ∈ p.2.fields, depth_f f ≤ d) → d ≤ fuel →
      (entity_loop schema vars vds op fuel g kid).2.1 = [] ∧
      (entity_loop schema vars vds op fuel g kid).1.length ≤ d := by
  intro fuel
  induction fuel with
  | zero =>
    intro d g kid hg hd hdf
    cases g with
    | nil => simp [entity_loop]
    | cons p rest =>
      exfalso
      have hpe := hg p (List.mem_cons_self p rest)
      cases hfx : p.2.fields with
      | nil => exact hpe.2.2.1 hfx
      | cons f fs =>
        have hdp := hd p (List.mem_cons_self p rest) f
          (by rw [hfx]; exact List.mem_cons_self f fs)
        have h1 := depth_f_pos f
        omega
  | succ fuel ih =>
    intro d g kid hg hd hdf
    simp only [entity_loop]
    by_cases hge : g.isEmpty
    · rw [if_pos hge]
      exact ⟨rfl, by simp⟩
    · rw [if_neg hge]
      have hlay := entity_layer_bpost hn vars vds op d g ⟨kid, []⟩ hg hd
        (fun p hp => absurd hp (List.not_mem_nil p))
      have hd2 : ∀ p ∈ (entity_layer schema vars vds op g ⟨kid, []⟩).2.group,
          ∀ f ∈ p.2.fields, depth_f f ≤ d - 1 := by
        intro p hp f hf
        rcases hlay.2 p hp f hf with hin | hnew
        · obtain ⟨e2, he2, _⟩ := hin
          exact absurd he2 (List.not_mem_nil _)
        · exact hnew.2
      have hd1 : 1 ≤ d := by
        cases g with
        | nil => simp [List.isEmpty] at hge
        | cons p rest =>
          have hpe := hg p (List.mem_cons_self p rest)
          cases hfx : p.2.fields with
          | nil => exact absurd hfx hpe.2.2.1
          | cons f fs =>
            have hdp := hd p (List.mem_cons_self p rest) f
              (by rw [hfx]; exact List.mem_cons_self f fs)
            have h1 := depth_f_pos f
            omega
      have hrec := ih (d - 1) (entity_layer schema vars vds op g ⟨kid, []⟩).2.group
        (entity_layer schema vars vds op g ⟨kid, []⟩).2.key_id hlay.1 hd2
        (by omega)
      refine ⟨hrec.1, ?_⟩
      simp only [List.length_cons]
      have := hrec.2
      omega

/-- An upper bound on the depth of all fields of a field list. -/
def fdepths : List GField → Nat
  | [] => 0
  | f :: rest => max (depth_f f) (fdepths rest)

/-- An upper bound on the depth of all fields of a group. -/
def gdepth : FetchGroup → Nat
  | [] => 0
  | p :: rest => max (fdepths p.2.fields) (gdepth rest)

theorem fdepths_le : ∀ (fs : List GField), ∀ f ∈ fs, depth_f f ≤ fdepths fs := by
  intro fs
  induction fs with
  | nil => intro f hf; exact absurd hf (List.not_mem_nil f)
  | cons f2 rest ih =>
    intro f hf
    rcases List.mem_cons.mp hf with h | h
    · subst h; exact le_max_left _ _
    · exact le_trans (ih f h) (le_max_right _ _)

theorem gdepth_le : ∀ (g : FetchGroup), ∀ p ∈ g, ∀ f ∈ p.2.fields,
    depth_f f ≤ gdepth g := by
  intro g
  induction g with
  | nil => intro p hp; exact absurd hp (List.not_mem_nil p)
  | cons q rest ih =>
    intro p hp f hf
    rcases List.mem_cons.mp hp with h | h
    · subst h; exact le_trans (fdepths_le p.2.fields f hf) (le_max_left _ _)
    · exact le_trans (ih p h f hf) (le_max_right _ _)

/-- A non-empty group has an entry of minimal path length. -/
theorem exists_min_path : ∀ (l : FetchGroup), l ≠ [] →
    ∃ p ∈ l, ∀ q ∈ l, p.1.path.length ≤ q.1.path.length := by
  intro l
  induction l with
  | nil => intro h; exact absurd rfl h
  | cons a rest ih =>
    intro _
    cases rest with
    | nil =>
      refine ⟨a, List.mem_cons_self a [], ?_⟩
      intro q hq
      rcases List.mem_cons.mp hq with h | h
      · subst h; exact le_rfl
      · exact absurd h (List.not_mem_nil q)
    | cons b rest2 =>
      obtain ⟨p, hp, hmin⟩ := ih (by simp)
      by_cases hc : a.1.path.length ≤ p.1.path.length
      · refine ⟨a, List.mem_cons_self a _, ?_⟩
        intro q hq
        rcases List.mem_cons.mp hq with h | h
        · subst h; exact le_rfl
        · exact le_trans hc (hmin q h)
      · refine ⟨p, List.mem_cons_of_mem a hp, ?_⟩
        intro q hq
        rcases List.mem_cons.mp hq with h | h
        · subst h; omega
        · exact hmin q h

theorem cfk_list_append (xs ys : List PlanNodeP) :
    cfk_list (xs ++ ys) = cfk_list xs ++ cfk_list ys := by
  induction xs with
  | nil => simp [cfk_list]
  | cons a xs ih => simp [cfk_list, ih]

theorem cfk_collapse (n : PlanNodeP) :
    collect_flatten_keys (plan_collapse n) = collect_flatten_keys n := by
  cases n with
  | sequence ns =>
    match ns with
    | [] => rfl
    | [a] =>
      have h1 : plan_collapse (PlanNodeP.sequence [a]) = a := rfl
      rw [h1]
      simp [collect_flatten_keys, cfk_list]
    | a :: b :: rest => rfl
  | parallel ns =>
    match ns with
    | [] => rfl
    | [a] =>
      have h1 : plan_collapse (PlanNodeP.parallel [a]) = a := rfl
      rw [h1]
      simp [collect_flatten_keys, cfk_list]
    | a :: b :: rest => rfl
  | introspection fs => rfl
  | fetch s v q => rfl
  | flatten p x s v q => rfl

theorem cfk_fetch_nodes (vars : List (String × CV)) (vds : List VarDef)
    (op : OpType) (rg : List (String × SelectionRefSet)) :
    cfk_list (rg.map (mk_root_fetch vars vds op)) = [] := by
  induction rg with
  | nil => simp [cfk_list]
  | cons p rest ih =>
    simp [cfk_list, mk_root_fetch, collect_flatten_keys, ih]

theorem cfk_list_shell (c : Prop) [Decidable c] (xs : List String)
    (fn : PlanNodeP) (layers : List PlanNodeP) :
    cfk_list ((if c then ([] : List PlanNodeP)
        else [PlanNodeP.introspection xs]) ++ [fn] ++ layers) =
      collect_flatten_keys fn ++ cfk_list layers := by
  by_cases h : c
  · rw [if_pos h]
    simp [cfk_list_append, cfk_list]
  · rw [if_neg h]
    simp [cfk_list_append, cfk_list, collect_flatten_keys]

/-- One entity layer's Flatten triples are exactly the group's keys, in
order. -/
theorem entity_layer_keys {schema : SchemaP} (vars : List (String × CV))
    (vds : List VarDef) (op : OpType) :
    ∀ (g : FetchGroup) (st : PState), gOK schema g →
      cfk_list (entity_layer schema vars vds op g st).1 = g.map Prod.fst := by
  intro g
  induction g with
  | nil => intro st _; simp [entity_layer, cfk_list]
  | cons pe rest ih =>
    intro st hg
    obtain ⟨⟨ks, kp, kt⟩, e⟩ := pe
    have hty : e.parent_type.name = kt :=
      (hg (⟨ks, kp, kt⟩, e) (List.mem_cons_self _ rest)).2.1
    simp only [entity_layer, cfk_list, collect_flatten_keys, List.map_cons]
    rw [ih _ (fun p hp => hg p (List.mem_cons_of_mem _ hp))]
    simp [hty]

/-- The number of layers emitted by the entity loop is bounded by the number
of distinct Flatten triples it emits; moreover every emitted triple is at
least as deep as some starting entry. -/
theorem entity_loop_count {schema : SchemaP} (hn : schema_named schema)
    (vars : List (String × CV)) (vds : List VarDef) (op : OpType) :
    ∀ (fuel : Nat) (g : FetchGroup) (kid : Nat), gOK schema g →
      (entity_loop schema vars vds op fuel g kid).1.length ≤
        (cfk_list (entity_loop schema vars vds op fuel g kid).1).dedup.length ∧
      ∀ t ∈ cfk_list (entity_loop schema vars vds op fuel g kid).1,
        ∃ p ∈ g, p.1.path.length ≤ t.path.length := by
  intro fuel
  induction fuel with
  | zero =>
    intro g kid hg
    simp [entity_loop, cfk_list]
  | succ fuel ih =>
    intro g kid hg
    simp only [entity_loop]
    by_cases hge : g.isEmpty
    · rw [if_pos hge]
      simp [cfk_list]
    · rw [if_neg hge]
      have hgne : g ≠ [] := by
        cases g with
        | nil => simp [List.isEmpty] at hge
        | cons a rest => simp
      have hlay := entity_layer_bpost hn vars vds op (gdepth g) g ⟨kid, []⟩ hg
        (gdepth_le g) (fun p hp => absurd hp (List.not_mem_nil p))
      have htrace : ∀ p ∈ (entity_layer schema vars vds op g ⟨kid, []⟩).2.group,
          ∃ q ∈ g, q.1.path.length < p.1.path.length := by
        intro p hp
        have hpe := hlay.1 p hp
        cases hfx : p.2.fields with
        | nil => exact absurd hfx hpe.2.2.1
        | cons f fs =>
          rcases hlay.2 p hp f (by rw [hfx]; exact List.mem_cons_self f fs) with
            hin | hnew
          · obtain ⟨e2, he2, _⟩ := hin
            exact absurd he2 (List.not_mem_nil _)
          · exact hnew.1
      have ihr := ih (entity_layer schema vars vds op g ⟨kid, []⟩).2.group
        (entity_layer schema vars vds op g ⟨kid, []⟩).2.key_id hlay.1
      simp only [cfk_list, List.length_cons]
      rw [cfk_collapse]
      simp only [collect_flatten_keys]
      rw [entity_layer_keys vars vds op g ⟨kid, []⟩ hg]
      obtain ⟨pm, hpm, hmin⟩ := exists_min_path g hgne
      have hnotin : pm.1 ∉ cfk_list (entity_loop schema vars vds op fuel
          (entity_layer schema vars vds op g ⟨kid, []⟩).2.group
          (entity_layer schema vars vds op g ⟨kid, []⟩).2.key_id).1 := by
        intro hmem
        obtain ⟨p2, hp2, hle⟩ := ihr.2 pm.1 hmem
        obtain ⟨q, hq, hlt⟩ := htrace p2 hp2
        have hm2 := hmin q hq
        omega
      constructor
      · have hsub : insert pm.1 (cfk_list (entity_loop schema vars vds op fuel
              (entity_layer schema vars vds op g ⟨kid, []⟩).2.group
              (entity_layer schema vars vds op g ⟨kid, []⟩).2.key_id).1).toFinset ⊆
            (g.map Prod.fst ++ cfk_list (entity_loop schema vars vds op fuel
              (entity_layer schema vars vds op g ⟨kid, []⟩).2.group
              (entity_layer schema vars vds op g ⟨kid, []⟩).2.key_id).1).toFinset := by
          intro x hx
          rw [List.toFinset_append]
          rcases Finset.mem_insert.mp hx with h | h
          · subst h
            apply Finset.mem_union_left
            rw [List.mem_toFinset]
            exact List.mem_map.mpr ⟨pm, hpm, rfl⟩
          · exact Finset.mem_union_right _ h
        have hcard := Finset.card_le_card hsub
        rw [Finset.card_insert_of_not_mem
          (by rw [List.mem_toFinset]; exact hnotin)] at hcard
        have e1 := List.card_toFinset (g.map Prod.fst ++
          cfk_list (entity_loop schema vars vds op fuel
            (entity_layer schema vars vds op g ⟨kid, []⟩).2.group
            (entity_layer schema vars vds op g ⟨kid, []⟩).2.key_id).1)
        have e2 := List.card_toFinset (cfk_list (entity_loop schema vars vds op
          fuel (entity_layer schema vars vds op g ⟨kid, []⟩).2.group
          (entity_layer schema vars vds op g ⟨kid, []⟩).2.key_id).1)
        have h3 := ihr.1
        omega
      · intro t ht
        rcases List.mem_append.mp ht with h | h
        · obtain ⟨p, hp, hpe⟩ := List.mem_map.mp h
          subst hpe
          exact ⟨p, hp, le_rfl⟩
        · obtain ⟨p2, hp2, hle⟩ := ihr.2 t h
          obtain ⟨q, hq, hlt⟩ := htrace p2 hp2
          refine ⟨q, hq, ?_⟩
          omega

/-- Group guarantee of the root pass: starting from the empty group, every
created unit has depth at most the root selection set's depth. -/
theorem build_root_sels_bpost {schema : SchemaP} (hn : schema_named schema)
    (isMut : Bool) {pt : MetaTypeP} (hpt : in_schema schema pt) :
    ∀ sels rg st intro,
      bpost schema 0 (depth_sels sels) st
        (build_root_sels schema isMut rg st intro pt sels).2.1 := by
  suffices haux : ∀ N : Nat, ∀ sels : List Sel, sizeOf sels ≤ N →
      ∀ rg st intro,
        bpost schema 0 (depth_sels sels) st
          (build_root_sels schema isMut rg st intro pt sels).2.1 by
    intro sels rg st intro
    exact haux (sizeOf sels) sels le_rfl rg st intro
  intro N
  induction N using Nat.strong_induction_on with
  | _ N ih =>
    intro sels hsz rg st intro
    match sels with
    | [] =>
      rw [build_root_sels]
      exact bpost_refl schema _ _ st
    | Sel.field f :: rest =>
      have hszrest : sizeOf rest < sizeOf (Sel.field f :: rest) := by
        simp only [List.cons.sizeOf_spec]; omega
      have hszf : sizeOf f < sizeOf (Sel.field f :: rest) := by
        simp only [List.cons.sizeOf_spec, Sel.field.sizeOf_spec]; omega
      have hdeq : depth_sels (Sel.field f :: rest) =
          max (depth_f f) (depth_sels rest) := by rw [depth_sels]
      cases hfd : fields_get pt.fields f.name with
      | none =>
        simp only [build_root_sels, hfd]
        exact bpost_mono le_rfl (by rw [hdeq]; exact le_max_right _ _)
          (ih (sizeOf rest) (by omega) rest le_rfl rg st intro)
      | some fd =>
        simp only [build_root_sels, hfd]
        by_cases hin : is_introspection_field f.name = true
        · rw [if_pos hin]
          exact bpost_mono le_rfl (by rw [hdeq]; exact le_max_right _ _)
            (ih (sizeOf rest) (by omega) rest le_rfl rg st (intro ++ [f.name]))
        · rw [if_neg hin]
          cases hs : fd.service with
          | none =>
            simp only [hs]
            exact bpost_mono le_rfl (by rw [hdeq]; exact le_max_right _ _)
              (ih (sizeOf rest) (by omega) rest le_rfl rg st intro)
          | some service =>
            simp only [hs]
            exact bpost_comp
              (bpost_mono le_rfl (by rw [hdeq]; exact le_max_left _ _)
                (build_field_bpost hn hpt [] st service f))
              (bpost_mono le_rfl (by rw [hdeq]; exact le_max_right _ _)
                (ih (sizeOf rest) (by omega) rest le_rfl _ _ intro))
    | Sel.spread c body :: rest =>
      have hszb : sizeOf body < sizeOf (Sel.spread c body :: rest) := by
        simp only [List.cons.sizeOf_spec, Sel.spread.sizeOf_spec]; omega
      have hszr : sizeOf rest < sizeOf (Sel.spread c body :: rest) := by
        simp only [List.cons.sizeOf_spec]; omega
      have hdeq : depth_sels (Sel.spread c body :: rest) =
          max (depth_sels body) (depth_sels rest) := by rw [depth_sels]
      simp only [build_root_sels]
      exact bpost_comp
        (bpost_mono le_rfl (by rw [hdeq]; exact le_max_left _ _)
          (ih (sizeOf body) (by omega) body le_rfl rg st intro))
        (bpost_mono le_rfl (by rw [hdeq]; exact le_max_right _ _)
          (ih (sizeOf rest) (by omega) rest le_rfl _ _ _))
    | Sel.inline c body :: rest =>
      have hszb : sizeOf body < sizeOf (Sel.inline c body :: rest) := by
        simp only [List.cons.sizeOf_spec, Sel.inline.sizeOf_spec]; omega
      have hszr : sizeOf rest < sizeOf (Sel.inline c body :: rest) := by
        simp only [List.cons.sizeOf_spec]; omega
      have hdeq : depth_sels (Sel.inline c body :: rest) =
          max (depth_sels body) (depth_sels rest) := by rw [depth_sels]
      simp only [build_root_sels]
      exact bpost_comp
        (bpost_mono le_rfl (by rw [hdeq]; exact le_max_left _ _)
          (ih (sizeOf body) (by omega) body le_rfl rg st intro))
        (bpost_mono le_rfl (by rw [hdeq]; exact le_max_right _ _)
          (ih (sizeOf rest) (by omega) rest le_rfl _ _ _))

/-- C4: for every document whose root type lives in a name-coherent schema,
the entity-fetch loop terminates — with fuel one more than the root
selection depth the residual group is empty — and the number of emitted
Flatten layers is at most the number of distinct (service, response-path,
entity-type) triples among the plan's Flatten nodes. -/
theorem C4_entity_loop_termination (schema : SchemaP) (vars : List (String × CV))
    (vds : List VarDef) (pt : MetaTypeP) (sels : List Sel) (op : OpType)
    (kid0 : Nat) (hn : schema_named schema) (hpt : in_schema schema pt) :
    (build_root_selection_set schema op vars vds pt sels
      (depth_sels sels + 1) kid0).2.2.1 = [] ∧
    (build_root_selection_set schema op vars vds pt sels
      (depth_sels sels + 1) kid0).2.1.length ≤
      (collect_flatten_keys (build_root_selection_set schema op vars vds pt
        sels (depth_sels sels + 1) kid0).1).dedup.length := by
  have hb := build_root_sels_bpost hn (decide (op = OpType.mutation)) hpt sels
    [] ⟨kid0, []⟩ [] (fun p hp => absurd hp (List.not_mem_nil p))
  have hgX : gOK schema (build_root_sels schema (decide (op = OpType.mutation))
      [] ⟨kid0, []⟩ [] pt sels).2.1.group := hb.1
  have hdX : ∀ p ∈ (build_root_sels schema (decide (op = OpType.mutation))
      [] ⟨kid0, []⟩ [] pt sels).2.1.group, ∀ f ∈ p.2.fields,
      depth_f f ≤ depth_sels sels := by
    intro p hp f hf
    rcases hb.2 p hp f hf with hin | hnew
    · obtain ⟨e, he, _⟩ := hin
      exact absurd he (List.not_mem_nil _)
    · exact hnew.2
  have hempty := entity_loop_empty hn vars vds OpType.subscription
    (depth_sels sels + 1) (depth_sels sels)
    (build_root_sels schema (decide (op = OpType.mutation)) [] ⟨kid0, []⟩ []
      pt sels).2.1.group
    (build_root_sels schema (decide (op = OpType.mutation)) [] ⟨kid0, []⟩ []
      pt sels).2.1.key_id hgX hdX (by omega)
  have hcount := entity_loop_count hn vars vds OpType.subscription
    (depth_sels sels + 1)
    (build_root_sels schema (decide (op = OpType.mutation)) [] ⟨kid0, []⟩ []
      pt sels).2.1.group
    (build_root_sels schema (decide (op = OpType.mutation)) [] ⟨kid0, []⟩ []
      pt sels).2.1.key_id hgX
  constructor
  · simp only [build_root_selection_set]
    exact hempty.1
  · simp only [build_root_selection_set]
    rw [cfk_collapse]
    simp only [collect_flatten_keys]
    rw [cfk_list_shell]
    by_cases hq2 : op = OpType.query
    · rw [if_pos hq2, cfk_collapse]
      simp only [collect_flatten_keys]
      rw [cfk_fetch_nodes]
      simpa using hcount.1
    · rw [if_neg hq2, cfk_collapse]
      simp only [collect_flatten_keys]
      rw [cfk_fetch_nodes]
      simpa using hcount.1

/-- Concrete single-level key selection `id` for the C4 witness. -/
def wKey : KeyFields := KeyFields.mk [("id", KeyFields.mk [])]

/-- Concrete scalar type for the C4 witness. -/
def wString : MetaTypeP := ⟨"String", TypeKindM.scalar, none, [], [], []⟩

/-- Concrete `User` entity owned by service `a` with a field resolved by
service `b`, for the C4 witness. -/
def wUser : MetaTypeP :=
  ⟨"User", TypeKindM.object, some "a", [("a", [wKey]), ("b", [wKey])],
    [("id", ⟨"id", GType.named "String", none, none⟩),
     ("reviews", ⟨"reviews", GType.named "String", some "b", none⟩)], []⟩

/-- Concrete `Query` root type for the C4 witness. -/
def wQueryT : MetaTypeP :=
  ⟨"Query", TypeKindM.object, none, [],
    [("me", ⟨"me", GType.named "User", some "a", none⟩)], []⟩

/-- Concrete composed schema for the C4 witness. -/
def wS : SchemaP :=
  ⟨[("Query", wQueryT), ("User", wUser), ("String", wString)]⟩

/-- Concrete root selection `me { reviews }` for the C4 witness: `reviews`
lives on service `b` while `me` resolves on `a`, so the planner creates one
fetch-entity layer. -/
def wSels : List Sel :=
  [Sel.field (GField.mk "me" none [] []
    [Sel.field (GField.mk "reviews" none [] [] [])])]

theorem C4_witness :
    (build_root_selection_set wS OpType.query [] [] wQueryT wSels
      (depth_sels wSels + 1) 1).2.2.1 = [] ∧
    (build_root_selection_set wS OpType.query [] [] wQueryT wSels
      (depth_sels wSels + 1) 1).2.1.length ≤
      (collect_flatten_keys (build_root_selection_set wS OpType.query [] []
        wQueryT wSels (depth_sels wSels + 1) 1).1).dedup.length :=
  C4_entity_loop_termination wS [] [] wQueryT wSels OpType.query 1
    (by intro p hp; fin_cases hp <;> rfl) (by rfl)
